import Mathlib

/-! The `bits` output module of libsigrok (`src/output/bits.c`).

A shallow embedding of `init` and `receive` and of the data they work on,
followed by theorems about them.

Conventions of the embedding.

* `GString`, `char *`: lists of characters.
* `int`: `Int`.  Signed overflow is undefined in C; the column counter stays
  below `samples_per_line` in every state reached from `init`, and the model
  does not wrap it.  The conversion of the `strtoul` result to `int` keeps
  the low 32 bits.
* `uint64_t` (the sample loop index `i` and the bound
  `logic->length - logic->unitsize`): `Nat`, reduced modulo `2^64` after every
  operation.
* Arrays (`channel_index`, `channel_names`, `lines`): lists, read with a
  default and written with `List.set`.
* The sample buffer `logic->data`: a list of bytes.  Every dereference of `p`
  is recorded, as the offset `p - logic->data`, in the ghost component
  `reads`; a dereference outside the list (undefined in C) yields byte `0`.
* The sample loop need not terminate (`unitsize = 0`), so `receive` takes a
  bound `fuel` on the number of evaluations of the loop condition and
  returns `none` when it is exceeded.
-/

namespace Bits

/-- Text buffers. -/
abbrev GString := List Char

/-- `DEFAULT_SAMPLES_PER_LINE`, bits.c line 28. -/
def DEFAULT_SAMPLES_PER_LINE : Int := 64

/-- Return codes used by this file. -/
inductive retcode where
  | SR_OK
  | SR_ERR_ARG
deriving DecidableEq, Repr

/-- Channel types; only `SR_CHANNEL_LOGIC` is selected by `init`. -/
inductive channeltype where
  | SR_CHANNEL_LOGIC
  | SR_CHANNEL_ANALOG
deriving DecidableEq, Repr

/-- The fields of `struct sr_channel` that `init` reads. -/
structure sr_channel where
  index : Int
  type : channeltype
  enabled : Bool
  name : GString
deriving DecidableEq, Repr

/-- The fields of `struct sr_dev_inst` that `init` reads.  `samplerate` is
the outcome of `sr_config_get(.., SR_CONF_SAMPLERATE, ..)`: `none` when the
call does not return `SR_OK`. -/
structure sr_dev_inst where
  channels : List sr_channel
  samplerate : Option Nat
deriving DecidableEq, Repr

/-- `struct context`, bits.c lines 30-39. -/
structure context where
  num_enabled_channels : Nat
  samples_per_line : Int
  spl_cnt : Int
  trigger : Int
  channel_index : List Int
  channel_names : List GString
  lines : List GString
  header : Option GString
deriving DecidableEq, Repr

/-- The fields of `struct sr_output` used here.  `params` lists the entries
of the hash table in iteration order. -/
structure sr_output where
  sdi : Option sr_dev_inst
  params : List (GString × GString)
  internal : Option context
deriving DecidableEq, Repr

/-- `struct sr_datafeed_logic`. -/
structure sr_datafeed_logic where
  length : Nat
  unitsize : Nat
  data : List Nat
deriving DecidableEq, Repr

/-- Packets by `packet->type`; `SR_DF_OTHER` stands for every type the
`switch` of `receive` has no case for. -/
inductive sr_datafeed_packet where
  | SR_DF_TRIGGER
  | SR_DF_LOGIC (logic : sr_datafeed_logic)
  | SR_DF_END
  | SR_DF_OTHER
deriving DecidableEq, Repr

/-! ## Formatting and machine arithmetic -/

/-- The text `printf` produces for `%d`. -/
def fmt_d (x : Int) : GString :=
  if x < 0 then '-' :: Nat.toDigits 10 x.natAbs else Nat.toDigits 10 x.toNat

/-- Conversion of an `unsigned long` to `int` (keeps the low 32 bits, two's
complement), as in `spl = strtoul(..)`. -/
def ulong_to_int (v : Nat) : Int :=
  if v % 2 ^ 32 < 2 ^ 31 then ((v % 2 ^ 32 : Nat) : Int) else ((v % 2 ^ 32 : Nat) : Int) - 2 ^ 32

/-- Subtraction of `uint64_t` values. -/
def sub64 (a b : Nat) : Nat := (a % 2 ^ 64 + 2 ^ 64 - b % 2 ^ 64) % 2 ^ 64

/-- Addition of `uint64_t` values. -/
def add64 (a b : Nat) : Nat := (a + b) % 2 ^ 64

/-- The value of a byte read through a `gchar *` (signed char), promoted to
`int`. -/
def gchar_val (b : Nat) : Int :=
  if b % 256 < 128 then ((b % 256 : Nat) : Int) else ((b % 256 : Nat) : Int) - 256

/-- Dereference of `logic->data + off`. -/
def load (data : List Nat) (off : Int) : Int :=
  if off < 0 then gchar_val 0 else gchar_val (data.getD off.toNat 0)

/-- The expression `(*p & (1 << (idx % 8))) ? '1' : '0'`, bits.c line 151,
with `v` the value of `*p`. -/
def bit_char (v : Int) (idx : Int) : Char :=
  if Int.land v (2 ^ (idx.tmod 8).toNat) ≠ 0 then '1' else '0'

/-! ## init -/

/-- The parameter loop, bits.c lines 58-69: `none` stands for
`return SR_ERR_ARG`, `some spl` for leaving the loop with that `spl`.
`strtoul` is the C library function with base 10. -/
def init_params (strtoul : GString → Nat) : List (GString × GString) → Int → Option Int
  | [], spl => some spl
  | (key, value) :: rest, _ =>
    if key = "width".toList then
      if ulong_to_int (strtoul value) < 1 then none
      else init_params strtoul rest (ulong_to_int (strtoul value))
    else none

/-- The counting loop, bits.c lines 76-83. -/
def count_enabled : List sr_channel → Nat → Nat
  | [], n => n
  | ch :: l, n =>
    if ch.type ≠ channeltype.SR_CHANNEL_LOGIC then count_enabled l n
    else if !ch.enabled then count_enabled l n
    else count_enabled l (n + 1)

/-- The filling loop, bits.c lines 88-100, on the three arrays. -/
def fill_channels : List sr_channel → List Int × List GString × List GString →
    List Int × List GString × List GString
  | [], acc => acc
  | ch :: l, (idxs, names, lines) =>
    if ch.type ≠ channeltype.SR_CHANNEL_LOGIC then fill_channels l (idxs, names, lines)
    else if !ch.enabled then fill_channels l (idxs, names, lines)
    else fill_channels l (idxs ++ [ch.index], names ++ [ch.name], lines ++ [ch.name ++ [':']])

/-- The header text, bits.c lines 102-113. -/
def make_header (PACKAGE_STRING : GString) (sr_samplerate_string : Nat → GString)
    (sdi : sr_dev_inst) (num_enabled_channels : Nat) : GString :=
  match sdi.samplerate with
  | some samplerate =>
    PACKAGE_STRING ++ ['\n'] ++ "Acquisition with ".toList ++ fmt_d num_enabled_channels
      ++ ['/'] ++ fmt_d sdi.channels.length ++ " channels at ".toList
      ++ sr_samplerate_string samplerate ++ ['\n']
  | none => PACKAGE_STRING ++ ['\n']

/-- `init`, bits.c lines 41-116.  Returns the return code and the object
after the call.  `PACKAGE_STRING`, `sr_samplerate_string` and `strtoul` are
defined outside this file and are parameters. -/
def init (PACKAGE_STRING : GString) (sr_samplerate_string : Nat → GString)
    (strtoul : GString → Nat) (o : Option sr_output) : retcode × Option sr_output :=
  match o with
  | none => (retcode.SR_ERR_ARG, o)
  | some ob =>
    match ob.sdi with
    | none => (retcode.SR_ERR_ARG, o)
    | some sdi =>
      match init_params strtoul ob.params DEFAULT_SAMPLES_PER_LINE with
      | none => (retcode.SR_ERR_ARG, o)
      | some spl =>
        let n := count_enabled sdi.channels 0
        let arrays := fill_channels sdi.channels ([], [], [])
        let ctx : context :=
          { num_enabled_channels := n
            samples_per_line := spl
            spl_cnt := 0
            trigger := -1
            channel_index := arrays.1
            channel_names := arrays.2.1
            lines := arrays.2.2
            header := some (make_header PACKAGE_STRING sr_samplerate_string sdi n) }
        (retcode.SR_OK, some { ob with internal := some ctx })

/-! ## receive -/

/-- What the `SR_DF_LOGIC` case works on: the context, the text gathered in
`*out`, and the ghost list of offsets dereferenced so far. -/
structure loop_state where
  ctx : context
  out : GString
  reads : List Int
deriving DecidableEq, Repr

/-- The trigger annotation, `"T:%*s^ %d\n"` with field width `offset`,
bits.c lines 159-160. -/
def trigger_line (trigger : Int) : GString :=
  "T:".toList ++ List.replicate (trigger + trigger.tdiv 8).natAbs ' ' ++ "^ ".toList
    ++ fmt_d trigger ++ ['\n']

/-- Body of the channel loop, bits.c lines 149-167, for channel `j` of the
sample at byte offset `i`.  The loop runs it for `j < num_enabled_channels`
only, where the unsigned `num_enabled_channels - 1` does not wrap. -/
def channel_body (logic : sr_datafeed_logic) (i : Nat) (st : loop_state) (j : Nat) :
    loop_state :=
  let ctx := st.ctx
  let idx := ctx.channel_index.getD j 0
  let p : Int := (i : Int) + idx.tdiv 8
  let c := bit_char (load logic.data p) idx
  let line := ctx.lines.getD j [] ++ [c]
  if ctx.spl_cnt = ctx.samples_per_line then
    let out := st.out ++ line ++ ['\n']
    let seed := ctx.channel_names.getD j [] ++ [':']
    if j = ctx.num_enabled_channels - 1 ∧ ctx.trigger > -1 then
      { ctx := { ctx with trigger := -1, lines := ctx.lines.set j seed }
        out := out ++ trigger_line ctx.trigger
        reads := st.reads ++ [p] }
    else
      { ctx := { ctx with lines := ctx.lines.set j seed }
        out := out
        reads := st.reads ++ [p] }
  else if Int.land ctx.spl_cnt 7 = 0 then
    { ctx := { ctx with lines := ctx.lines.set j (line ++ [' ']) }
      out := st.out
      reads := st.reads ++ [p] }
  else
    { ctx := { ctx with lines := ctx.lines.set j line }
      out := st.out
      reads := st.reads ++ [p] }

/-- Body of the sample loop, bits.c lines 147-171. -/
def sample_body (logic : sr_datafeed_logic) (i : Nat) (st : loop_state) : loop_state :=
  let st1 : loop_state := { st with ctx := { st.ctx with spl_cnt := st.ctx.spl_cnt + 1 } }
  let st2 := (List.range st1.ctx.num_enabled_channels).foldl (channel_body logic i) st1
  if st2.ctx.spl_cnt = st2.ctx.samples_per_line then
    { st2 with ctx := { st2.ctx with spl_cnt := 0 } }
  else st2

/-- The sample loop, bits.c line 146:
`for (i = 0; i <= logic->length - logic->unitsize; i += logic->unitsize)`,
entered at index `i`. -/
def logic_loop (logic : sr_datafeed_logic) : Nat → Nat → loop_state → Option loop_state
  | 0, _, _ => none
  | fuel + 1, i, st =>
    if i ≤ sub64 logic.length logic.unitsize then
      logic_loop logic fuel (add64 i logic.unitsize) (sample_body logic i st)
    else some st

/-- Body of the flushing loop of `SR_DF_END`, bits.c lines 179-180. -/
def end_body (ctx : context) (out : GString) (i : Nat) : GString :=
  out ++ ctx.lines.getD i [] ++ ['\n']

/-- Outcome of a call of `receive`: return code, the context afterwards,
`*out`, and the ghost list of offsets dereferenced during the call. -/
structure receive_result where
  ret : retcode
  internal : Option context
  out : Option GString
  reads : List Int
deriving DecidableEq, Repr

/-- `receive`, bits.c lines 118-187. -/
def receive (fuel : Nat) (o : Option sr_output) (packet : sr_datafeed_packet) :
    Option receive_result :=
  match o with
  | none => some ⟨retcode.SR_ERR_ARG, none, none, []⟩
  | some ob =>
    match ob.sdi with
    | none => some ⟨retcode.SR_ERR_ARG, ob.internal, none, []⟩
    | some _ =>
      match ob.internal with
      | none => some ⟨retcode.SR_ERR_ARG, none, none, []⟩
      | some ctx =>
        match packet with
        | sr_datafeed_packet.SR_DF_TRIGGER =>
          some ⟨retcode.SR_OK, some { ctx with trigger := ctx.spl_cnt }, none, []⟩
        | sr_datafeed_packet.SR_DF_LOGIC logic =>
          let st0 : loop_state :=
            match ctx.header with
            | some header => ⟨{ ctx with header := none }, header, []⟩
            | none => ⟨ctx, [], []⟩
          match logic_loop logic fuel 0 st0 with
          | none => none
          | some st => some ⟨retcode.SR_OK, some st.ctx, some st.out, st.reads⟩
        | sr_datafeed_packet.SR_DF_END =>
          if ctx.spl_cnt ≠ 0 then
            some ⟨retcode.SR_OK, some ctx,
              some ((List.range ctx.num_enabled_channels).foldl (end_body ctx) []), []⟩
          else some ⟨retcode.SR_OK, some ctx, none, []⟩
        | sr_datafeed_packet.SR_DF_OTHER => some ⟨retcode.SR_OK, some ctx, none, []⟩

/-! ## Closed forms of the loops -/

/-- The arrays of a context have `num_enabled_channels` entries each, as
`init` allocates them. -/
def context.wf (ctx : context) : Prop :=
  ctx.channel_index.length = ctx.num_enabled_channels ∧
  ctx.channel_names.length = ctx.num_enabled_channels ∧
  ctx.lines.length = ctx.num_enabled_channels

instance (ctx : context) : Decidable ctx.wf := by
  unfold context.wf; infer_instance

/-- Offset of the byte holding bit `idx` of the sample at byte offset `i`. -/
def byte_offset (i : Nat) (idx : Int) : Int := (i : Int) + idx.tdiv 8

/-- The character decoded for bit `idx` of the sample at byte offset `i`. -/
def sample_bit (logic : sr_datafeed_logic) (i : Nat) (idx : Int) : Char :=
  bit_char (load logic.data (byte_offset i idx)) idx

/-- State of the channel loop after its first `k` iterations. -/
def channels_done (logic : sr_datafeed_logic) (i : Nat) (st : loop_state) (k : Nat) :
    loop_state :=
  let ctx := st.ctx
  let n := ctx.num_enabled_channels
  let idx (j : Nat) : Int := ctx.channel_index.getD j 0
  if ctx.spl_cnt = ctx.samples_per_line then
    { ctx := { ctx with
        trigger := if k = n ∧ 0 < n ∧ ctx.trigger > -1 then -1 else ctx.trigger
        lines := (List.range n).map (fun j =>
          if j < k then ctx.channel_names.getD j [] ++ [':'] else ctx.lines.getD j []) }
      out := st.out
        ++ ((List.range k).map (fun j =>
              ctx.lines.getD j [] ++ [sample_bit logic i (idx j)] ++ ['\n'])).flatten
        ++ (if k = n ∧ 0 < n ∧ ctx.trigger > -1 then trigger_line ctx.trigger else [])
      reads := st.reads ++ (List.range k).map (fun j => byte_offset i (idx j)) }
  else
    { ctx := { ctx with
        lines := (List.range n).map (fun j =>
          if j < k then
            ctx.lines.getD j [] ++ [sample_bit logic i (idx j)]
              ++ (if Int.land ctx.spl_cnt 7 = 0 then [' '] else [])
          else ctx.lines.getD j []) }
      out := st.out
      reads := st.reads ++ (List.range k).map (fun j => byte_offset i (idx j)) }

/-- Body of the sample loop in closed form. -/
def sample_step (logic : sr_datafeed_logic) (i : Nat) (st : loop_state) : loop_state :=
  let ctx := st.ctx
  if ctx.spl_cnt + 1 = ctx.samples_per_line then
    { ctx := { ctx with
        spl_cnt := 0
        trigger := if 0 < ctx.num_enabled_channels ∧ ctx.trigger > -1 then -1 else ctx.trigger
        lines := ctx.channel_names.map (fun name => name ++ [':']) }
      out := st.out
        ++ (List.zipWith (fun line idx => line ++ [sample_bit logic i idx] ++ ['\n'])
              ctx.lines ctx.channel_index).flatten
        ++ (if 0 < ctx.num_enabled_channels ∧ ctx.trigger > -1 then trigger_line ctx.trigger
            else [])
      reads := st.reads ++ ctx.channel_index.map (byte_offset i) }
  else
    { ctx := { ctx with
        spl_cnt := ctx.spl_cnt + 1
        lines := List.zipWith (fun line idx => line ++ [sample_bit logic i idx]
            ++ (if Int.land (ctx.spl_cnt + 1) 7 = 0 then [' '] else []))
          ctx.lines ctx.channel_index }
      out := st.out
      reads := st.reads ++ ctx.channel_index.map (byte_offset i) }

/-- The samples of a packet, each given by the packet and its byte offset. -/
def packet_samples (logic : sr_datafeed_logic) : List (sr_datafeed_logic × Nat) :=
  (List.range (logic.length / logic.unitsize)).map (fun s => (logic, s * logic.unitsize))

/-- The body of the sample loop run over a list of samples. -/
def run_samples (smps : List (sr_datafeed_logic × Nat)) (st : loop_state) : loop_state :=
  smps.foldl (fun st smp => sample_body smp.1 smp.2 st) st

/-! ### Bit decoding -/

/-- The Sample Decoder as the specification words it (4.4): byte position
`s * unit_size + k / 8`, bit position `k % 8`. -/
def decode_bit (data : List Nat) (unit_size s k : Nat) : Char :=
  if (data.getD (s * unit_size + k / 8) 0 >>> (k % 8)) &&& 1 = 1 then '1' else '0'

/-! ### Lines built over several samples -/

/-- Text added to a line buffer by the bits `bs` when `c` samples are already
on the line: every bit, and a space each time the count reaches a multiple
of 8. -/
def accumulate (c : Int) : List Char → List Char
  | [] => []
  | b :: bs => b :: ((if Int.land (c + 1) 7 = 0 then [' '] else []) ++ accumulate (c + 1) bs)

/-- Text of a line completed by the bits `bs`: as `accumulate`, without a
space after the final bit. -/
def line_tail (c : Int) : List Char → List Char
  | [] => []
  | [b] => [b]
  | b :: b' :: bs =>
    b :: ((if Int.land (c + 1) 7 = 0 then [' '] else []) ++ line_tail (c + 1) (b' :: bs))

/-- The bits of channel bit `idx` over a list of samples. -/
def stream_bits (smps : List (sr_datafeed_logic × Nat)) (idx : Int) : List Char :=
  smps.map (fun smp => sample_bit smp.1 smp.2 idx)

/-- The offsets dereferenced over a list of samples. -/
def stream_reads (smps : List (sr_datafeed_logic × Nat)) (idxs : List Int) : List Int :=
  smps.flatMap (fun smp => idxs.map (byte_offset smp.2))

/-- The state the sample loop of an `SR_DF_LOGIC` packet starts from: the
header, if still there, is moved into the output block. -/
def logic_start (ctx : context) : loop_state :=
  match ctx.header with
  | some header => ⟨{ ctx with header := none }, header, []⟩
  | none => ⟨ctx, [], []⟩

/-- A completed line in the words of the specification: the bits, with one
space after every 8th bit of the line except after the final bit; `n` bits
are already on the line. -/
def group_bits (n : Nat) : List Char → List Char
  | [] => []
  | [b] => [b]
  | b :: b' :: bs =>
    if (n + 1) % 8 = 0 then b :: ' ' :: group_bits (n + 1) (b' :: bs)
    else b :: group_bits (n + 1) (b' :: bs)

/-! ### Concrete sessions -/

/-- The C library function `strtoul` with base 10 and no end pointer:
leading white space, an optional sign, then decimal digits; `ULONG_MAX` on
overflow, negation modulo `2^64` after a minus sign, `0` without digits. -/
def strtoul10 (s : GString) : Nat :=
  let s1 := s.dropWhile (fun c => c = ' ' ∨ c = '\t' ∨ c = '\n' ∨ c = '\x0b' ∨ c = '\x0c' ∨ c = '\r')
  let neg := s1.head? = some '-'
  let s2 := match s1 with
    | '-' :: t => t
    | '+' :: t => t
    | _ => s1
  let v := (s2.takeWhile Char.isDigit).foldl (fun acc c => acc * 10 + (c.toNat - 48)) 0
  if 2 ^ 64 ≤ v then 2 ^ 64 - 1 else if neg then (2 ^ 64 - v) % 2 ^ 64 else v

/-- A device with two enabled logic channels, `D0` on bit 0 and `D1` on
bit 1, and no samplerate. -/
def scenario_sdi : sr_dev_inst :=
  { channels := [⟨0, channeltype.SR_CHANNEL_LOGIC, true, "D0".toList⟩,
                 ⟨1, channeltype.SR_CHANNEL_LOGIC, true, "D1".toList⟩]
    samplerate := none }

/-- The output object before `init`, with option `width=8`. -/
def scenario_output : sr_output :=
  { sdi := some scenario_sdi, params := [("width".toList, "8".toList)], internal := none }

/-- The context `init` creates for `scenario_output`, with the header
already consumed. -/
def scenario_ctx : context :=
  { num_enabled_channels := 2, samples_per_line := 8, spl_cnt := 0, trigger := -1
    channel_index := [0, 1], channel_names := ["D0".toList, "D1".toList]
    lines := ["D0:".toList, "D1:".toList], header := none }

/-- The session of the scenario: initialised, header consumed. -/
def scenario_session : sr_output := { scenario_output with internal := some scenario_ctx }

/-- Eight samples, `D0 = 1,0,1,0,1,0,1,0` and `D1 = 0,0,0,0,1,1,1,1`. -/
def scenario_packet : sr_datafeed_logic :=
  { length := 8, unitsize := 1, data := [1, 0, 1, 0, 3, 2, 3, 2] }

/-- The session state of the trigger scenario: width 8, three samples on the
line, trigger recorded at column 3. -/
def trigger_scenario_ctx : context :=
  { scenario_ctx with spl_cnt := 3, trigger := 3, lines := ["D0:101".toList, "D1:000".toList] }

/-- The five samples that complete the line of the trigger scenario. -/
def trigger_scenario_packet : sr_datafeed_logic :=
  { length := 5, unitsize := 1, data := [0, 3, 2, 3, 2] }

/-! ### Short buffers and the bounds of the reads -/

/-- A packet whose buffer is empty, with one byte per sample. -/
def empty_packet : sr_datafeed_logic := { length := 0, unitsize := 1, data := [] }

/-- A session whose only channel sits on bit 8 of the sample word. -/
def bit8_ctx : context :=
  { scenario_ctx with
    num_enabled_channels := 1, channel_index := [8]
    channel_names := ["D8".toList], lines := ["D8:".toList] }

/-- The session of `bit8_ctx`. -/
def bit8_session : sr_output := { scenario_output with internal := some bit8_ctx }

/-! ### Several lines, several packets -/

/-- The block flushed when a line is completed by the samples `smps`, from
freshly seeded line buffers: one line per channel. -/
def full_block (ctx : context) (smps : List (sr_datafeed_logic × Nat)) : GString :=
  (List.zipWith
    (fun name idx => name ++ [':'] ++ line_tail 0 (stream_bits smps idx) ++ ['\n'])
    ctx.channel_names ctx.channel_index).flatten

/-- The line buffers after the samples `smps` were added to freshly seeded
buffers without completing the line. -/
def unfinished_lines (ctx : context) (smps : List (sr_datafeed_logic × Nat)) : List GString :=
  List.zipWith
    (fun name idx => name ++ [':'] ++ accumulate 0 (stream_bits smps idx))
    ctx.channel_names ctx.channel_index

/-- A sequence of calls of `receive` on one output object, each call working
on the context the previous one left: the blocks of the calls in order, and
the object after the last call. -/
def receive_all (fuel : Nat) (o : sr_output) :
    List sr_datafeed_packet → Option (List (Option GString) × sr_output)
  | [] => some ([], o)
  | p :: ps =>
    match receive fuel (some o) p with
    | none => none
    | some r =>
      match receive_all fuel { o with internal := r.internal } ps with
      | none => none
      | some (outs, o1) => some (r.out :: outs, o1)

/-- The samples of a list of packets, in order. -/
def all_samples (pkts : List sr_datafeed_logic) : List (sr_datafeed_logic × Nat) :=
  pkts.flatMap packet_samples

/-- Conditions on a packet under which the sample loop is the plain walk
over its samples: at least one byte per sample, at least one sample, a
length that fits 64 bits. -/
def packet_ok (logic : sr_datafeed_logic) : Prop :=
  1 ≤ logic.unitsize ∧ logic.unitsize ≤ logic.length ∧ logic.length < 2 ^ 64

instance (logic : sr_datafeed_logic) : Decidable (packet_ok logic) := by
  unfold packet_ok; infer_instance

/-- The state `init` leaves, the header aside: arrays of equal length, an
empty line, no trigger, every line buffer seeded with `"<name>:"`. -/
def context.fresh (ctx : context) : Prop :=
  ctx.wf ∧ ctx.spl_cnt = 0 ∧ ctx.trigger = -1 ∧
  ctx.lines = ctx.channel_names.map (fun name => name ++ [':'])

instance (ctx : context) : Decidable ctx.fresh := by
  unfold context.fresh; infer_instance

/-- Text kept in a line buffer, in the words of the specification: the
bits, with a space after every 8th; `n` bits are already on the line. -/
def spaced_bits (n : Nat) : List Char → List Char
  | [] => []
  | b :: bs =>
    if (n + 1) % 8 = 0 then b :: ' ' :: spaced_bits (n + 1) bs
    else b :: spaced_bits (n + 1) bs

/-- Number of samples carried by a list of packets. -/
def total_samples (pkts : List sr_datafeed_logic) : Nat :=
  (pkts.map (fun l => l.length / l.unitsize)).sum

/-- One completed line per channel, in order, for the samples `smps`:
`"<name>:"`, the bits with a space after every 8th except the last, and a
newline. -/
def line_block (ctx : context) (smps : List (sr_datafeed_logic × Nat)) : GString :=
  (List.zipWith
    (fun name idx => name ++ [':'] ++ group_bits 0 (stream_bits smps idx) ++ ['\n'])
    ctx.channel_names ctx.channel_index).flatten

/-- One unfinished line per channel, in order, for the samples `smps`:
`"<name>:"`, the bits with a space after every 8th, and a newline. -/
def unfinished_block (ctx : context) (smps : List (sr_datafeed_logic × Nat)) : GString :=
  (List.zipWith
    (fun name idx => name ++ [':'] ++ spaced_bits 0 (stream_bits smps idx) ++ ['\n'])
    ctx.channel_names ctx.channel_index).flatten

/-! ### The header -/

/-- The block an `SR_DF_LOGIC` packet yields on the context `ctx` with its
header taken away. -/
def headerless_block (fuel : Nat) (o : sr_output) (ctx : context) (l : sr_datafeed_logic) :
    Option GString :=
  (receive fuel (some { o with internal := some { ctx with header := none } })
    (sr_datafeed_packet.SR_DF_LOGIC l)).bind (fun r => r.out)

/-! ### Instances of the theorems on the concrete session -/

/-- Two packets, three samples and then the eight samples of the scenario. -/
def witness_packets : List sr_datafeed_logic :=
  [⟨3, 1, [1, 0, 1]⟩, scenario_packet]

/-- The object `init` returns for `scenario_output`, for a package string
and a samplerate formatter chosen for the example. -/
def initialised_session : sr_output :=
  { scenario_output with
    internal := some { scenario_ctx with header := some ("libsigrok 0.3.0".toList ++ ['\n']) } }

/-- A trigger, two packets of the scenario and the end of the stream. -/
def witness_events : List sr_datafeed_packet :=
  [sr_datafeed_packet.SR_DF_TRIGGER, sr_datafeed_packet.SR_DF_LOGIC scenario_packet,
   sr_datafeed_packet.SR_DF_LOGIC scenario_packet, sr_datafeed_packet.SR_DF_END]

/-! ### Trigger packets, reset, caret -/

/-- A context with three samples on the line and an older trigger pending
at column 1. -/
def retrigger_ctx : context :=
  { scenario_ctx with spl_cnt := 3, trigger := 1, lines := ["D0:101".toList, "D1:000".toList] }

/-- A loop state whose next sample completes the line, with text of any
kind in the line buffers. -/
def before_flush_state : loop_state :=
  ⟨{ scenario_ctx with spl_cnt := 7, lines := ["xyz".toList, []] }, [], []⟩

/-- A loop state at the last channel of a flush, with a trigger pending at
column 3. -/
def caret_state : loop_state :=
  ⟨{ scenario_ctx with
      spl_cnt := 8, trigger := 3
      lines := ["D0:".toList, "D1:0000111".toList] }, "D0:10101010\n".toList, []⟩

/-! ### Event sequences at the end of a line and of the stream -/

/-- Three samples and then two `SR_DF_END` packets. -/
def double_end_events : List sr_datafeed_packet :=
  [sr_datafeed_packet.SR_DF_LOGIC ⟨3, 1, [1, 0, 1]⟩, sr_datafeed_packet.SR_DF_END,
   sr_datafeed_packet.SR_DF_END]

/-- A full line, a trigger right after its last sample, and the next full
line. -/
def boundary_events : List sr_datafeed_packet :=
  [sr_datafeed_packet.SR_DF_LOGIC scenario_packet, sr_datafeed_packet.SR_DF_TRIGGER,
   sr_datafeed_packet.SR_DF_LOGIC scenario_packet]

/-- The context three samples leave: the unfinished lines of the scenario
channels. -/
def three_samples_ctx : context :=
  { scenario_ctx with spl_cnt := 3, lines := ["D0:101".toList, "D1:000".toList] }

/-! ### The state invariant -/

/-- A line buffer holds `"<name>:"` followed by exactly `cnt` bit characters
with a space after every 8th. -/
def line_holds (cnt : Nat) (name line : GString) : Prop :=
  ∃ bits : List Char, bits.length = cnt ∧ (∀ b ∈ bits, b = '0' ∨ b = '1') ∧
    line = name ++ [':'] ++ spaced_bits 0 bits

/-- The invariant of a session between packets: consistent arrays, a column
count in `[0, width)`, a trigger that is absent (`-1`) or a column in
`[0, width)`, and every line buffer holding its name and `spl_cnt` bits. -/
def session_inv (ctx : context) : Prop :=
  ctx.wf ∧ 0 ≤ ctx.spl_cnt ∧ ctx.spl_cnt < ctx.samples_per_line ∧
  (ctx.trigger = -1 ∨ (0 ≤ ctx.trigger ∧ ctx.trigger < ctx.samples_per_line)) ∧
  List.Forall₂ (line_holds ctx.spl_cnt.toNat) ctx.channel_names ctx.lines

/-! ### Caret and sample column -/

/-- A loop state whose next sample completes the line of width 8, with a
trigger pending at column 3. -/
def aligned_state : loop_state :=
  ⟨{ scenario_ctx with
      spl_cnt := 7, trigger := 3
      lines := ["D0:1010101".toList, "D1:0000111".toList] }, [], []⟩

/-! ### Splitting a buffer into two packets -/

/-- The packet whose buffer is the buffer of `A` followed by the buffer of
`B`, with the unit size of `A`. -/
def join_packets (A B : sr_datafeed_logic) : sr_datafeed_logic :=
  { length := A.length + B.length, unitsize := A.unitsize, data := A.data ++ B.data }

/-! # Theorems -/

/-! ## Closed forms of the loops -/

theorem getD_map_range {α : Type} (F : Nat → α) (n k : Nat) (d : α) (hk : k < n) :
    ((List.range n).map F).getD k d = F k := by
  rw [List.getD_eq_getElem _ _ (by simpa using hk)]
  simp

theorem set_map_range {α : Type} (F : Nat → α) (n k : Nat) (x : α) :
    ((List.range n).map F).set k x = (List.range n).map (fun j => if j = k then x else F j) := by
  apply List.ext_getElem
  · simp
  · intro m h1 h2
    simp only [List.getElem_set, List.getElem_map, List.getElem_range]
    by_cases h : k = m
    · simp [h]
    · have h' : ¬ m = k := fun e => h e.symm
      simp [h, h']

theorem map_range_getD {α : Type} (l : List α) (d : α) :
    (List.range l.length).map (fun j => l.getD j d) = l := by
  apply List.ext_getElem
  · simp
  · intro m h1 h2
    simp only [List.getElem_map, List.getElem_range]
    exact List.getD_eq_getElem _ _ h2

theorem ite_succ_eq {α : Type} (A B : Nat → α) (j k : Nat) :
    (if j = k then A k else if j < k then A j else B j) = if j < k + 1 then A j else B j := by
  by_cases h1 : j = k
  · subst h1; simp
  · by_cases h2 : j < k
    · have h3 : j < k + 1 := by omega
      simp [h1, h2, h3]
    · have h3 : ¬ j < k + 1 := by omega
      simp [h1, h2, h3]

theorem channel_loop_eq (logic : sr_datafeed_logic) (i : Nat) (st : loop_state)
    (hlen : st.ctx.lines.length = st.ctx.num_enabled_channels) (k : Nat)
    (hk : k ≤ st.ctx.num_enabled_channels) :
    (List.range k).foldl (channel_body logic i) st = channels_done logic i st k := by
  induction k with
  | zero =>
    obtain ⟨ctx, out, reads⟩ := st
    obtain ⟨n, w, c, t, ci, cn, ls, h⟩ := ctx
    simp only at hlen
    subst hlen
    have h0 : ¬ ((0 : Nat) = ls.length ∧ 0 < ls.length ∧ t > -1) := by omega
    simp only [channels_done, h0, if_false, Nat.not_lt_zero, map_range_getD, List.range_zero,
      List.map_nil, List.flatten_nil, List.append_nil, List.foldl_nil, ite_self]
  | succ k ih =>
    have hk' : k < st.ctx.num_enabled_channels := hk
    rw [List.range_succ, List.foldl_append, ih (by omega)]
    obtain ⟨ctx, out, reads⟩ := st
    obtain ⟨n, w, c, t, ci, cn, ls, h⟩ := ctx
    simp only at hlen hk'
    have hkn : ¬ k = n := by omega
    have hlast : (k = n - 1) ↔ (k + 1 = n) := by omega
    have hpos : 0 < n := by omega
    simp only [List.foldl_cons, List.foldl_nil]
    by_cases hf : c = w
    · simp only [channels_done, hf, if_true, hkn, false_and, if_false, channel_body,
        getD_map_range _ _ _ _ hk', lt_irrefl, set_map_range, hlast, hpos, true_and,
        List.append_nil, sample_bit, byte_offset, List.range_succ, List.map_append,
        List.flatten_append, List.map_cons, List.map_nil, ite_succ_eq
          (fun j => cn.getD j [] ++ [':']) (fun j => ls.getD j []), List.flatten_cons,
        List.flatten_nil, List.append_assoc]
      by_cases hfire : k + 1 = n ∧ t > -1
      · simp only [hfire, and_self, if_true]
      · simp only [hfire, if_false, List.append_nil]
    · simp only [channels_done, hf, if_false, channel_body,
        getD_map_range _ _ _ _ hk', lt_irrefl, set_map_range,
        List.append_nil, sample_bit, byte_offset, List.range_succ, List.map_append,
        List.map_cons, List.map_nil, List.append_assoc]
      by_cases h7 : Int.land c 7 = 0
      · simp only [h7, if_true, ite_succ_eq
          (fun j => ls.getD j [] ++ ([bit_char (load logic.data (↑i + (ci.getD j 0).tdiv 8))
            (ci.getD j 0)] ++ [' '])) (fun j => ls.getD j [])]
      · simp only [h7, if_false, List.append_nil, ite_succ_eq
          (fun j => ls.getD j [] ++ [bit_char (load logic.data (↑i + (ci.getD j 0).tdiv 8))
            (ci.getD j 0)]) (fun j => ls.getD j [])]

theorem map_range_getD_map {α β : Type} (l : List α) (d : α) (G : α → β) (n : Nat)
    (h : l.length = n) : (List.range n).map (fun j => G (l.getD j d)) = l.map G := by
  subst h
  have := congrArg (List.map G) (map_range_getD l d)
  simpa [List.map_map, Function.comp_def] using this

theorem map_range_zipWith {α β γ : Type} (l1 : List α) (l2 : List β) (d1 : α) (d2 : β)
    (F : α → β → γ) (n : Nat) (h1 : l1.length = n) (h2 : l2.length = n) :
    (List.range n).map (fun j => F (l1.getD j d1) (l2.getD j d2)) = List.zipWith F l1 l2 := by
  apply List.ext_getElem
  · simp [h1, h2]
  · intro m hm1 hm2
    have e1 : m < l1.length := by simp at hm2; omega
    have e2 : m < l2.length := by simp at hm2; omega
    simp only [List.getElem_map, List.getElem_range, List.getElem_zipWith,
      List.getD_eq_getElem _ _ e1, List.getD_eq_getElem _ _ e2]

theorem map_range_ite_lt {α : Type} (A B : Nat → α) (n : Nat) :
    (List.range n).map (fun j => if j < n then A j else B j) = (List.range n).map A := by
  apply List.map_congr_left
  intro j hj
  simp [List.mem_range.mp hj]

theorem sample_body_eq (logic : sr_datafeed_logic) (i : Nat) (st : loop_state)
    (hwf : st.ctx.wf) : sample_body logic i st = sample_step logic i st := by
  obtain ⟨ctx, out, reads⟩ := st
  obtain ⟨n, w, c, t, ci, cn, ls, h⟩ := ctx
  obtain ⟨h1, h2, h3⟩ := hwf
  simp only at h1 h2 h3
  unfold sample_body
  simp only []
  rw [channel_loop_eq logic i _ h3 n (le_refl n)]
  by_cases hf : c + 1 = w
  · simp only [channels_done, sample_step, hf, if_true, true_and, map_range_ite_lt,
      map_range_getD_map cn [] (fun name => name ++ [':']) n h2,
      map_range_getD_map ci 0 (byte_offset i) n h1,
      map_range_zipWith ls ci [] 0 (fun line idx => line ++ [sample_bit logic i idx] ++ ['\n'])
        n h3 h1]
  · simp only [channels_done, sample_step, hf, if_false, map_range_ite_lt,
      map_range_getD_map ci 0 (byte_offset i) n h1,
      map_range_zipWith ls ci [] 0 (fun line idx => line ++ [sample_bit logic i idx]
            ++ (if Int.land (c + 1) 7 = 0 then [' '] else [])) n h3 h1]

theorem sample_step_wf (logic : sr_datafeed_logic) (i : Nat) (st : loop_state)
    (hwf : st.ctx.wf) : (sample_step logic i st).ctx.wf := by
  obtain ⟨h1, h2, h3⟩ := hwf
  unfold sample_step
  by_cases hf : st.ctx.spl_cnt + 1 = st.ctx.samples_per_line
  · simp only [hf, if_true]
    exact ⟨h1, h2, by simp [h2]⟩
  · simp only [hf, if_false]
    exact ⟨h1, h2, by simp [h1, h3]⟩

theorem sub64_eq (a b : Nat) (hb : b ≤ a) (ha : a < 2 ^ 64) : sub64 a b = a - b := by
  unfold sub64
  have hb' : b < 2 ^ 64 := by omega
  rw [Nat.mod_eq_of_lt ha, Nat.mod_eq_of_lt hb']
  have : a + 2 ^ 64 - b = (a - b) + 2 ^ 64 := by omega
  rw [this, Nat.add_mod_right, Nat.mod_eq_of_lt (by omega)]

theorem logic_loop_from (logic : sr_datafeed_logic) (hu : 1 ≤ logic.unitsize)
    (hl : logic.unitsize ≤ logic.length) (h64 : logic.length < 2 ^ 64) (m : Nat) :
    ∀ (s fuel : Nat) (st : loop_state), s + m = logic.length / logic.unitsize → m < fuel →
      logic_loop logic fuel (s * logic.unitsize) st
        = some (run_samples ((List.range' s m).map (fun s => (logic, s * logic.unitsize))) st) := by
  have hq : logic.length / logic.unitsize * logic.unitsize ≤ logic.length :=
    Nat.div_mul_le_self _ _
  have hr : logic.length < (logic.length / logic.unitsize + 1) * logic.unitsize := by
    have := Nat.div_add_mod logic.length logic.unitsize
    have := Nat.mod_lt logic.length (show 0 < logic.unitsize by omega)
    rw [Nat.add_mul, Nat.one_mul, Nat.mul_comm]
    omega
  rw [Nat.add_mul, Nat.one_mul] at hr
  induction m with
  | zero =>
    intro s fuel st hs hfuel
    obtain ⟨f, rfl⟩ : ∃ f, fuel = f + 1 := ⟨fuel - 1, by omega⟩
    simp only [Nat.add_zero] at hs
    subst hs
    have : ¬ (logic.length / logic.unitsize * logic.unitsize ≤ sub64 logic.length logic.unitsize) := by
      rw [sub64_eq _ _ hl h64]; omega
    simp [logic_loop, this, run_samples]
  | succ m ih =>
    intro s fuel st hs hfuel
    obtain ⟨f, rfl⟩ : ∃ f, fuel = f + 1 := ⟨fuel - 1, by omega⟩
    have hle : (s + 1) * logic.unitsize ≤ logic.length / logic.unitsize * logic.unitsize :=
      Nat.mul_le_mul_right _ (by omega)
    have hs1 : (s + 1) * logic.unitsize = s * logic.unitsize + logic.unitsize := by
      rw [Nat.add_mul, Nat.one_mul]
    have hc : s * logic.unitsize ≤ sub64 logic.length logic.unitsize := by
      rw [sub64_eq _ _ hl h64]; omega
    have ha : add64 (s * logic.unitsize) logic.unitsize = (s + 1) * logic.unitsize := by
      unfold add64
      rw [Nat.mod_eq_of_lt (by omega), hs1]
    rw [logic_loop, if_pos hc, ha, ih (s + 1) f _ (by omega) (by omega)]
    simp [run_samples, List.range'_succ]

theorem logic_loop_eq (logic : sr_datafeed_logic) (hu : 1 ≤ logic.unitsize)
    (hl : logic.unitsize ≤ logic.length) (h64 : logic.length < 2 ^ 64) (fuel : Nat)
    (hfuel : logic.length / logic.unitsize < fuel) (st : loop_state) :
    logic_loop logic fuel 0 st = some (run_samples (packet_samples logic) st) := by
  have := logic_loop_from logic hu hl h64 (logic.length / logic.unitsize) 0 fuel st
    (by omega) hfuel
  rw [Nat.zero_mul] at this
  rw [this, packet_samples, List.range_eq_range']

theorem run_samples_eq (smps : List (sr_datafeed_logic × Nat)) :
    ∀ st : loop_state, st.ctx.wf →
      run_samples smps st = smps.foldl (fun st smp => sample_step smp.1 smp.2 st) st := by
  induction smps with
  | nil => intro st _; rfl
  | cons smp rest ih =>
    intro st hwf
    have h := ih (sample_step smp.1 smp.2 st) (sample_step_wf _ _ _ hwf)
    simp only [run_samples, List.foldl_cons] at h ⊢
    rw [sample_body_eq _ _ _ hwf, h]

theorem run_samples_wf (smps : List (sr_datafeed_logic × Nat)) :
    ∀ st : loop_state, st.ctx.wf → (run_samples smps st).ctx.wf := by
  induction smps with
  | nil => intro st h; exact h
  | cons smp rest ih =>
    intro st hwf
    have h := ih (sample_step smp.1 smp.2 st) (sample_step_wf _ _ _ hwf)
    simp only [run_samples, List.foldl_cons] at h ⊢
    rw [sample_body_eq _ _ _ hwf]
    exact h

theorem run_samples_append (a b : List (sr_datafeed_logic × Nat)) (st : loop_state) :
    run_samples (a ++ b) st = run_samples b (run_samples a st) := by
  simp [run_samples, List.foldl_append]

/-! ### Bit decoding -/

theorem ldiff_two_pow (k m : Nat) :
    Nat.ldiff (2 ^ k) m = if m.testBit k then 0 else 2 ^ k := by
  apply Nat.eq_of_testBit_eq
  intro i
  rw [Nat.testBit_ldiff]
  by_cases h : m.testBit k
  · simp only [h, if_true, Nat.zero_testBit, Nat.testBit_two_pow]
    by_cases e : k = i
    · subst e; simp [h]
    · simp [e]
  · simp only [h, Nat.testBit_two_pow]
    by_cases e : k = i
    · subst e; simp [h]
    · simp [e]

theorem land_two_pow_ne_zero (a k : Nat) : a &&& 2 ^ k ≠ 0 ↔ a.testBit k = true := by
  rw [Nat.and_two_pow]
  by_cases h : a.testBit k <;> simp [h]

/-- Sign extension of the byte does not disturb the test of bits 0..7. -/
theorem gchar_land (b k : Nat) (hk : k < 8) :
    Int.land (gchar_val b) (2 ^ k) ≠ 0 ↔ b.testBit k = true := by
  have hmod : (b % 256).testBit k = b.testBit k := by
    have := Nat.testBit_mod_two_pow b 8 k
    simpa [hk] using this
  have hpow : ((2 : Int) ^ k) = ((2 ^ k : Nat) : Int) := by push_cast; rfl
  rw [hpow, ← hmod]
  unfold gchar_val
  by_cases hs : b % 256 < 128
  · rw [if_pos hs]
    show (((b % 256 &&& 2 ^ k : Nat)) : Int) ≠ 0 ↔ _
    rw [Ne, Int.natCast_eq_zero]
    exact land_two_pow_ne_zero _ _
  · rw [if_neg hs]
    have hlt : b % 256 < 256 := Nat.mod_lt _ (by norm_num)
    have e : ((b % 256 : Nat) : Int) - 256 = Int.negSucc (255 - b % 256) := by
      rw [Int.negSucc_eq]; omega
    rw [e]
    show ((Nat.ldiff (2 ^ k) (255 - b % 256) : Nat) : Int) ≠ 0 ↔ _
    rw [Ne, Int.natCast_eq_zero, ldiff_two_pow]
    have hx : 255 - b % 256 < 2 ^ 8 := by norm_num; omega
    have hb : b % 256 = 2 ^ 8 - ((255 - b % 256) + 1) := by norm_num; omega
    have h2 := Nat.testBit_two_pow_sub_succ hx k
    rw [← hb] at h2
    rw [h2]
    have hp : (2:Nat) ^ k ≠ 0 := by positivity
    by_cases ht : (255 - b % 256).testBit k <;> simp [ht, hk, hp]

theorem shift_and_one (b k : Nat) : (b >>> k) &&& 1 = 1 ↔ b.testBit k = true := by
  rw [Nat.testBit_to_div_mod, Nat.shiftRight_eq_div_pow, Nat.and_one_is_mod]
  simp

theorem sample_bit_nat (logic : sr_datafeed_logic) (i k : Nat) :
    sample_bit logic i (k : Int)
      = if (logic.data.getD (i + k / 8) 0 >>> (k % 8)) &&& 1 = 1 then '1' else '0' := by
  have hd : (k : Int).tdiv 8 = ((k / 8 : Nat) : Int) := by
    rw [Int.tdiv_eq_ediv (by omega) (by norm_num)]; norm_cast
  have hm : (k : Int).tmod 8 = ((k % 8 : Nat) : Int) := by
    rw [Int.tmod_eq_emod (by omega) (by norm_num)]; norm_cast
  have hoff : byte_offset i (k : Int) = ((i + k / 8 : Nat) : Int) := by
    unfold byte_offset; rw [hd]; norm_cast
  have hneg : ¬ (((i + k / 8 : Nat) : Int) < 0) := by omega
  unfold sample_bit bit_char load
  rw [hoff, hm, if_neg hneg, Int.toNat_ofNat, Int.toNat_ofNat]
  have h1 := gchar_land (logic.data.getD (i + k / 8) 0) (k % 8) (Nat.mod_lt _ (by norm_num))
  have h2 := shift_and_one (logic.data.getD (i + k / 8) 0) (k % 8)
  by_cases hb : (logic.data.getD (i + k / 8) 0).testBit (k % 8) = true
  · rw [if_pos (h1.mpr hb), if_pos (h2.mpr hb)]
  · rw [if_neg (fun h => hb (h1.mp h)), if_neg (fun h => hb (h2.mp h))]

theorem sample_bit_eq (logic : sr_datafeed_logic) (s : Nat) (idx : Int) (h : 0 ≤ idx) :
    sample_bit logic (s * logic.unitsize) idx
      = decode_bit logic.data logic.unitsize s idx.toNat := by
  obtain ⟨k, rfl⟩ := Int.eq_ofNat_of_zero_le h
  rw [sample_bit_nat, Int.toNat_ofNat]
  rfl

/-! ### Lines built over several samples -/

theorem line_tail_snoc (c : Int) (pre : List Char) (b : Char) :
    line_tail c (pre ++ [b]) = accumulate c pre ++ [b] := by
  induction pre generalizing c with
  | nil => rfl
  | cons x xs ih =>
    cases xs with
    | nil => simp [line_tail, accumulate]
    | cons y ys =>
      have := ih (c + 1)
      simp only [List.cons_append] at this ⊢
      simp only [line_tail, accumulate, this, List.cons_append, List.append_assoc]

theorem zipWith_left_id {α β : Type} (l1 : List α) (l2 : List β)
    (h : l1.length = l2.length) : List.zipWith (fun a _ => a) l1 l2 = l1 := by
  induction l1 generalizing l2 with
  | nil => simp
  | cons a l ih =>
    cases l2 with
    | nil => simp at h
    | cons b l2 => simp at h; simp [ih l2 h]

theorem zipWith_comp {α β : Type} (F G : α → β → α) (l1 : List α) (l2 : List β) :
    List.zipWith F (List.zipWith G l1 l2) l2 = List.zipWith (fun a b => F (G a b) b) l1 l2 := by
  induction l1 generalizing l2 with
  | nil => simp
  | cons a l ih =>
    cases l2 with
    | nil => simp
    | cons b l2 => simp [ih l2]

/-- Samples that do not complete the line: only the line buffers and the
counter change. -/
theorem run_unfinished (smps : List (sr_datafeed_logic × Nat)) :
    ∀ st : loop_state, st.ctx.wf →
      (∀ k : Nat, k < smps.length → st.ctx.spl_cnt + k + 1 ≠ st.ctx.samples_per_line) →
      run_samples smps st =
        { ctx := { st.ctx with
            spl_cnt := st.ctx.spl_cnt + smps.length
            lines := List.zipWith
              (fun line idx => line ++ accumulate st.ctx.spl_cnt (stream_bits smps idx))
              st.ctx.lines st.ctx.channel_index }
          out := st.out
          reads := st.reads ++ stream_reads smps st.ctx.channel_index } := by
  induction smps with
  | nil =>
    intro st hwf _
    obtain ⟨ctx, out, reads⟩ := st
    obtain ⟨n, w, c, t, ci, cn, ls, h⟩ := ctx
    obtain ⟨h1, h2, h3⟩ := hwf
    simp only at h1 h2 h3
    simp [run_samples, stream_bits, stream_reads, accumulate,
      zipWith_left_id ls ci (by omega)]
  | cons smp rest ih =>
    intro st hwf hno
    have h0 : ¬ (st.ctx.spl_cnt + 1 = st.ctx.samples_per_line) := by
      have := hno 0 (by simp)
      simpa using this
    have hstep : sample_body smp.1 smp.2 st = sample_step smp.1 smp.2 st :=
      sample_body_eq _ _ _ hwf
    have hwf' := sample_step_wf smp.1 smp.2 st hwf
    have hrun : run_samples (smp :: rest) st = run_samples rest (sample_step smp.1 smp.2 st) := by
      simp only [run_samples, List.foldl_cons, hstep]
    rw [hrun, ih _ hwf']
    · obtain ⟨ctx, out, reads⟩ := st
      obtain ⟨n, w, c, t, ci, cn, ls, h⟩ := ctx
      simp only at h0
      simp only [sample_step, h0, if_false, zipWith_comp, stream_bits, stream_reads,
        List.map_cons, accumulate, List.flatMap_cons, List.length_cons, List.append_assoc,
        List.cons_append, List.nil_append, List.singleton_append]
      push_cast
      simp only [add_assoc, add_comm (1 : Int)]
    · intro k hk
      have := hno (k + 1) (by simpa using hk)
      simp only [sample_step, h0, if_false]
      push_cast at this
      omega

/-- Samples of which the last one completes the line: every line is flushed
to the output, the trigger annotation follows if a trigger is pending and
there is a channel, and the line buffers are seeded again. -/
theorem run_line (pre : List (sr_datafeed_logic × Nat)) (last : sr_datafeed_logic × Nat)
    (st : loop_state) (hwf : st.ctx.wf)
    (hfull : st.ctx.spl_cnt + pre.length + 1 = st.ctx.samples_per_line) :
    run_samples (pre ++ [last]) st =
      { ctx := { st.ctx with
          spl_cnt := 0
          trigger := if 0 < st.ctx.num_enabled_channels ∧ st.ctx.trigger > -1 then -1
            else st.ctx.trigger
          lines := st.ctx.channel_names.map (fun name => name ++ [':']) }
        out := st.out
          ++ (List.zipWith
                (fun line idx =>
                  line ++ line_tail st.ctx.spl_cnt (stream_bits (pre ++ [last]) idx) ++ ['\n'])
                st.ctx.lines st.ctx.channel_index).flatten
          ++ (if 0 < st.ctx.num_enabled_channels ∧ st.ctx.trigger > -1
              then trigger_line st.ctx.trigger else [])
        reads := st.reads ++ stream_reads (pre ++ [last]) st.ctx.channel_index } := by
  have hno : ∀ k : Nat, k < pre.length →
      st.ctx.spl_cnt + k + 1 ≠ st.ctx.samples_per_line := by
    intro k hk; omega
  have hwf' := run_samples_wf pre st hwf
  rw [run_samples_append, run_unfinished pre st hwf hno]
  rw [run_unfinished pre st hwf hno] at hwf'
  have hone : ∀ s : loop_state, run_samples [last] s = sample_body last.1 last.2 s := by
    intro s; rfl
  rw [hone, sample_body_eq _ _ _ hwf']
  obtain ⟨ctx, out, reads⟩ := st
  obtain ⟨n, w, c, t, ci, cn, ls, h⟩ := ctx
  simp only at hfull
  simp only [sample_step, hfull, if_true, zipWith_comp, stream_bits, stream_reads,
    List.map_append, List.map_cons, List.map_nil, line_tail_snoc, List.flatMap_append,
    List.flatMap_cons, List.flatMap_nil, List.append_nil, List.append_assoc]

theorem receive_logic (fuel : Nat) (o : sr_output) (sdi : sr_dev_inst) (ctx : context)
    (logic : sr_datafeed_logic) (hsdi : o.sdi = some sdi) (hint : o.internal = some ctx)
    (hu : 1 ≤ logic.unitsize) (hl : logic.unitsize ≤ logic.length)
    (h64 : logic.length < 2 ^ 64) (hfuel : logic.length / logic.unitsize < fuel) :
    receive fuel (some o) (sr_datafeed_packet.SR_DF_LOGIC logic)
      = some ⟨retcode.SR_OK,
          some (run_samples (packet_samples logic) (logic_start ctx)).ctx,
          some (run_samples (packet_samples logic) (logic_start ctx)).out,
          (run_samples (packet_samples logic) (logic_start ctx)).reads⟩ := by
  have hloop := logic_loop_eq logic hu hl h64 fuel hfuel (logic_start ctx)
  unfold logic_start at hloop
  unfold receive logic_start
  simp only [hsdi, hint]
  cases hh : ctx.header with
  | none => simp only [hh] at hloop ⊢; rw [hloop]
  | some hdr => simp only [hh] at hloop ⊢; rw [hloop]

theorem land_seven (n : Nat) : Int.land ((n : Int) + 1) 7 = 0 ↔ (n + 1) % 8 = 0 := by
  have e : Int.land ((n : Int) + 1) 7 = (((n + 1) &&& 7 : Nat) : Int) := rfl
  have e2 : (n + 1) &&& 7 = (n + 1) % 8 := Nat.and_pow_two_sub_one_eq_mod (n + 1) 3
  rw [e, e2]
  exact Int.natCast_eq_zero

theorem line_tail_nat (n : Nat) (bits : List Char) :
    line_tail (n : Int) bits = group_bits n bits := by
  induction bits generalizing n with
  | nil => rfl
  | cons b bs ih =>
    cases bs with
    | nil => rfl
    | cons b' bs =>
      have h := ih (n + 1)
      push_cast at h
      by_cases h8 : (n + 1) % 8 = 0
      · simp [line_tail, group_bits, h8, (land_seven n).mpr h8, h]
      · have : ¬ Int.land ((n : Int) + 1) 7 = 0 := fun e => h8 ((land_seven n).mp e)
        simp [line_tail, group_bits, h8, this, h]

theorem zipWith_congr_mem {α β γ : Type} (f g : α → β → γ) (l1 : List α) (l2 : List β)
    (h : ∀ b ∈ l2, ∀ a, f a b = g a b) : List.zipWith f l1 l2 = List.zipWith g l1 l2 := by
  induction l1 generalizing l2 with
  | nil => simp
  | cons a l ih =>
    cases l2 with
    | nil => simp
    | cons b l2 =>
      simp only [List.zipWith_cons_cons]
      rw [h b (by simp) a, ih l2 (fun b hb a => h b (by simp [hb]) a)]

theorem packet_samples_succ (logic : sr_datafeed_logic) (m : Nat)
    (h : logic.length / logic.unitsize = m + 1) :
    packet_samples logic
      = (List.range m).map (fun s => (logic, s * logic.unitsize)) ++ [(logic, m * logic.unitsize)] := by
  simp [packet_samples, h, List.range_succ]

theorem stream_bits_packet (logic : sr_datafeed_logic) (idx : Int) :
    stream_bits (packet_samples logic) idx
      = (List.range (logic.length / logic.unitsize)).map
          (fun s => sample_bit logic (s * logic.unitsize) idx) := by
  simp [stream_bits, packet_samples, Function.comp_def]

/-- C1. Full-line rendering: from a state with an empty line (column count 0,
header consumed, no pending trigger, every line buffer `"<name>:"`), a packet
of exactly `w = width` samples yields the output block made, for each channel
in order, of `"<name>:"`, the `w` decoded bits with a space after every 8th
bit except the last, and a newline; nothing else. -/
theorem full_line_rendering (w : Nat) (hw : 1 ≤ w) (o : sr_output) (sdi : sr_dev_inst)
    (ctx : context) (logic : sr_datafeed_logic)
    (hsdi : o.sdi = some sdi) (hint : o.internal = some ctx) (hwf : ctx.wf)
    (hu : 1 ≤ logic.unitsize) (hlen : logic.length = w * logic.unitsize)
    (h64 : logic.length < 2 ^ 64)
    (hidx : ∀ idx ∈ ctx.channel_index, 0 ≤ idx)
    (hwidth : ctx.samples_per_line = w) (hcnt : ctx.spl_cnt = 0)
    (hhdr : ctx.header = none) (htrig : ctx.trigger = -1)
    (hlines : ctx.lines = ctx.channel_names.map (fun name => name ++ [':']))
    (fuel : Nat) (hfuel : w < fuel) :
    ∃ r, receive fuel (some o) (sr_datafeed_packet.SR_DF_LOGIC logic) = some r ∧
      r.ret = retcode.SR_OK ∧
      r.out = some (List.zipWith
        (fun name idx => name ++ [':']
          ++ group_bits 0 ((List.range w).map
              (fun s => decode_bit logic.data logic.unitsize s idx.toNat))
          ++ ['\n'])
        ctx.channel_names ctx.channel_index).flatten := by
  have hdiv : logic.length / logic.unitsize = w := by
    rw [hlen]; exact Nat.mul_div_cancel _ (by omega)
  have hl : logic.unitsize ≤ logic.length := by
    rw [hlen]; exact Nat.le_mul_of_pos_left _ (by omega)
  refine ⟨_, receive_logic fuel o sdi ctx logic hsdi hint hu hl h64 (by omega), rfl, ?_⟩
  obtain ⟨m, rfl⟩ : ∃ m, w = m + 1 := ⟨w - 1, by omega⟩
  have hst : logic_start ctx = ⟨ctx, [], []⟩ := by simp [logic_start, hhdr]
  have hbits := stream_bits_packet logic
  rw [packet_samples_succ logic m hdiv] at hbits ⊢
  rw [hst, run_line _ _ _ hwf (by simp [hcnt, hwidth])]
  simp only [htrig, hcnt, hlines, hbits, hdiv, List.nil_append, List.zipWith_map_left]
  have h0 := line_tail_nat 0
  simp only [Nat.cast_zero] at h0
  simp only [h0, gt_iff_lt, lt_self_iff_false, and_false, if_false, List.append_nil]
  congr 2
  apply zipWith_congr_mem
  intro idx hmem name
  have hmap : (List.range (m + 1)).map (fun s => sample_bit logic (s * logic.unitsize) idx)
      = (List.range (m + 1)).map (fun s => decode_bit logic.data logic.unitsize s idx.toNat) :=
    List.map_congr_left (fun s _ => sample_bit_eq logic s idx (hidx idx hmem))
  rw [hmap]

/-! ### Concrete sessions -/

theorem scenario_init (PACKAGE_STRING : GString) (sr_samplerate_string : Nat → GString) :
    init PACKAGE_STRING sr_samplerate_string strtoul10 (some scenario_output)
      = (retcode.SR_OK, some { scenario_output with
          internal := some { scenario_ctx with header := some (PACKAGE_STRING ++ ['\n']) } }) := by
  rfl

/-- C2 (as stated, refuted). The block produced for the scenario is not the
text with a space between every two bits. -/
theorem scenario_spaced_text_refuted :
    (receive 9 (some scenario_session) (sr_datafeed_packet.SR_DF_LOGIC scenario_packet)).map
        (fun r => r.out)
      ≠ some (some "D0:1 0 1 0 1 0 1 0\nD1:0 0 0 0 1 1 1 1\n".toList) := by
  decide

/-- C2 (amended). With width 8, channels `D0` (bit 0) and `D1` (bit 1) and the
eight samples of the scenario, processed after the header was consumed, the
output block is exactly `"D0:10101010\n"` followed by `"D1:00001111\n"`. -/
theorem scenario_output_block :
    (receive 9 (some scenario_session) (sr_datafeed_packet.SR_DF_LOGIC scenario_packet)).map
        (fun r => r.out)
      = some (some "D0:10101010\nD1:00001111\n".toList) := by
  decide

/-- C3. Bit decoding: when channel `j` has bit index `k ≥ 0` and the byte
position `s * unit_size + k / 8` is inside the buffer, the character the
channel loop appends for the sample at offset `s` is `'1'` if
`(byte >> (k mod 8)) & 1 = 1` and `'0'` otherwise, a function of
`(buffer, unit_size, s, k)` alone: it goes to the end of the channel's
line, which is flushed followed by a newline when the line is complete and
kept (with a space after every 8th sample) otherwise, and the byte read is
the one at that position. -/
theorem bit_decoding (logic : sr_datafeed_logic) (s k : Nat)
    (hpos : s * logic.unitsize + k / 8 < logic.data.length)
    (st : loop_state) (j : Nat) (hj : j < st.ctx.num_enabled_channels)
    (hk : st.ctx.channel_index.getD j 0 = (k : Int)) :
    (sample_bit logic (s * logic.unitsize) (k : Int)
      = if (logic.data[s * logic.unitsize + k / 8] >>> (k % 8)) &&& 1 = 1 then '1' else '0') ∧
    (st.ctx.spl_cnt = st.ctx.samples_per_line →
      (channel_body logic (s * logic.unitsize) st j).out
        = st.out ++ (st.ctx.lines.getD j []
            ++ [if (logic.data[s * logic.unitsize + k / 8] >>> (k % 8)) &&& 1 = 1
                then '1' else '0'])
          ++ ['\n']
          ++ (if j + 1 = st.ctx.num_enabled_channels ∧ st.ctx.trigger > -1
              then trigger_line st.ctx.trigger else [])) ∧
    (st.ctx.spl_cnt ≠ st.ctx.samples_per_line →
      (channel_body logic (s * logic.unitsize) st j).out = st.out ∧
      (channel_body logic (s * logic.unitsize) st j).ctx.lines
        = st.ctx.lines.set j (st.ctx.lines.getD j []
            ++ [if (logic.data[s * logic.unitsize + k / 8] >>> (k % 8)) &&& 1 = 1
                then '1' else '0']
            ++ (if Int.land st.ctx.spl_cnt 7 = 0 then [' '] else []))) ∧
    (channel_body logic (s * logic.unitsize) st j).reads
      = st.reads ++ [((s * logic.unitsize + k / 8 : Nat) : Int)] := by
  have hbit : sample_bit logic (s * logic.unitsize) (k : Int)
      = if (logic.data[s * logic.unitsize + k / 8] >>> (k % 8)) &&& 1 = 1 then '1' else '0' := by
    rw [sample_bit_nat, List.getD_eq_getElem _ _ hpos]
  have hoff : (s * logic.unitsize : Nat) + (k : Int).tdiv 8
      = ((s * logic.unitsize + k / 8 : Nat) : Int) := by
    rw [Int.tdiv_eq_ediv (by omega) (by norm_num)]; norm_cast
  have hc : bit_char (load logic.data ((s * logic.unitsize : Nat) + (k : Int).tdiv 8)) (k : Int)
      = if (logic.data[s * logic.unitsize + k / 8] >>> (k % 8)) &&& 1 = 1 then '1' else '0' :=
    hbit
  refine ⟨hbit, ?_, ?_, ?_⟩
  · intro hf
    have hlast : j = st.ctx.num_enabled_channels - 1 ↔ j + 1 = st.ctx.num_enabled_channels := by
      omega
    unfold channel_body
    simp only [hk, hf, if_true, hc, hlast]
    by_cases hfire : j + 1 = st.ctx.num_enabled_channels ∧ st.ctx.trigger > -1
    · simp only [hfire, and_self, if_true]
    · simp only [hfire, if_false, List.append_nil]
  · intro hf
    unfold channel_body
    simp only [hk, hf, if_false, hc]
    by_cases h7 : Int.land st.ctx.spl_cnt 7 = 0
    · simp only [h7, if_true, and_self]
    · simp only [h7, if_false, List.append_nil, and_self]
  · unfold channel_body
    simp only [hk, hoff]
    split_ifs <;> rfl

/-- C3, witness: bit 7 of the byte `0x80`, which is negative as a `gchar`,
decodes to `'1'`. -/
theorem bit_decoding_witness :
    sample_bit ⟨1, 1, [128]⟩ (0 * 1) ((7 : Nat) : Int) = '1' :=
  (bit_decoding ⟨1, 1, [128]⟩ 0 7 (by decide)
      ⟨{ scenario_ctx with channel_index := [7] }, [], []⟩ 0 (by decide)
      (by decide)).1.trans (by decide)

theorem end_loop_eq (ctx : context) (k : Nat) (acc : GString) :
    (List.range k).foldl (end_body ctx) acc
      = acc ++ ((List.range k).map (fun i => ctx.lines.getD i [] ++ ['\n'])).flatten := by
  induction k with
  | zero => simp
  | succ k ih =>
    rw [List.range_succ, List.foldl_append, ih]
    simp [end_body, List.append_assoc]

theorem end_flush_eq (ctx : context) (hwf : ctx.wf) :
    (List.range ctx.num_enabled_channels).foldl (end_body ctx) []
      = (ctx.lines.map (fun line => line ++ ['\n'])).flatten := by
  rw [end_loop_eq, List.nil_append,
    map_range_getD_map ctx.lines [] (fun line => line ++ ['\n']) _ hwf.2.2]

/-- C6. End-of-stream flush: with column count 0 an `SR_DF_END` packet
produces no output block; with column count above 0 it produces one block,
the current text of every channel's line buffer in order, each followed by a
newline, and nothing else, whatever the pending trigger. The context is left
as it was. -/
theorem end_of_stream_flush (fuel : Nat) (o : sr_output) (sdi : sr_dev_inst) (ctx : context)
    (hsdi : o.sdi = some sdi) (hint : o.internal = some ctx) (hwf : ctx.wf) :
    (ctx.spl_cnt = 0 →
      receive fuel (some o) sr_datafeed_packet.SR_DF_END
        = some ⟨retcode.SR_OK, some ctx, none, []⟩) ∧
    (0 < ctx.spl_cnt →
      receive fuel (some o) sr_datafeed_packet.SR_DF_END
        = some ⟨retcode.SR_OK, some ctx,
            some (ctx.lines.map (fun line => line ++ ['\n'])).flatten, []⟩) := by
  constructor
  · intro h0
    simp [receive, hsdi, hint, h0]
  · intro hpos
    have hne : ctx.spl_cnt ≠ 0 := by omega
    simp only [receive, hsdi, hint, hne, ne_eq, not_false_eq_true, if_true,
      end_flush_eq ctx hwf]

/-- C6, witness: three samples on the line and a trigger pending at column 1;
the block holds the two partial lines and no annotation. -/
theorem end_of_stream_flush_witness :
    receive 0
        (some { scenario_output with internal := some { scenario_ctx with
          spl_cnt := 3, trigger := 1, lines := ["D0:101".toList, "D1:000".toList] } })
        sr_datafeed_packet.SR_DF_END
      = some ⟨retcode.SR_OK,
          some { scenario_ctx with
            spl_cnt := 3, trigger := 1, lines := ["D0:101".toList, "D1:000".toList] },
          some "D0:101\nD1:000\n".toList, []⟩ :=
  (end_of_stream_flush 0
    { scenario_output with internal := some { scenario_ctx with
        spl_cnt := 3, trigger := 1, lines := ["D0:101".toList, "D1:000".toList] } }
    scenario_sdi
    { scenario_ctx with spl_cnt := 3, trigger := 1, lines := ["D0:101".toList, "D1:000".toList] }
    rfl rfl (by decide)).2 (by decide)

theorem trigger_line_nat (c : Nat) :
    trigger_line (c : Int)
      = "T:".toList ++ List.replicate (c + c / 8) ' ' ++ "^ ".toList ++ Nat.toDigits 10 c
          ++ ['\n'] := by
  have hd : (c : Int).tdiv 8 = ((c / 8 : Nat) : Int) := by
    rw [Int.tdiv_eq_ediv (by omega) (by norm_num)]; norm_cast
  have ha : ((c : Int) + ((c / 8 : Nat) : Int)).natAbs = c + c / 8 := by
    have : (c : Int) + ((c / 8 : Nat) : Int) = ((c + c / 8 : Nat) : Int) := by norm_cast
    rw [this, Int.natAbs_ofNat]
  have hf : fmt_d (c : Int) = Nat.toDigits 10 c := by
    unfold fmt_d
    rw [if_neg (by omega), Int.toNat_ofNat]
  rw [trigger_line, hd, ha, hf]

theorem trigger_scenario_reached :
    ((receive 4 (some scenario_session)
        (sr_datafeed_packet.SR_DF_LOGIC ⟨3, 1, [1, 0, 1]⟩)).bind
      (fun r => receive 0 (some { scenario_output with internal := r.internal })
        sr_datafeed_packet.SR_DF_TRIGGER)).map (fun r => r.internal)
      = some (some trigger_scenario_ctx) := by
  decide

/-! ### Short buffers and the bounds of the reads -/

theorem empty_packet_loop (fuel : Nat) :
    ∀ (i : Nat) (st : loop_state), i < 2 ^ 64 → logic_loop empty_packet fuel i st = none := by
  induction fuel with
  | zero => intro i st _; rfl
  | succ f ih =>
    intro i st hi
    have hb : sub64 empty_packet.length empty_packet.unitsize = 2 ^ 64 - 1 := by decide
    have hc : i ≤ sub64 empty_packet.length empty_packet.unitsize := by rw [hb]; omega
    rw [logic_loop, if_pos hc]
    exact ih _ _ (Nat.mod_lt _ (by norm_num))

/-- C8 (the code at the failing input). For an empty buffer with
`unitsize = 1` the bound `length - unitsize` is `2^64 - 1`, the loop body is
run for `i = 0`: it raises the column count, appends a bit to every line
buffer and dereferences offset 0 of the empty buffer once per channel; and
the loop condition never becomes false. -/
theorem short_buffer_runs_loop :
    sub64 empty_packet.length empty_packet.unitsize = 2 ^ 64 - 1 ∧
    (∀ fuel : Nat, logic_loop empty_packet (fuel + 1) 0 ⟨scenario_ctx, [], []⟩
      = logic_loop empty_packet fuel 1 (sample_body empty_packet 0 ⟨scenario_ctx, [], []⟩)) ∧
    sample_body empty_packet 0 ⟨scenario_ctx, [], []⟩
      = ⟨{ scenario_ctx with spl_cnt := 1, lines := ["D0:0".toList, "D1:0".toList] },
          [], [0, 0]⟩ ∧
    (∀ fuel : Nat, receive fuel (some scenario_session)
      (sr_datafeed_packet.SR_DF_LOGIC empty_packet) = none) := by
  refine ⟨by decide, fun fuel => rfl, by decide, ?_⟩
  intro fuel
  have h := empty_packet_loop fuel 0 ⟨scenario_ctx, [], []⟩ (by norm_num)
  simp only [receive, scenario_session, scenario_output, scenario_ctx] at h ⊢
  rw [h]

theorem run_samples_frame (smps : List (sr_datafeed_logic × Nat)) :
    ∀ st : loop_state, st.ctx.wf →
      (run_samples smps st).ctx.channel_index = st.ctx.channel_index ∧
      (run_samples smps st).ctx.channel_names = st.ctx.channel_names ∧
      (run_samples smps st).ctx.num_enabled_channels = st.ctx.num_enabled_channels ∧
      (run_samples smps st).ctx.samples_per_line = st.ctx.samples_per_line ∧
      (run_samples smps st).ctx.header = st.ctx.header ∧
      (run_samples smps st).reads = st.reads ++ stream_reads smps st.ctx.channel_index := by
  induction smps with
  | nil => intro st _; simp [run_samples, stream_reads]
  | cons smp rest ih =>
    intro st hwf
    have hrun : run_samples (smp :: rest) st = run_samples rest (sample_step smp.1 smp.2 st) := by
      simp only [run_samples, List.foldl_cons, sample_body_eq _ _ _ hwf]
    have h := ih _ (sample_step_wf smp.1 smp.2 st hwf)
    rw [hrun]
    by_cases hf : st.ctx.spl_cnt + 1 = st.ctx.samples_per_line
    · simp only [sample_step, hf, if_true] at h ⊢
      simpa [stream_reads, List.append_assoc] using h
    · simp only [sample_step, hf, if_false] at h ⊢
      simpa [stream_reads, List.append_assoc] using h

theorem stream_reads_bound (logic : sr_datafeed_logic) (idxs : List Int)
    (hidx : ∀ idx ∈ idxs, 0 ≤ idx ∧ idx < 8 * (logic.unitsize : Int)) :
    ∀ p ∈ stream_reads (packet_samples logic) idxs, 0 ≤ p ∧ p < (logic.length : Int) := by
  intro p hp
  simp only [stream_reads, packet_samples, List.mem_flatMap, List.mem_map, List.mem_range,
    exists_exists_and_eq_and] at hp
  obtain ⟨s, hs, idx, hmem, rfl⟩ := hp
  obtain ⟨h0, h8⟩ := hidx idx hmem
  have hq : logic.length / logic.unitsize * logic.unitsize ≤ logic.length :=
    Nat.div_mul_le_self _ _
  have hle : (s + 1) * logic.unitsize ≤ logic.length / logic.unitsize * logic.unitsize :=
    Nat.mul_le_mul_right _ (by omega)
  have hs1 : (s + 1) * logic.unitsize = s * logic.unitsize + logic.unitsize := by
    rw [Nat.add_mul, Nat.one_mul]
  unfold byte_offset
  rw [Int.tdiv_eq_ediv h0 (by norm_num)]
  have hlt : idx / 8 < (logic.unitsize : Int) := by omega
  have hge : 0 ≤ idx / 8 := by omega
  have : ((s * logic.unitsize : Nat) : Int) + (logic.unitsize : Int) ≤ (logic.length : Int) := by
    have : s * logic.unitsize + logic.unitsize ≤ logic.length := by omega
    exact_mod_cast this
  constructor <;> omega

/-- C9 (as stated, refuted). With `unit_size = 1`, a buffer of one byte
(`buffer_length >= unit_size`) and a channel with bit index 8, the decoder
reads offset `0 * 1 + 8 / 8 = 1`, which is not below the buffer length 1. -/
theorem iteration_bound_alone_refuted :
    (receive 2 (some bit8_session) (sr_datafeed_packet.SR_DF_LOGIC ⟨1, 1, [0]⟩)).map
        (fun r => r.reads) = some [1] ∧
    ¬ ((1 : Int) < ((⟨1, 1, [0]⟩ : sr_datafeed_logic).length : Int)) := by
  decide

/-- C9 (amended). For a packet with `unit_size >= 1` and
`unit_size <= buffer_length`, and channels whose bit index lies in
`[0, 8 * unit_size)`, `receive` returns and every offset it dereferenced,
`sample_offset * unit_size + bit_index / 8` for the samples of the packet and
the channels in order, lies in `[0, buffer_length)`. -/
theorem reads_within_buffer (fuel : Nat) (o : sr_output) (sdi : sr_dev_inst) (ctx : context)
    (logic : sr_datafeed_logic) (hsdi : o.sdi = some sdi) (hint : o.internal = some ctx)
    (hwf : ctx.wf) (hu : 1 ≤ logic.unitsize) (hl : logic.unitsize ≤ logic.length)
    (h64 : logic.length < 2 ^ 64) (hfuel : logic.length / logic.unitsize < fuel)
    (hidx : ∀ idx ∈ ctx.channel_index, 0 ≤ idx ∧ idx < 8 * (logic.unitsize : Int)) :
    ∃ r, receive fuel (some o) (sr_datafeed_packet.SR_DF_LOGIC logic) = some r ∧
      r.reads = (List.range (logic.length / logic.unitsize)).flatMap
        (fun s => ctx.channel_index.map
          (fun idx => ((s * logic.unitsize : Nat) : Int) + idx.tdiv 8)) ∧
      ∀ p ∈ r.reads, 0 ≤ p ∧ p < (logic.length : Int) := by
  have hstart : (logic_start ctx).ctx = { ctx with header := none } ∧ (logic_start ctx).reads = [] := by
    unfold logic_start
    cases hh : ctx.header with
    | none => obtain ⟨n, w, c, t, ci, cn, ls, h⟩ := ctx; simp only at hh; subst hh; exact ⟨rfl, rfl⟩
    | some hdr => exact ⟨rfl, rfl⟩
  have hwf' : (logic_start ctx).ctx.wf := by rw [hstart.1]; exact hwf
  have hreads := (run_samples_frame (packet_samples logic) (logic_start ctx) hwf').2.2.2.2.2
  rw [hstart.1, hstart.2, List.nil_append] at hreads
  refine ⟨_, receive_logic fuel o sdi ctx logic hsdi hint hu hl h64 hfuel, ?_, ?_⟩
  · show (run_samples (packet_samples logic) (logic_start ctx)).reads = _
    rw [hreads]
    simp only [stream_reads, packet_samples, List.flatMap_map]
    rfl
  · show ∀ p ∈ (run_samples (packet_samples logic) (logic_start ctx)).reads, _
    rw [hreads]
    exact stream_reads_bound logic ctx.channel_index hidx

/-- C9 (amended), witness: the scenario packet, eight samples of one byte,
with the channels on bits 0 and 1. -/
theorem reads_within_buffer_witness :
    ∃ r, receive 9 (some scenario_session) (sr_datafeed_packet.SR_DF_LOGIC scenario_packet)
        = some r ∧
      r.reads = (List.range (scenario_packet.length / scenario_packet.unitsize)).flatMap
        (fun s => scenario_ctx.channel_index.map
          (fun idx => ((s * scenario_packet.unitsize : Nat) : Int) + idx.tdiv 8)) ∧
      ∀ p ∈ r.reads, 0 ≤ p ∧ p < (scenario_packet.length : Int) :=
  reads_within_buffer 9 scenario_session scenario_sdi scenario_ctx scenario_packet rfl rfl
    (by decide) (by decide) (by decide) (by decide) (by decide) (by decide)

/-! ### Configuration -/

theorem init_params_none_iff (strtoul : GString → Nat) (ps : List (GString × GString)) :
    ∀ spl : Int, init_params strtoul ps spl = none ↔
      ∃ kv ∈ ps, kv.1 ≠ "width".toList ∨ ulong_to_int (strtoul kv.2) < 1 := by
  induction ps with
  | nil => intro spl; simp [init_params]
  | cons kv rest ih =>
    intro spl
    obtain ⟨key, value⟩ := kv
    simp only [List.mem_cons, exists_eq_or_imp]
    by_cases hk : key = "width".toList
    · by_cases hv : ulong_to_int (strtoul value) < 1
      · simp only [init_params, hk, hv, if_true, ne_eq, not_true_eq_false, or_true, true_or]
      · simp only [init_params, hk, hv, if_true, if_false, ne_eq, not_true_eq_false, or_self,
          false_or]
        exact ih _
    · simp only [init_params, hk, if_false, ne_eq, not_false_eq_true, true_or]

theorem init_params_some (strtoul : GString → Nat) (ps : List (GString × GString)) :
    ∀ spl s : Int, init_params strtoul ps spl = some s →
      (1 ≤ spl → 1 ≤ s) ∧
      ((∀ v, ("width".toList, v) ∉ ps) → s = spl) ∧
      ((ps.map Prod.fst).Nodup → ∀ v, ("width".toList, v) ∈ ps → s = ulong_to_int (strtoul v)) := by
  induction ps with
  | nil =>
    intro spl s h
    simp only [init_params, Option.some.injEq] at h
    subst h
    simp
  | cons kv rest ih =>
    intro spl s h
    obtain ⟨key, value⟩ := kv
    by_cases hk : key = "width".toList
    · by_cases hv : ulong_to_int (strtoul value) < 1
      · simp only [init_params, hk, hv, if_true] at h
        exact Option.noConfusion h
      · simp only [init_params, hk, hv, if_true, if_false] at h
        obtain ⟨i1, i2, i3⟩ := ih _ s h
        subst hk
        refine ⟨fun _ => i1 (by omega), ?_, ?_⟩
        · intro hno
          exact absurd (List.mem_cons_self _ _) (hno value)
        · intro hnd v hmem
          simp only [List.map_cons, List.nodup_cons, List.mem_map, Prod.exists,
            exists_and_right, exists_eq_right, not_exists] at hnd
          have hrest : ∀ v', ("width".toList, v') ∉ rest := fun v' hm => hnd.1 v' hm
          rcases List.mem_cons.mp hmem with e | e
          · obtain ⟨-, rfl⟩ := Prod.mk.inj e
            exact i2 hrest
          · exact absurd e (hrest v)
    · simp only [init_params, hk, if_false] at h
      exact Option.noConfusion h

/-- C10. Configuration validation: on an object with a device instance and a
parameter table (distinct keys), `init` returns `SR_ERR_ARG`, leaving the
object and its `internal` pointer as they were, exactly when the table holds
a key other than `"width"` or a `"width"` value whose `strtoul` result,
stored in an `int`, is below 1; otherwise it returns `SR_OK` with a context
whose `samples_per_line` is that converted value, or 64 when there is no
`"width"` entry, and is at least 1. -/
theorem configuration_validation (PACKAGE_STRING : GString)
    (sr_samplerate_string : Nat → GString) (strtoul : GString → Nat)
    (o : sr_output) (sdi : sr_dev_inst) (hsdi : o.sdi = some sdi)
    (hkeys : (o.params.map Prod.fst).Nodup) :
    ((init PACKAGE_STRING sr_samplerate_string strtoul (some o)).1 = retcode.SR_ERR_ARG ↔
      ∃ kv ∈ o.params, kv.1 ≠ "width".toList ∨ ulong_to_int (strtoul kv.2) < 1) ∧
    ((∃ kv ∈ o.params, kv.1 ≠ "width".toList ∨ ulong_to_int (strtoul kv.2) < 1) →
      init PACKAGE_STRING sr_samplerate_string strtoul (some o)
        = (retcode.SR_ERR_ARG, some o)) ∧
    ((¬ ∃ kv ∈ o.params, kv.1 ≠ "width".toList ∨ ulong_to_int (strtoul kv.2) < 1) →
      ∃ ctx : context,
        init PACKAGE_STRING sr_samplerate_string strtoul (some o)
          = (retcode.SR_OK, some { o with internal := some ctx }) ∧
        1 ≤ ctx.samples_per_line ∧
        (∀ v, ("width".toList, v) ∈ o.params →
          ctx.samples_per_line = ulong_to_int (strtoul v)) ∧
        ((∀ v, ("width".toList, v) ∉ o.params) → ctx.samples_per_line = 64)) := by
  have hnone := init_params_none_iff strtoul o.params DEFAULT_SAMPLES_PER_LINE
  cases hp : init_params strtoul o.params DEFAULT_SAMPLES_PER_LINE with
  | none =>
    have hbad := hnone.mp hp
    have hinit : init PACKAGE_STRING sr_samplerate_string strtoul (some o)
        = (retcode.SR_ERR_ARG, some o) := by
      simp only [init, hsdi, hp]
    refine ⟨by rw [hinit]; exact iff_of_true rfl hbad, fun _ => hinit, fun h => absurd hbad h⟩
  | some spl =>
    have hgood : ¬ ∃ kv ∈ o.params, kv.1 ≠ "width".toList ∨ ulong_to_int (strtoul kv.2) < 1 := by
      intro h
      rw [hnone.mpr h] at hp
      exact Option.noConfusion hp
    obtain ⟨i1, i2, i3⟩ := init_params_some strtoul o.params _ spl hp
    have hinit : init PACKAGE_STRING sr_samplerate_string strtoul (some o)
        = (retcode.SR_OK, some { o with internal := some (context.mk
              (count_enabled sdi.channels 0) spl 0 (-1)
              (fill_channels sdi.channels ([], [], [])).1
              (fill_channels sdi.channels ([], [], [])).2.1
              (fill_channels sdi.channels ([], [], [])).2.2
              (some (make_header PACKAGE_STRING sr_samplerate_string sdi
                (count_enabled sdi.channels 0)))) }) := by
      simp only [init, hsdi, hp]
    refine ⟨?_, fun h => absurd h hgood, fun _ => ⟨_, hinit, ?_, ?_, ?_⟩⟩
    · rw [hinit]
      exact iff_of_false (fun h => retcode.noConfusion h) hgood
    · exact i1 (by decide)
    · exact fun v hv => i3 hkeys v hv
    · exact fun hno => i2 hno

/-- C10, witness: the unknown key `"foo"` is rejected and no context is
created. -/
theorem configuration_validation_witness :
    init "libsigrok 0.3.0".toList (fun _ => "1 MHz".toList) strtoul10
        (some { sdi := some scenario_sdi, params := [("foo".toList, "1".toList)], internal := none })
      = (retcode.SR_ERR_ARG,
          some { sdi := some scenario_sdi, params := [("foo".toList, "1".toList)],
                 internal := none }) :=
  (configuration_validation "libsigrok 0.3.0".toList (fun _ => "1 MHz".toList) strtoul10
    { sdi := some scenario_sdi, params := [("foo".toList, "1".toList)], internal := none }
    scenario_sdi rfl (by decide)).2.1
    ⟨("foo".toList, "1".toList), by decide, Or.inl (by decide)⟩

/-! ### Several lines, several packets -/

theorem take_eq_snoc {α : Type} (l : List α) (m : Nat) (h : m + 1 ≤ l.length) :
    ∃ pre last, l.take (m + 1) = pre ++ [last] ∧ pre.length = m := by
  have hne : l.take (m + 1) ≠ [] := by
    intro e
    have hz := congrArg List.length e
    rw [List.length_take, Nat.min_eq_left h] at hz
    exact Nat.succ_ne_zero _ hz
  refine ⟨(l.take (m + 1)).dropLast, (l.take (m + 1)).getLast hne,
    (List.dropLast_append_getLast hne).symm, ?_⟩
  rw [List.length_dropLast, List.length_take, Nat.min_eq_left h]
  rfl

theorem stream_reads_append (a b : List (sr_datafeed_logic × Nat)) (idxs : List Int) :
    stream_reads (a ++ b) idxs = stream_reads a idxs ++ stream_reads b idxs := by
  simp [stream_reads]

/-- Samples from an empty line with no trigger pending: `q` full lines are
flushed, the remaining `r < w` samples stay in the line buffers. -/
theorem run_lines (w r : Nat) (hr : r < w) (q : Nat) :
    ∀ (smps : List (sr_datafeed_logic × Nat)) (st : loop_state), st.ctx.wf →
      st.ctx.samples_per_line = (w : Int) → st.ctx.spl_cnt = 0 → st.ctx.trigger ≤ -1 →
      st.ctx.lines = st.ctx.channel_names.map (fun name => name ++ [':']) →
      smps.length = q * w + r →
      run_samples smps st =
        { ctx := { st.ctx with
            spl_cnt := (r : Int)
            lines := unfinished_lines st.ctx (smps.drop (q * w)) }
          out := st.out ++ ((List.range q).map
            (fun k => full_block st.ctx ((smps.drop (k * w)).take w))).flatten
          reads := st.reads ++ stream_reads smps st.ctx.channel_index } := by
  induction q with
  | zero =>
    intro smps st hwf hw hc ht hl hlen
    simp only [Nat.zero_mul, Nat.zero_add] at hlen
    rw [run_unfinished smps st hwf (by intro k hk; rw [hc, hw]; omega)]
    simp only [hc, hl, hlen, List.zipWith_map_left, unfinished_lines, Nat.zero_mul,
      List.drop_zero, List.range_zero, List.map_nil, List.flatten_nil, List.append_nil,
      zero_add, List.append_assoc]
  | succ q ih =>
    intro smps st hwf hw hc ht hl hlen
    obtain ⟨m, rfl⟩ : ∃ m, w = m + 1 := ⟨w - 1, by omega⟩
    have hge : m + 1 ≤ smps.length := by
      rw [hlen, Nat.succ_mul]; omega
    obtain ⟨pre, last, hsplit, hpre⟩ := take_eq_snoc smps m hge
    have hsm : smps = (pre ++ [last]) ++ smps.drop (m + 1) := by
      rw [← hsplit, List.take_append_drop]
    have hline := run_line pre last st hwf (by rw [hc, hw, hpre]; push_cast; ring)
    have hnf : ¬ (0 < st.ctx.num_enabled_channels ∧ st.ctx.trigger > -1) := by
      intro h; omega
    have hblock0 : (List.zipWith
          (fun line idx => line ++ line_tail st.ctx.spl_cnt (stream_bits (pre ++ [last]) idx)
            ++ ['\n']) st.ctx.lines st.ctx.channel_index).flatten
        = full_block st.ctx ((smps.drop (0 * (m + 1))).take (m + 1)) := by
      rw [hl, hc, Nat.zero_mul, List.drop_zero, hsplit, full_block, List.zipWith_map_left]
    simp only [hnf, if_false, List.append_nil, hblock0] at hline
    have hwf1 := run_samples_wf (pre ++ [last]) st hwf
    rw [hline] at hwf1
    have hdl : (smps.drop (m + 1)).length = q * (m + 1) + r := by
      rw [List.length_drop, hlen, Nat.succ_mul]; omega
    have hrest := ih (smps.drop (m + 1)) _ hwf1 hw rfl ht rfl hdl
    have hrun : run_samples smps st
        = run_samples (smps.drop (m + 1)) (run_samples (pre ++ [last]) st) := by
      conv_lhs => rw [hsm]
      exact run_samples_append _ _ _
    rw [hrun, hline, hrest]
    have hreads : stream_reads (pre ++ [last]) st.ctx.channel_index
          ++ stream_reads (smps.drop (m + 1)) st.ctx.channel_index
        = stream_reads smps st.ctx.channel_index := by
      rw [← stream_reads_append, ← hsm]
    have hdrop : ∀ k, (smps.drop (m + 1)).drop (k * (m + 1)) = smps.drop ((k + 1) * (m + 1)) := by
      intro k
      rw [List.drop_drop, Nat.succ_mul, Nat.add_comm]
    simp only [List.append_assoc, hreads, hdrop, unfinished_lines, full_block,
      List.range_succ_eq_map, List.map_cons, List.map_map, List.flatten_cons,
      Function.comp_def]

theorem sample_step_out_frame (logic : sr_datafeed_logic) (i : Nat) (ctx : context)
    (out : GString) (reads : List Int) :
    sample_step logic i ⟨ctx, out, reads⟩
      = ⟨(sample_step logic i ⟨ctx, [], []⟩).ctx,
          out ++ (sample_step logic i ⟨ctx, [], []⟩).out,
          reads ++ (sample_step logic i ⟨ctx, [], []⟩).reads⟩ := by
  by_cases hf : ctx.spl_cnt + 1 = ctx.samples_per_line
  · simp only [sample_step, hf, if_true, List.nil_append, List.append_assoc]
  · simp only [sample_step, hf, if_false, List.nil_append, List.append_nil]

/-- The context after a run of samples does not depend on the text and the
offsets gathered before, which are only extended. -/
theorem run_samples_out_frame (smps : List (sr_datafeed_logic × Nat)) :
    ∀ (ctx : context) (out : GString) (reads : List Int), ctx.wf →
      run_samples smps ⟨ctx, out, reads⟩
        = ⟨(run_samples smps ⟨ctx, [], []⟩).ctx,
            out ++ (run_samples smps ⟨ctx, [], []⟩).out,
            reads ++ (run_samples smps ⟨ctx, [], []⟩).reads⟩ := by
  induction smps with
  | nil => intro ctx out reads _; simp [run_samples]
  | cons smp rest ih =>
    intro ctx out reads hwf
    have hrun : ∀ o r, run_samples (smp :: rest) ⟨ctx, o, r⟩
        = run_samples rest (sample_step smp.1 smp.2 ⟨ctx, o, r⟩) := by
      intro o r
      simp only [run_samples, List.foldl_cons]
      rw [sample_body_eq smp.1 smp.2 ⟨ctx, o, r⟩ hwf]
    have hwf1 : (sample_step smp.1 smp.2 ⟨ctx, [], []⟩).ctx.wf :=
      sample_step_wf smp.1 smp.2 ⟨ctx, [], []⟩ hwf
    rw [hrun, hrun, sample_step_out_frame, ih _ _ _ hwf1]
    conv_rhs => rw [ih _ (sample_step smp.1 smp.2 ⟨ctx, [], []⟩).out
      (sample_step smp.1 smp.2 ⟨ctx, [], []⟩).reads hwf1]
    simp only [List.append_assoc]

theorem logic_start_eq (ctx : context) :
    logic_start ctx = ⟨{ ctx with header := none }, ctx.header.getD [], []⟩ := by
  obtain ⟨n, w, c, t, ci, cn, ls, h⟩ := ctx
  cases h <;> rfl

theorem receive_all_append (fuel : Nat) (a : List sr_datafeed_packet) :
    ∀ (o : sr_output) (b : List sr_datafeed_packet) (outs : List (Option GString))
      (o1 : sr_output), receive_all fuel o a = some (outs, o1) →
      receive_all fuel o (a ++ b)
        = (receive_all fuel o1 b).map (fun res => (outs ++ res.1, res.2)) := by
  induction a with
  | nil =>
    intro o b outs o1 h
    simp only [receive_all, Option.some.injEq, Prod.mk.injEq] at h
    obtain ⟨rfl, rfl⟩ := h
    cases hb : receive_all fuel o b <;> simp [hb]
  | cons p ps ih =>
    intro o b outs o1 h
    simp only [List.cons_append, receive_all] at h ⊢
    cases hr : receive fuel (some o) p with
    | none => simp [hr] at h
    | some r =>
      simp only [hr] at h ⊢
      cases hrest : receive_all fuel { o with internal := r.internal } ps with
      | none => simp [hrest] at h
      | some res =>
        obtain ⟨outs1, o2⟩ := res
        simp only [hrest, Option.some.injEq, Prod.mk.injEq] at h
        obtain ⟨rfl, rfl⟩ := h
        have hih := ih _ b outs1 o2 hrest
        show (match receive_all fuel { o with internal := r.internal } (ps ++ b) with
          | none => none
          | some (outs, o1) => some (r.out :: outs, o1)) = _
        rw [hih]
        cases hb : receive_all fuel o2 b <;> simp

/-- Packets received once the header is gone: the blocks, joined, are the
text the sample loop gathers over all the samples, and the context is the
one it leaves. -/
theorem receive_all_logic (fuel : Nat) (sdi : sr_dev_inst) (pkts : List sr_datafeed_logic) :
    ∀ (o : sr_output) (ctx : context), o.sdi = some sdi → o.internal = some ctx → ctx.wf →
      ctx.header = none →
      (∀ l ∈ pkts, packet_ok l ∧ l.length / l.unitsize < fuel) →
      ∃ blocks : List GString,
        receive_all fuel o (pkts.map sr_datafeed_packet.SR_DF_LOGIC)
          = some (blocks.map some,
              { o with internal := some (run_samples (all_samples pkts) ⟨ctx, [], []⟩).ctx }) ∧
        blocks.length = pkts.length ∧
        blocks.flatten = (run_samples (all_samples pkts) ⟨ctx, [], []⟩).out := by
  induction pkts with
  | nil =>
    intro o ctx hsdi hint _ _ _
    refine ⟨[], ?_, rfl, rfl⟩
    obtain ⟨s, p, i⟩ := o
    simp only at hint
    subst hint
    rfl
  | cons p rest ih =>
    intro o ctx hsdi hint hwf hh hok
    obtain ⟨⟨hu, hl, h64⟩, hfuel⟩ := hok p (by simp)
    have hrecv := receive_logic fuel o sdi ctx p hsdi hint hu hl h64 hfuel
    have hst : logic_start ctx = ⟨ctx, [], []⟩ := by simp [logic_start, hh]
    rw [hst] at hrecv
    have hwf1 := run_samples_wf (packet_samples p) ⟨ctx, [], []⟩ hwf
    have hh1 : (run_samples (packet_samples p) ⟨ctx, [], []⟩).ctx.header = none := by
      rw [(run_samples_frame (packet_samples p) ⟨ctx, [], []⟩ hwf).2.2.2.2.1]; exact hh
    obtain ⟨blocks, hb1, hb2, hb3⟩ :=
      ih { o with internal := some (run_samples (packet_samples p) ⟨ctx, [], []⟩).ctx }
        (run_samples (packet_samples p) ⟨ctx, [], []⟩).ctx hsdi rfl hwf1 hh1
        (fun l hlm => hok l (by simp [hlm]))
    have hsplit : run_samples (all_samples (p :: rest)) ⟨ctx, [], []⟩
        = ⟨(run_samples (all_samples rest)
              ⟨(run_samples (packet_samples p) ⟨ctx, [], []⟩).ctx, [], []⟩).ctx,
            (run_samples (packet_samples p) ⟨ctx, [], []⟩).out
              ++ (run_samples (all_samples rest)
                ⟨(run_samples (packet_samples p) ⟨ctx, [], []⟩).ctx, [], []⟩).out,
            (run_samples (packet_samples p) ⟨ctx, [], []⟩).reads
              ++ (run_samples (all_samples rest)
                ⟨(run_samples (packet_samples p) ⟨ctx, [], []⟩).ctx, [], []⟩).reads⟩ := by
      have : all_samples (p :: rest) = packet_samples p ++ all_samples rest := by
        simp [all_samples]
      rw [this, run_samples_append, ← run_samples_out_frame _ _ _ _ hwf1]
    refine ⟨(run_samples (packet_samples p) ⟨ctx, [], []⟩).out :: blocks, ?_, ?_, ?_⟩
    · simp only [List.map_cons, receive_all, hrecv, hb1, hsplit]
    · simp [hb2]
    · simp only [List.flatten_cons, hb3, hsplit]

theorem run_samples_split (a b : List (sr_datafeed_logic × Nat)) (ctx : context)
    (hwf : ctx.wf) :
    run_samples (a ++ b) ⟨ctx, [], []⟩
      = ⟨(run_samples b ⟨(run_samples a ⟨ctx, [], []⟩).ctx, [], []⟩).ctx,
          (run_samples a ⟨ctx, [], []⟩).out
            ++ (run_samples b ⟨(run_samples a ⟨ctx, [], []⟩).ctx, [], []⟩).out,
          (run_samples a ⟨ctx, [], []⟩).reads
            ++ (run_samples b ⟨(run_samples a ⟨ctx, [], []⟩).ctx, [], []⟩).reads⟩ := by
  rw [run_samples_append,
    ← run_samples_out_frame _ _ _ _ (run_samples_wf a ⟨ctx, [], []⟩ hwf)]

/-- Packets received from any context, the first of them taking the header
along: the blocks, joined, are the header followed by the text the sample
loop gathers over all the samples. -/
theorem receive_all_logic_header (fuel : Nat) (sdi : sr_dev_inst) (p : sr_datafeed_logic)
    (rest : List sr_datafeed_logic) (o : sr_output) (ctx : context)
    (hsdi : o.sdi = some sdi) (hint : o.internal = some ctx) (hwf : ctx.wf)
    (hok : ∀ l ∈ p :: rest, packet_ok l ∧ l.length / l.unitsize < fuel) :
    ∃ blocks : List GString,
      receive_all fuel o ((p :: rest).map sr_datafeed_packet.SR_DF_LOGIC)
        = some (blocks.map some,
            { o with internal := some (run_samples (all_samples (p :: rest))
                ⟨{ ctx with header := none }, [], []⟩).ctx }) ∧
      blocks.length = (p :: rest).length ∧
      blocks.flatten = ctx.header.getD []
        ++ (run_samples (all_samples (p :: rest)) ⟨{ ctx with header := none }, [], []⟩).out := by
  obtain ⟨⟨hu, hl, h64⟩, hfuel⟩ := hok p (by simp)
  have hrecv := receive_logic fuel o sdi ctx p hsdi hint hu hl h64 hfuel
  have hwf0 : ({ ctx with header := none } : context).wf := hwf
  rw [logic_start_eq, run_samples_out_frame _ _ _ _ hwf0] at hrecv
  simp only [List.nil_append] at hrecv
  have hwf1 := run_samples_wf (packet_samples p) ⟨{ ctx with header := none }, [], []⟩ hwf0
  have hh1 : (run_samples (packet_samples p)
      ⟨{ ctx with header := none }, [], []⟩).ctx.header = none := by
    rw [(run_samples_frame (packet_samples p) ⟨{ ctx with header := none }, [], []⟩
      hwf0).2.2.2.2.1]
  obtain ⟨blocks, hb1, hb2, hb3⟩ := receive_all_logic fuel sdi rest
    { o with internal := some (run_samples (packet_samples p)
        ⟨{ ctx with header := none }, [], []⟩).ctx }
    _ hsdi rfl hwf1 hh1 (fun l hlm => hok l (by simp [hlm]))
  have hall : all_samples (p :: rest) = packet_samples p ++ all_samples rest := by
    simp [all_samples]
  have hsplit := run_samples_split (packet_samples p) (all_samples rest)
    { ctx with header := none } hwf0
  rw [← hall] at hsplit
  refine ⟨(ctx.header.getD [] ++ (run_samples (packet_samples p)
      ⟨{ ctx with header := none }, [], []⟩).out) :: blocks, ?_, ?_, ?_⟩
  · simp only [List.map_cons, receive_all, hrecv, hb1, hsplit]
  · simp [hb2]
  · simp only [List.flatten_cons, hb3, hsplit, List.append_assoc]

theorem accumulate_nat (n : Nat) (bits : List Char) :
    accumulate (n : Int) bits = spaced_bits n bits := by
  induction bits generalizing n with
  | nil => rfl
  | cons b bs ih =>
    have h := ih (n + 1)
    push_cast at h
    by_cases h8 : (n + 1) % 8 = 0
    · simp [accumulate, spaced_bits, h8, (land_seven n).mpr h8, h]
    · have : ¬ Int.land ((n : Int) + 1) 7 = 0 := fun e => h8 ((land_seven n).mp e)
      simp [accumulate, spaced_bits, h8, this, h]

theorem all_samples_length (pkts : List sr_datafeed_logic) :
    (all_samples pkts).length = total_samples pkts := by
  induction pkts with
  | nil => rfl
  | cons p rest ih =>
    simp only [all_samples, List.flatMap_cons, List.length_append] at ih ⊢
    simp [ih, total_samples, packet_samples]

theorem full_block_eq (ctx : context) (smps : List (sr_datafeed_logic × Nat)) :
    full_block ctx smps = line_block ctx smps := by
  have h0 := line_tail_nat 0
  simp only [Nat.cast_zero] at h0
  simp only [full_block, line_block, h0]

theorem unfinished_lines_flush (ctx : context) (smps : List (sr_datafeed_logic × Nat)) :
    ((unfinished_lines ctx smps).map (fun line => line ++ ['\n'])).flatten
      = unfinished_block ctx smps := by
  have h0 := accumulate_nat 0
  simp only [Nat.cast_zero] at h0
  simp only [unfinished_lines, unfinished_block, h0, List.map_zipWith]

/-- C4. Line count: on a fresh session of width `w ≥ 1`, packets carrying
`n` samples in total followed by one `SR_DF_END` are all processed; the
blocks of the packets, joined, are the header (moved into the first block)
followed by exactly `n / w` groups of one completed line per channel, the
`k`-th group rendering samples `k * w .. k * w + w - 1`; and the block of
`SR_DF_END` is one unfinished line per channel with the last `n % w` samples
if `n % w > 0`, and absent if `n % w = 0`. -/
theorem line_count (w : Nat) (hw : 1 ≤ w) (fuel : Nat) (o : sr_output) (sdi : sr_dev_inst)
    (ctx : context) (hsdi : o.sdi = some sdi) (hint : o.internal = some ctx)
    (hfresh : ctx.fresh) (hwidth : ctx.samples_per_line = (w : Int))
    (pkts : List sr_datafeed_logic)
    (hok : ∀ l ∈ pkts, packet_ok l ∧ l.length / l.unitsize < fuel) :
    ∃ (blocks : List GString) (o1 : sr_output),
      receive_all fuel o
          (pkts.map sr_datafeed_packet.SR_DF_LOGIC ++ [sr_datafeed_packet.SR_DF_END])
        = some (blocks.map some
            ++ [if 0 < total_samples pkts % w
                then some (unfinished_block ctx
                  ((all_samples pkts).drop (total_samples pkts / w * w)))
                else none], o1) ∧
      blocks.length = pkts.length ∧
      blocks.flatten = (if pkts = [] then [] else ctx.header.getD [])
        ++ ((List.range (total_samples pkts / w)).map
            (fun k => line_block ctx (((all_samples pkts).drop (k * w)).take w))).flatten := by
  obtain ⟨hwf, hc, ht, hl⟩ := hfresh
  have hwf0 : ({ ctx with header := none } : context).wf := hwf
  have hlen : (all_samples pkts).length
      = total_samples pkts / w * w + total_samples pkts % w := by
    rw [all_samples_length, Nat.mul_comm, Nat.div_add_mod]
  have hrun := run_lines w (total_samples pkts % w) (Nat.mod_lt _ (by omega))
    (total_samples pkts / w) (all_samples pkts) ⟨{ ctx with header := none }, [], []⟩
    hwf0 hwidth hc (by rw [show ({ ctx with header := none } : context).trigger = ctx.trigger
      from rfl, ht]) hl hlen
  simp only [List.nil_append, full_block_eq] at hrun
  have hrun1 : run_samples (all_samples pkts) ⟨{ ctx with header := none }, [], []⟩
      = ⟨{ ctx with
            header := none
            spl_cnt := ((total_samples pkts % w : Nat) : Int)
            lines := unfinished_lines ctx
              ((all_samples pkts).drop (total_samples pkts / w * w)) },
          ((List.range (total_samples pkts / w)).map
            (fun k => line_block ctx (((all_samples pkts).drop (k * w)).take w))).flatten,
          stream_reads (all_samples pkts) ctx.channel_index⟩ := hrun
  clear hrun
  -- the final `SR_DF_END` on the context the packets leave
  have hend : ∀ (ctx1 : context), ctx1.wf →
      ctx1.spl_cnt = ((total_samples pkts % w : Nat) : Int) →
      ctx1.lines = unfinished_lines ctx ((all_samples pkts).drop (total_samples pkts / w * w)) →
      receive fuel (some { o with internal := some ctx1 }) sr_datafeed_packet.SR_DF_END
        = some ⟨retcode.SR_OK, some ctx1,
            if 0 < total_samples pkts % w
            then some (unfinished_block ctx
              ((all_samples pkts).drop (total_samples pkts / w * w)))
            else none, []⟩ := by
    intro ctx1 hwf1 hc1 hl1
    by_cases hr : 0 < total_samples pkts % w
    · have hne : ctx1.spl_cnt ≠ 0 := by rw [hc1]; exact_mod_cast (by omega : total_samples pkts % w ≠ 0)
      simp only [receive, hsdi, hne, ne_eq, not_false_eq_true, if_true, hr,
        end_flush_eq ctx1 hwf1, hl1, unfinished_lines_flush]
    · have h0 : ctx1.spl_cnt = 0 := by rw [hc1]; exact_mod_cast (by omega : total_samples pkts % w = 0)
      simp only [receive, hsdi, h0, ne_eq, not_true_eq_false, if_false, hr]
  cases pkts with
  | nil =>
    have hctx : ctx.spl_cnt = ((total_samples [] % w : Nat) : Int) := by
      rw [hc]; simp [total_samples]
    have hlines : ctx.lines
        = unfinished_lines ctx ((all_samples []).drop (total_samples [] / w * w)) := by
      have hz : List.zipWith (fun (name : GString) (_ : Int) => name ++ [':'])
          ctx.channel_names ctx.channel_index
          = ctx.channel_names.map (fun name => name ++ [':']) := by
        rw [← List.zipWith_map_left ctx.channel_names ctx.channel_index
          (fun name => name ++ [':']) (fun a _ => a)]
        exact zipWith_left_id _ _ (by rw [List.length_map, hwf.2.1, hwf.1])
      rw [hl]
      simp [unfinished_lines, all_samples, stream_bits, accumulate, hz]
    have he := hend ctx hwf hctx hlines
    have ho : ({ o with internal := some ctx } : sr_output) = o := by
      obtain ⟨s, p, i⟩ := o
      simp only at hint
      subst hint
      rfl
    rw [ho] at he
    refine ⟨[], o, ?_, rfl, ?_⟩
    · simp only [List.map_nil, List.nil_append, receive_all, he, ho]
    · simp [total_samples]
  | cons p rest =>
    obtain ⟨blocks, hb1, hb2, hb3⟩ :=
      receive_all_logic_header fuel sdi p rest o ctx hsdi hint hwf hok
    rw [hrun1] at hb1 hb3
    have he := hend _ (by
      have := run_samples_wf (all_samples (p :: rest))
        ⟨{ ctx with header := none }, [], []⟩ hwf0
      rw [hrun1] at this
      exact this) rfl rfl
    have hall : ∃ o1, receive_all fuel o
          ((p :: rest).map sr_datafeed_packet.SR_DF_LOGIC ++ [sr_datafeed_packet.SR_DF_END])
        = some (blocks.map some
            ++ [if 0 < total_samples (p :: rest) % w
                then some (unfinished_block ctx
                  ((all_samples (p :: rest)).drop (total_samples (p :: rest) / w * w)))
                else none], o1) := by
      rw [receive_all_append fuel _ o _ _ _ hb1]
      simp only [receive_all, he, Option.map_some']
      exact ⟨_, rfl⟩
    obtain ⟨o1, ho1⟩ := hall
    exact ⟨blocks, o1, ho1, hb2, by rw [hb3]; simp⟩

/-! ### The trigger annotation -/

theorem run_lines_out (w : Nat) (hw : 1 ≤ w) (smps : List (sr_datafeed_logic × Nat))
    (ctx : context) (hwf : ctx.wf) (hwidth : ctx.samples_per_line = (w : Int))
    (hc : ctx.spl_cnt = 0) (ht : ctx.trigger ≤ -1)
    (hl : ctx.lines = ctx.channel_names.map (fun name => name ++ [':'])) :
    (run_samples smps ⟨ctx, [], []⟩).out
        = ((List.range (smps.length / w)).map
            (fun k => line_block ctx ((smps.drop (k * w)).take w))).flatten ∧
    (run_samples smps ⟨ctx, [], []⟩).ctx.trigger = ctx.trigger := by
  have hlen : smps.length = smps.length / w * w + smps.length % w := by
    rw [Nat.mul_comm, Nat.div_add_mod]
  have hrun := run_lines w (smps.length % w) (Nat.mod_lt _ (by omega)) (smps.length / w)
    smps ⟨ctx, [], []⟩ hwf hwidth hc ht hl hlen
  rw [hrun]
  simp only [List.nil_append, full_block_eq, and_self]

/-- C5. Trigger annotation: in a session with at least one channel, when the
`k`-th sample of a packet brings the column count to the width, the block is
the header if still unsent, then the flushed line of every channel in
order, then, if a trigger is pending at column `c`, exactly the line `"T:"`,
`c + c / 8` spaces, `"^ "`, `c` in decimal, newline, and then only the
completed lines of the rest of the packet; afterwards no trigger is pending.
If no trigger is pending, the flushed lines are followed directly by the
completed lines of the rest of the packet. -/
theorem trigger_mark_emitted (w : Nat) (hw : 1 ≤ w) (fuel : Nat) (o : sr_output)
    (sdi : sr_dev_inst) (ctx : context) (logic : sr_datafeed_logic)
    (hsdi : o.sdi = some sdi) (hint : o.internal = some ctx)
    (hwf : ctx.wf) (hn : 1 ≤ ctx.num_enabled_channels)
    (hu : 1 ≤ logic.unitsize) (hl : logic.unitsize ≤ logic.length)
    (h64 : logic.length < 2 ^ 64) (hfuel : logic.length / logic.unitsize < fuel)
    (hwidth : ctx.samples_per_line = (w : Int))
    (k : Nat) (hk1 : 1 ≤ k) (hk2 : k ≤ logic.length / logic.unitsize)
    (hfull : ctx.spl_cnt + (k : Int) = ctx.samples_per_line) :
    (∀ c : Nat, ctx.trigger = (c : Int) →
      (receive fuel (some o) (sr_datafeed_packet.SR_DF_LOGIC logic)).map
          (fun r => (r.out, r.internal.map (fun ctx1 => ctx1.trigger)))
        = some (some ((logic_start ctx).out
            ++ (List.zipWith
                  (fun line idx =>
                    line ++ line_tail ctx.spl_cnt
                      (stream_bits ((packet_samples logic).take k) idx) ++ ['\n'])
                  ctx.lines ctx.channel_index).flatten
            ++ ("T:".toList ++ List.replicate (c + c / 8) ' ' ++ "^ ".toList
                  ++ Nat.toDigits 10 c ++ ['\n'])
            ++ ((List.range (((packet_samples logic).drop k).length / w)).map
                (fun j => line_block ctx
                  ((((packet_samples logic).drop k).drop (j * w)).take w))).flatten),
          some (-1))) ∧
    (ctx.trigger ≤ -1 →
      (receive fuel (some o) (sr_datafeed_packet.SR_DF_LOGIC logic)).map
          (fun r => (r.out, r.internal.map (fun ctx1 => ctx1.trigger)))
        = some (some ((logic_start ctx).out
            ++ (List.zipWith
                  (fun line idx =>
                    line ++ line_tail ctx.spl_cnt
                      (stream_bits ((packet_samples logic).take k) idx) ++ ['\n'])
                  ctx.lines ctx.channel_index).flatten
            ++ ((List.range (((packet_samples logic).drop k).length / w)).map
                (fun j => line_block ctx
                  ((((packet_samples logic).drop k).drop (j * w)).take w))).flatten),
          some ctx.trigger)) := by
  obtain ⟨m, rfl⟩ : ∃ m, k = m + 1 := ⟨k - 1, by omega⟩
  have hplen : (packet_samples logic).length = logic.length / logic.unitsize := by
    simp [packet_samples]
  obtain ⟨pre, last, hsplit, hpre⟩ := take_eq_snoc (packet_samples logic) m (by omega)
  have hrecv := receive_logic fuel o sdi ctx logic hsdi hint hu hl h64 hfuel
  have hwf0 : ({ ctx with header := none } : context).wf := hwf
  have hsm : packet_samples logic = (pre ++ [last]) ++ (packet_samples logic).drop (m + 1) := by
    rw [← hsplit, List.take_append_drop]
  have hline := run_line pre last ⟨{ ctx with header := none }, ctx.header.getD [], []⟩ hwf0
    (by
      show ctx.spl_cnt + (pre.length : Int) + 1 = ctx.samples_per_line
      rw [hpre, ← hfull]; push_cast; ring)
  have hwf1 := run_samples_wf (pre ++ [last])
    ⟨{ ctx with header := none }, ctx.header.getD [], []⟩ hwf0
  rw [hline] at hwf1
  have hrun : run_samples (packet_samples logic) (logic_start ctx)
      = run_samples ((packet_samples logic).drop (m + 1))
          (run_samples (pre ++ [last])
            ⟨{ ctx with header := none }, ctx.header.getD [], []⟩) := by
    rw [logic_start_eq]
    conv_lhs => rw [hsm]
    exact run_samples_append _ _ _
  rw [hline, run_samples_out_frame _ _ _ _ hwf1] at hrun
  have hpos : 0 < ctx.num_enabled_channels := by omega
  rw [hrecv, hrun, logic_start_eq, hsplit]
  constructor
  · intro c hc
    have hgt : (c : Int) > -1 := by omega
    obtain ⟨hout, htr⟩ := run_lines_out w hw ((packet_samples logic).drop (m + 1))
      { ctx with
        header := none, spl_cnt := 0
        trigger := if 0 < ctx.num_enabled_channels ∧ ctx.trigger > -1 then -1 else ctx.trigger
        lines := ctx.channel_names.map (fun name => name ++ [':']) }
      hwf1 hwidth rfl (by simp only [hpos, hc, hgt, and_self, if_true, le_refl]) rfl
    simp only [Option.map_some', hout, htr]
    simp only [hpos, hc, hgt, and_self, if_true, trigger_line_nat, line_block,
      List.append_assoc]
  · intro hle
    have hgt : ¬ ctx.trigger > -1 := by omega
    obtain ⟨hout, htr⟩ := run_lines_out w hw ((packet_samples logic).drop (m + 1))
      { ctx with
        header := none, spl_cnt := 0
        trigger := if 0 < ctx.num_enabled_channels ∧ ctx.trigger > -1 then -1 else ctx.trigger
        lines := ctx.channel_names.map (fun name => name ++ [':']) }
      hwf1 hwidth rfl (by simp only [hgt, and_false, if_false]; exact hle) rfl
    simp only [Option.map_some', hout, htr]
    simp only [hgt, and_false, if_false, List.append_nil, line_block, List.append_assoc]

/-- C5, witness: a trigger after 3 samples with width 8; the five samples that
complete the line produce the annotation `"T:   ^ 3\n"` after the line of
the last channel. -/
theorem trigger_mark_witness :
    (receive 6 (some { scenario_output with internal := some trigger_scenario_ctx })
        (sr_datafeed_packet.SR_DF_LOGIC trigger_scenario_packet)).map
          (fun r => (r.out, r.internal.map (fun ctx1 => ctx1.trigger)))
      = some (some "D0:10101010\nD1:00001111\nT:   ^ 3\n".toList, some (-1)) :=
  ((trigger_mark_emitted 8 (by decide) 6
      { scenario_output with internal := some trigger_scenario_ctx }
      scenario_sdi trigger_scenario_ctx trigger_scenario_packet rfl rfl (by decide) (by decide)
      (by decide) (by decide) (by decide) (by decide) rfl 5 (by decide) (by decide)
      (by decide)).1 3 rfl).trans (by decide)

/-! ### The state `init` leaves -/

theorem fill_channels_spec (chs : List sr_channel) :
    ∀ (idxs : List Int) (names lines : List GString) (n : Nat),
      idxs.length = n → names.length = n →
      lines = names.map (fun name => name ++ [':']) →
      (fill_channels chs (idxs, names, lines)).1.length = count_enabled chs n ∧
      (fill_channels chs (idxs, names, lines)).2.1.length = count_enabled chs n ∧
      (fill_channels chs (idxs, names, lines)).2.2
        = (fill_channels chs (idxs, names, lines)).2.1.map (fun name => name ++ [':']) := by
  induction chs with
  | nil =>
    intro idxs names lines n h1 h2 h3
    exact ⟨h1, h2, h3⟩
  | cons ch l ih =>
    intro idxs names lines n h1 h2 h3
    by_cases ht : ch.type = channeltype.SR_CHANNEL_LOGIC
    · by_cases he : (!ch.enabled) = true
      · simp only [fill_channels, count_enabled, ht, he, ne_eq, not_true_eq_false, if_true,
          if_false]
        exact ih idxs names lines n h1 h2 h3
      · simp only [fill_channels, count_enabled, ht, he, ne_eq, not_true_eq_false, if_false]
        exact ih _ _ _ (n + 1) (by simp [h1]) (by simp [h2]) (by simp [h3])
    · simp only [fill_channels, count_enabled, ht, ne_eq, not_false_eq_true, if_true]
      exact ih idxs names lines n h1 h2 h3

/-- What a successful `init` leaves: a fresh context of width at least 1
that holds the header. -/
theorem init_ok (PACKAGE_STRING : GString) (sr_samplerate_string : Nat → GString)
    (strtoul : GString → Nat) (o0 o : sr_output)
    (hinit : init PACKAGE_STRING sr_samplerate_string strtoul (some o0)
      = (retcode.SR_OK, some o)) :
    ∃ (sdi : sr_dev_inst) (ctx : context), o.sdi = some sdi ∧ o0.sdi = some sdi ∧
      o.internal = some ctx ∧ ctx.fresh ∧ 1 ≤ ctx.samples_per_line ∧
      ctx.header = some (make_header PACKAGE_STRING sr_samplerate_string sdi
        ctx.num_enabled_channels) := by
  unfold init at hinit
  cases hs : o0.sdi with
  | none => simp [hs] at hinit
  | some sdi =>
    cases hp : init_params strtoul o0.params DEFAULT_SAMPLES_PER_LINE with
    | none => simp [hs, hp] at hinit
    | some spl =>
      simp only [hs, hp, Prod.mk.injEq, Option.some.injEq, true_and] at hinit
      subst hinit
      obtain ⟨f1, f2, f3⟩ := fill_channels_spec sdi.channels [] [] [] 0 rfl rfl rfl
      refine ⟨sdi, _, rfl, rfl, rfl, ⟨⟨f1, f2, ?_⟩, rfl, rfl, f3⟩, ?_, rfl⟩
      · show (fill_channels sdi.channels ([], [], [])).2.2.length = _
        rw [f3, List.length_map, f2]
      · exact (init_params_some strtoul o0.params _ spl hp).1 (by decide)

/-! ### The header -/

/-- One call of `receive` on a context with consistent arrays: it returns,
the arrays stay consistent; an `SR_DF_LOGIC` packet yields the header, if
still there, followed by what the sample loop gathers, and leaves no header;
any other packet leaves the header where it is and yields nothing or the
line buffers. -/
theorem receive_header_step (fuel : Nat) (o : sr_output) (sdi : sr_dev_inst) (ctx : context)
    (ev : sr_datafeed_packet) (hsdi : o.sdi = some sdi) (hint : o.internal = some ctx)
    (hwf : ctx.wf)
    (hok : ∀ l, ev = sr_datafeed_packet.SR_DF_LOGIC l →
      packet_ok l ∧ l.length / l.unitsize < fuel) :
    ∃ (r : receive_result) (ctx1 : context),
      receive fuel (some o) ev = some r ∧ r.internal = some ctx1 ∧ ctx1.wf ∧
      (∀ l, ev = sr_datafeed_packet.SR_DF_LOGIC l →
        ctx1.header = none ∧
        r.out = some (ctx.header.getD []
          ++ (run_samples (packet_samples l) ⟨{ ctx with header := none }, [], []⟩).out)) ∧
      ((∀ l, ev ≠ sr_datafeed_packet.SR_DF_LOGIC l) →
        ctx1.header = ctx.header ∧
        (r.out = none ∨ r.out = some (ctx.lines.map (fun line => line ++ ['\n'])).flatten)) := by
  cases ev with
  | SR_DF_TRIGGER =>
    refine ⟨⟨retcode.SR_OK, some { ctx with trigger := ctx.spl_cnt }, none, []⟩,
      { ctx with trigger := ctx.spl_cnt }, by simp only [receive, hsdi, hint], rfl, hwf, ?_, ?_⟩
    · intro l h; exact sr_datafeed_packet.noConfusion h
    · intro _; exact ⟨rfl, Or.inl rfl⟩
  | SR_DF_LOGIC l =>
    obtain ⟨⟨hu, hl, h64⟩, hfuel⟩ := hok l rfl
    have hrecv := receive_logic fuel o sdi ctx l hsdi hint hu hl h64 hfuel
    have hwf0 : ({ ctx with header := none } : context).wf := hwf
    rw [logic_start_eq, run_samples_out_frame _ _ _ _ hwf0] at hrecv
    refine ⟨_, _, hrecv, rfl, run_samples_wf _ _ hwf0, ?_, ?_⟩
    · intro l' h
      obtain rfl := sr_datafeed_packet.SR_DF_LOGIC.inj h
      exact ⟨by rw [(run_samples_frame (packet_samples l)
        ⟨{ ctx with header := none }, [], []⟩ hwf0).2.2.2.2.1], rfl⟩
    · intro h; exact absurd rfl (h l)
  | SR_DF_END =>
    by_cases hc : ctx.spl_cnt = 0
    · refine ⟨⟨retcode.SR_OK, some ctx, none, []⟩, ctx,
        by simp only [receive, hsdi, hint, hc, ne_eq, not_true_eq_false, if_false],
        rfl, hwf, ?_, ?_⟩
      · intro l h; exact sr_datafeed_packet.noConfusion h
      · intro _; exact ⟨rfl, Or.inl rfl⟩
    · refine ⟨⟨retcode.SR_OK, some ctx,
          some (ctx.lines.map (fun line => line ++ ['\n'])).flatten, []⟩, ctx,
        by simp only [receive, hsdi, hint, hc, ne_eq, not_false_eq_true, if_true,
          end_flush_eq ctx hwf], rfl, hwf, ?_, ?_⟩
      · intro l h; exact sr_datafeed_packet.noConfusion h
      · intro _; exact ⟨rfl, Or.inr rfl⟩
  | SR_DF_OTHER =>
    refine ⟨⟨retcode.SR_OK, some ctx, none, []⟩, ctx, by simp only [receive, hsdi, hint],
      rfl, hwf, ?_, ?_⟩
    · intro l h; exact sr_datafeed_packet.noConfusion h
    · intro _; exact ⟨rfl, Or.inl rfl⟩

/-- A sequence of calls on a context with consistent arrays: all calls
return; the header is gone afterwards if the sequence holds an
`SR_DF_LOGIC` packet and is where it was if not. -/
theorem receive_all_header (fuel : Nat) (sdi : sr_dev_inst) (evs : List sr_datafeed_packet) :
    ∀ (o : sr_output) (ctx : context), o.sdi = some sdi → o.internal = some ctx → ctx.wf →
      (∀ l, sr_datafeed_packet.SR_DF_LOGIC l ∈ evs →
        packet_ok l ∧ l.length / l.unitsize < fuel) →
      ∃ (outs : List (Option GString)) (o1 : sr_output) (ctx1 : context),
        receive_all fuel o evs = some (outs, o1) ∧ o1.sdi = some sdi ∧
        o1.internal = some ctx1 ∧ ctx1.wf ∧
        ((∃ l, sr_datafeed_packet.SR_DF_LOGIC l ∈ evs) → ctx1.header = none) ∧
        ((∀ l, sr_datafeed_packet.SR_DF_LOGIC l ∉ evs) → ctx1.header = ctx.header) := by
  induction evs with
  | nil =>
    intro o ctx hsdi hint hwf _
    exact ⟨[], o, ctx, rfl, hsdi, hint, hwf, fun ⟨l, h⟩ => absurd h (List.not_mem_nil _),
      fun _ => rfl⟩
  | cons ev rest ih =>
    intro o ctx hsdi hint hwf hok
    obtain ⟨r, ctx1, hr, hri, hwf1, hlog, hoth⟩ := receive_header_step fuel o sdi ctx ev
      hsdi hint hwf (fun l h => hok l (by simp [h]))
    obtain ⟨outs, o2, ctx2, hall, hsdi2, hint2, hwf2, hsome, hnone⟩ :=
      ih { o with internal := r.internal } ctx1 hsdi hri hwf1
        (fun l h => hok l (by simp [h]))
    refine ⟨r.out :: outs, o2, ctx2, by simp only [receive_all, hr, hall], hsdi2, hint2, hwf2,
      ?_, ?_⟩
    · rintro ⟨l, hl⟩
      by_cases hrest : ∃ l', sr_datafeed_packet.SR_DF_LOGIC l' ∈ rest
      · exact hsome hrest
      · have hno : ∀ l', sr_datafeed_packet.SR_DF_LOGIC l' ∉ rest :=
          fun l' h => hrest ⟨l', h⟩
        rw [hnone hno]
        rcases List.mem_cons.mp hl with e | e
        · exact (hlog l e.symm).1
        · exact absurd e (hno l)
    · intro hno
      rw [hnone (fun l h => hno l (List.mem_cons_of_mem _ h))]
      exact (hoth (fun l e => hno l (by simp [e]))).1

theorem headerless_block_eq (fuel : Nat) (o : sr_output) (sdi : sr_dev_inst) (ctx : context)
    (l : sr_datafeed_logic) (hsdi : o.sdi = some sdi) (hwf : ctx.wf)
    (hok : packet_ok l ∧ l.length / l.unitsize < fuel) :
    headerless_block fuel o ctx l
      = some (run_samples (packet_samples l) ⟨{ ctx with header := none }, [], []⟩).out := by
  obtain ⟨r, ctx1, hr, -, -, hlog, -⟩ := receive_header_step fuel
    { o with internal := some { ctx with header := none } } sdi { ctx with header := none }
    (sr_datafeed_packet.SR_DF_LOGIC l) hsdi rfl hwf
    (fun l' h => by obtain rfl := sr_datafeed_packet.SR_DF_LOGIC.inj h; exact hok)
  have hout := (hlog l rfl).2
  simp only [Option.getD_none, List.nil_append] at hout
  simp only [headerless_block, hr]
  exact hout

theorem sample_step_header (logic : sr_datafeed_logic) (i : Nat) (st : loop_state) :
    (sample_step logic i st).ctx.header = st.ctx.header := by
  unfold sample_step
  by_cases hf : st.ctx.spl_cnt + 1 = st.ctx.samples_per_line
  · simp only [hf, if_true]
  · simp only [hf, if_false]

/-- The sample loop of any packet, when it ends, keeps the arrays consistent
and does not touch the header field. -/
theorem logic_loop_inv (logic : sr_datafeed_logic) (fuel : Nat) :
    ∀ (i : Nat) (st st1 : loop_state), st.ctx.wf → logic_loop logic fuel i st = some st1 →
      st1.ctx.wf ∧ st1.ctx.header = st.ctx.header := by
  induction fuel with
  | zero => intro i st st1 _ h; exact Option.noConfusion h
  | succ f ih =>
    intro i st st1 hwf h
    rw [logic_loop] at h
    by_cases hc : i ≤ sub64 logic.length logic.unitsize
    · rw [if_pos hc, sample_body_eq _ _ _ hwf] at h
      obtain ⟨h1, h2⟩ := ih _ _ st1 (sample_step_wf _ _ _ hwf) h
      exact ⟨h1, h2.trans (sample_step_header _ _ _)⟩
    · rw [if_neg hc] at h
      obtain rfl := Option.some.inj h
      exact ⟨hwf, rfl⟩

/-- The sample loop of any packet only extends the text and the offsets
gathered before it. -/
theorem logic_loop_out_frame (logic : sr_datafeed_logic) (fuel : Nat) :
    ∀ (i : Nat) (ctx : context) (out : GString) (reads : List Int), ctx.wf →
      logic_loop logic fuel i ⟨ctx, out, reads⟩
        = (logic_loop logic fuel i ⟨ctx, [], []⟩).map
            (fun st => ⟨st.ctx, out ++ st.out, reads ++ st.reads⟩) := by
  induction fuel with
  | zero => intro i ctx out reads _; rfl
  | succ f ih =>
    intro i ctx out reads hwf
    by_cases hc : i ≤ sub64 logic.length logic.unitsize
    · have hwf1 : (sample_step logic i ⟨ctx, [], []⟩).ctx.wf :=
        sample_step_wf logic i ⟨ctx, [], []⟩ hwf
      rw [logic_loop, if_pos hc, logic_loop, if_pos hc,
        sample_body_eq logic i ⟨ctx, out, reads⟩ hwf,
        sample_body_eq logic i ⟨ctx, [], []⟩ hwf, sample_step_out_frame, ih _ _ _ _ hwf1]
      conv_rhs => rw [ih _ _ (sample_step logic i ⟨ctx, [], []⟩).out
        (sample_step logic i ⟨ctx, [], []⟩).reads hwf1]
      cases logic_loop logic f (add64 i logic.unitsize)
        ⟨(sample_step logic i ⟨ctx, [], []⟩).ctx, [], []⟩ with
      | none => rfl
      | some st => simp only [Option.map_some', List.append_assoc]
    · rw [logic_loop, if_neg hc, logic_loop, if_neg hc]
      simp

/-- One call of `receive` that returns, on a context with consistent
arrays and for any packet: the arrays stay consistent; an `SR_DF_LOGIC`
packet yields the header, if still there, followed by the block the same
packet yields without a header, and leaves no header; any other packet
leaves the header where it is and yields nothing or the line buffers. -/
theorem receive_returned_step (fuel : Nat) (o : sr_output) (sdi : sr_dev_inst)
    (ctx : context) (ev : sr_datafeed_packet) (r : receive_result)
    (hsdi : o.sdi = some sdi) (hint : o.internal = some ctx) (hwf : ctx.wf)
    (hr : receive fuel (some o) ev = some r) :
    ∃ ctx1 : context, r.internal = some ctx1 ∧ ctx1.wf ∧
      (∀ l, ev = sr_datafeed_packet.SR_DF_LOGIC l →
        ctx1.header = none ∧
        ∃ body, headerless_block fuel o ctx l = some body ∧
          r.out = some (ctx.header.getD [] ++ body)) ∧
      ((∀ l, ev ≠ sr_datafeed_packet.SR_DF_LOGIC l) →
        ctx1.header = ctx.header ∧
        (r.out = none ∨ r.out = some (ctx.lines.map (fun line => line ++ ['\n'])).flatten)) := by
  cases ev with
  | SR_DF_TRIGGER =>
    simp only [receive, hsdi, hint, Option.some.injEq] at hr
    subst hr
    exact ⟨_, rfl, hwf, fun l h => sr_datafeed_packet.noConfusion h,
      fun _ => ⟨rfl, Or.inl rfl⟩⟩
  | SR_DF_LOGIC l =>
    have hwf0 : ({ ctx with header := none } : context).wf := hwf
    have hstart0 : logic_start { ctx with header := none }
        = ⟨{ ctx with header := none }, [], []⟩ := rfl
    have hloop : logic_loop l fuel 0 (logic_start ctx)
        = (logic_loop l fuel 0 ⟨{ ctx with header := none }, [], []⟩).map
            (fun st => ⟨st.ctx, ctx.header.getD [] ++ st.out, [] ++ st.reads⟩) := by
      rw [logic_start_eq, logic_loop_out_frame l fuel 0 _ _ _ hwf0]
    have hr1 : receive fuel (some o) (sr_datafeed_packet.SR_DF_LOGIC l)
        = match logic_loop l fuel 0 (logic_start ctx) with
          | none => none
          | some st => some ⟨retcode.SR_OK, some st.ctx, some st.out, st.reads⟩ := by
      simp only [receive, hsdi, hint, logic_start]
    have hb : headerless_block fuel o ctx l
        = (logic_loop l fuel 0 ⟨{ ctx with header := none }, [], []⟩).bind
            (fun st => some st.out) := by
      simp only [headerless_block, receive, hsdi]
      cases logic_loop l fuel 0 ⟨{ ctx with header := none }, [], []⟩ <;> rfl
    rw [hr1, hloop] at hr
    cases h0 : logic_loop l fuel 0 ⟨{ ctx with header := none }, [], []⟩ with
    | none => rw [h0] at hr; exact Option.noConfusion hr
    | some st =>
      rw [h0] at hr hb
      simp only [Option.map_some', Option.some.injEq] at hr
      subst hr
      obtain ⟨hwf1, hh1⟩ := logic_loop_inv l fuel 0 _ st hwf0 h0
      refine ⟨st.ctx, rfl, hwf1, ?_, fun h => absurd rfl (h l)⟩
      intro l1 hl1
      obtain rfl := sr_datafeed_packet.SR_DF_LOGIC.inj hl1
      exact ⟨hh1, st.out, hb, rfl⟩
  | SR_DF_END =>
    by_cases hc : ctx.spl_cnt = 0
    · simp only [receive, hsdi, hint, hc, ne_eq, not_true_eq_false, if_false,
        Option.some.injEq] at hr
      subst hr
      exact ⟨_, rfl, hwf, fun l h => sr_datafeed_packet.noConfusion h,
        fun _ => ⟨rfl, Or.inl rfl⟩⟩
    · simp only [receive, hsdi, hint, hc, ne_eq, not_false_eq_true, if_true,
        end_flush_eq ctx hwf, Option.some.injEq] at hr
      subst hr
      exact ⟨_, rfl, hwf, fun l h => sr_datafeed_packet.noConfusion h,
        fun _ => ⟨rfl, Or.inr rfl⟩⟩
  | SR_DF_OTHER =>
    simp only [receive, hsdi, hint, Option.some.injEq] at hr
    subst hr
    exact ⟨_, rfl, hwf, fun l h => sr_datafeed_packet.noConfusion h,
      fun _ => ⟨rfl, Or.inl rfl⟩⟩

/-- A sequence of calls that all return, for any packets: the arrays stay
consistent; the header is gone afterwards if the sequence holds an
`SR_DF_LOGIC` packet and is where it was if not. -/
theorem receive_all_returned (fuel : Nat) (sdi : sr_dev_inst) (evs : List sr_datafeed_packet) :
    ∀ (o : sr_output) (ctx : context) (outs : List (Option GString)) (o1 : sr_output),
      o.sdi = some sdi → o.internal = some ctx → ctx.wf →
      receive_all fuel o evs = some (outs, o1) →
      ∃ ctx1 : context, o1.sdi = some sdi ∧ o1.internal = some ctx1 ∧ ctx1.wf ∧
        ((∃ l, sr_datafeed_packet.SR_DF_LOGIC l ∈ evs) → ctx1.header = none) ∧
        ((∀ l, sr_datafeed_packet.SR_DF_LOGIC l ∉ evs) → ctx1.header = ctx.header) := by
  induction evs with
  | nil =>
    intro o ctx outs o1 hsdi hint hwf h
    simp only [receive_all, Option.some.injEq, Prod.mk.injEq] at h
    obtain ⟨-, rfl⟩ := h
    exact ⟨ctx, hsdi, hint, hwf, fun ⟨l, h⟩ => absurd h (List.not_mem_nil _), fun _ => rfl⟩
  | cons ev rest ih =>
    intro o ctx outs o1 hsdi hint hwf h
    rw [receive_all] at h
    cases hr : receive fuel (some o) ev with
    | none => simp only [hr] at h; exact Option.noConfusion h
    | some r =>
      simp only [hr] at h
      cases hrest : receive_all fuel { o with internal := r.internal } rest with
      | none => simp only [hrest] at h; exact Option.noConfusion h
      | some res =>
        obtain ⟨outs1, o2⟩ := res
        simp only [hrest, Option.some.injEq, Prod.mk.injEq] at h
        obtain ⟨-, rfl⟩ := h
        obtain ⟨ctx1, hri, hwf1, hlog, hoth⟩ :=
          receive_returned_step fuel o sdi ctx ev r hsdi hint hwf hr
        obtain ⟨ctx2, hsdi2, hint2, hwf2, hsome, hnone⟩ :=
          ih { o with internal := r.internal } ctx1 outs1 o2 hsdi hri hwf1 hrest
        refine ⟨ctx2, hsdi2, hint2, hwf2, ?_, ?_⟩
        · rintro ⟨l, hl⟩
          by_cases hex : ∃ l1, sr_datafeed_packet.SR_DF_LOGIC l1 ∈ rest
          · exact hsome hex
          · have hno : ∀ l1, sr_datafeed_packet.SR_DF_LOGIC l1 ∉ rest :=
              fun l1 h => hex ⟨l1, h⟩
            rw [hnone hno]
            rcases List.mem_cons.mp hl with e | e
            · exact (hlog l e.symm).1
            · exact absurd e (hno l)
        · intro hno
          rw [hnone (fun l h => hno l (List.mem_cons_of_mem _ h))]
          exact (hoth (fun l e => hno l (by simp [e]))).1

/-- C7. Header emitted exactly once: after a successful `init` the context
holds a header `hdr`. A sequence of packets whose `SR_DF_LOGIC` packets have
at least one sample of at least one byte is processed to the end. And for
every sequence of packets and every packet `ev` of it that is reached and
processed: if `ev` is the first `SR_DF_LOGIC` packet, the header is still
there before it and its block is `hdr` followed by the block the same
packet yields without a header; if it is a later `SR_DF_LOGIC` packet, the
header is already gone and the block is the headerless one; after an
`SR_DF_LOGIC` packet the context holds no header; any other packet leaves
the header field as it is and its block is absent or is the text of the
line buffers. -/
theorem header_emitted_once (PACKAGE_STRING : GString)
    (sr_samplerate_string : Nat → GString) (strtoul : GString → Nat) (o0 o : sr_output)
    (hinit : init PACKAGE_STRING sr_samplerate_string strtoul (some o0)
      = (retcode.SR_OK, some o))
    (fuel : Nat) (evs : List sr_datafeed_packet) :
    ∃ (hdr : GString) (ctx0 : context), o.internal = some ctx0 ∧ ctx0.header = some hdr ∧
      ((∀ l, sr_datafeed_packet.SR_DF_LOGIC l ∈ evs →
          packet_ok l ∧ l.length / l.unitsize < fuel) →
        ∃ res, receive_all fuel o evs = some res) ∧
      ∀ (pre : List sr_datafeed_packet) (ev : sr_datafeed_packet)
        (post : List sr_datafeed_packet) (outs : List (Option GString)) (o1 : sr_output)
        (r : receive_result), evs = pre ++ ev :: post →
        receive_all fuel o pre = some (outs, o1) → receive fuel (some o1) ev = some r →
        ∃ (ctx ctx1 : context), o1.internal = some ctx ∧ r.internal = some ctx1 ∧
          (∀ l, ev = sr_datafeed_packet.SR_DF_LOGIC l →
            ctx1.header = none ∧
            ∃ body, headerless_block fuel o1 ctx l = some body ∧
              ((∀ l1, sr_datafeed_packet.SR_DF_LOGIC l1 ∉ pre) →
                ctx.header = some hdr ∧ r.out = some (hdr ++ body)) ∧
              ((∃ l1, sr_datafeed_packet.SR_DF_LOGIC l1 ∈ pre) →
                ctx.header = none ∧ r.out = some body)) ∧
          ((∀ l, ev ≠ sr_datafeed_packet.SR_DF_LOGIC l) →
            ctx1.header = ctx.header ∧
            (r.out = none ∨
              r.out = some (ctx.lines.map (fun line => line ++ ['\n'])).flatten)) := by
  obtain ⟨sdi, ctx0, hsdi, -, hint, hfresh, -, hhdr⟩ :=
    init_ok PACKAGE_STRING sr_samplerate_string strtoul o0 o hinit
  have hwf0 := hfresh.1
  refine ⟨_, ctx0, hint, hhdr, ?_, ?_⟩
  · intro hok
    obtain ⟨outs, o1, -, hall, -⟩ := receive_all_header fuel sdi evs o ctx0 hsdi hint hwf0 hok
    exact ⟨_, hall⟩
  · intro pre ev post outs o1 r _ hpre hr
    obtain ⟨ctx, hsdi1, hint1, hwf1, hsome, hnone⟩ :=
      receive_all_returned fuel sdi pre o ctx0 outs o1 hsdi hint hwf0 hpre
    obtain ⟨ctx1, hri, -, hlog, hoth⟩ :=
      receive_returned_step fuel o1 sdi ctx ev r hsdi1 hint1 hwf1 hr
    refine ⟨ctx, ctx1, hint1, hri, ?_, hoth⟩
    intro l hl
    obtain ⟨h1, body, hb, h2⟩ := hlog l hl
    refine ⟨h1, body, hb, ?_, ?_⟩
    · intro hno
      have hc : ctx.header = some _ := (hnone hno).trans hhdr
      refine ⟨hc, ?_⟩
      rw [h2, hc, Option.getD_some]
    · intro hex
      have hc : ctx.header = none := hsome hex
      refine ⟨hc, ?_⟩
      rw [h2, hc, Option.getD_none, List.nil_append]

/-! ### Instances of the theorems on the concrete session -/

/-- C1, witness: the scenario, width 8 and eight samples of one byte. -/
theorem full_line_rendering_witness :
    ∃ r, receive 9 (some scenario_session)
        (sr_datafeed_packet.SR_DF_LOGIC scenario_packet) = some r ∧
      r.ret = retcode.SR_OK ∧
      r.out = some (List.zipWith
        (fun name idx => name ++ [':']
          ++ group_bits 0 ((List.range 8).map
              (fun s => decode_bit scenario_packet.data scenario_packet.unitsize s idx.toNat))
          ++ ['\n'])
        scenario_ctx.channel_names scenario_ctx.channel_index).flatten :=
  full_line_rendering 8 (by decide) scenario_session scenario_sdi scenario_ctx scenario_packet
    rfl rfl (by decide) (by decide) (by decide) (by decide) (by decide) rfl rfl rfl rfl rfl
    9 (by decide)

/-- C4, witness: width 8 and 11 samples in two packets: one group of
completed lines, and three samples left for `SR_DF_END`. -/
theorem line_count_witness :
    ∃ (blocks : List GString) (o1 : sr_output),
      receive_all 12 scenario_session
          (witness_packets.map sr_datafeed_packet.SR_DF_LOGIC ++ [sr_datafeed_packet.SR_DF_END])
        = some (blocks.map some
            ++ [if 0 < total_samples witness_packets % 8
                then some (unfinished_block scenario_ctx
                  ((all_samples witness_packets).drop (total_samples witness_packets / 8 * 8)))
                else none], o1) ∧
      blocks.length = witness_packets.length ∧
      blocks.flatten = (if witness_packets = [] then [] else scenario_ctx.header.getD [])
        ++ ((List.range (total_samples witness_packets / 8)).map
            (fun k => line_block scenario_ctx
              (((all_samples witness_packets).drop (k * 8)).take 8))).flatten :=
  line_count 8 (by decide) 12 scenario_session scenario_sdi scenario_ctx rfl rfl (by decide) rfl
    witness_packets (by decide)

theorem two_packets_blocks :
    (receive_all 12 scenario_session
      (witness_packets.map sr_datafeed_packet.SR_DF_LOGIC ++ [sr_datafeed_packet.SR_DF_END])).map
        (fun res => res.1)
      = some [some [], some "D0:10110101\nD1:00000001\n".toList,
          some "D0:010\nD1:111\n".toList] := by
  decide

/-- C7, witness: `init` on the scenario object, then a trigger, two packets
and the end of the stream. -/
theorem header_emitted_once_witness :
    ∃ (hdr : GString) (ctx0 : context),
      initialised_session.internal = some ctx0 ∧ ctx0.header = some hdr ∧
      ((∀ l, sr_datafeed_packet.SR_DF_LOGIC l ∈ witness_events →
          packet_ok l ∧ l.length / l.unitsize < 9) →
        ∃ res, receive_all 9 initialised_session witness_events = some res) ∧
      ∀ (pre : List sr_datafeed_packet) (ev : sr_datafeed_packet)
        (post : List sr_datafeed_packet) (outs : List (Option GString)) (o1 : sr_output)
        (r : receive_result), witness_events = pre ++ ev :: post →
        receive_all 9 initialised_session pre = some (outs, o1) →
        receive 9 (some o1) ev = some r →
        ∃ (ctx ctx1 : context), o1.internal = some ctx ∧ r.internal = some ctx1 ∧
          (∀ l, ev = sr_datafeed_packet.SR_DF_LOGIC l →
            ctx1.header = none ∧
            ∃ body, headerless_block 9 o1 ctx l = some body ∧
              ((∀ l1, sr_datafeed_packet.SR_DF_LOGIC l1 ∉ pre) →
                ctx.header = some hdr ∧ r.out = some (hdr ++ body)) ∧
              ((∃ l1, sr_datafeed_packet.SR_DF_LOGIC l1 ∈ pre) →
                ctx.header = none ∧ r.out = some body)) ∧
          ((∀ l, ev ≠ sr_datafeed_packet.SR_DF_LOGIC l) →
            ctx1.header = ctx.header ∧
            (r.out = none ∨
              r.out = some (ctx.lines.map (fun line => line ++ ['\n'])).flatten)) :=
  header_emitted_once "libsigrok 0.3.0".toList (fun _ => "1 MHz".toList) strtoul10
    scenario_output initialised_session (scenario_init _ _) 9 witness_events

theorem header_run_blocks :
    (receive_all 9 initialised_session witness_events).map (fun res => res.1)
      = some [none, some "libsigrok 0.3.0\nD0:10101010\nD1:00001111\nT:^ 0\n".toList,
          some "D0:10101010\nD1:00001111\n".toList, none] := by
  decide

/-! ### Trigger packets -/

/-- C11. Trigger event effect and frame: on any context, an `SR_DF_TRIGGER`
packet returns `SR_OK` without an output block and leaves the context as it
was except for `trigger`, which becomes the current `spl_cnt` whatever it
was before: `spl_cnt`, `samples_per_line`, the channel arrays, the line
buffers and the header are unchanged, and no byte is read. -/
theorem trigger_event_frame (fuel : Nat) (o : sr_output) (sdi : sr_dev_inst) (ctx : context)
    (hsdi : o.sdi = some sdi) (hint : o.internal = some ctx) :
    receive fuel (some o) sr_datafeed_packet.SR_DF_TRIGGER
      = some ⟨retcode.SR_OK, some { ctx with trigger := ctx.spl_cnt }, none, []⟩ := by
  simp only [receive, hsdi, hint]

/-- C11, witness: a trigger at column 3 replaces the one pending at
column 1. -/
theorem trigger_event_frame_witness :
    receive 0 (some { scenario_output with internal := some retrigger_ctx })
        sr_datafeed_packet.SR_DF_TRIGGER
      = some ⟨retcode.SR_OK, some { retrigger_ctx with trigger := retrigger_ctx.spl_cnt },
          none, []⟩ :=
  trigger_event_frame 0 { scenario_output with internal := some retrigger_ctx } scenario_sdi
    retrigger_ctx rfl rfl

/-! ### Reset of the line buffers -/

/-- C12. Reset after a width-triggered flush: `init` seeds every line buffer
with `"<name>:"`; and whenever, while samples are processed from a context
with consistent arrays, a sample brings the column count to the width, the
line buffers right after that sample are again exactly `"<name>:"` for the
unchanged channel names, whatever they held before. -/
theorem reset_after_flush (pre : List (sr_datafeed_logic × Nat))
    (smp : sr_datafeed_logic × Nat) (st : loop_state) (hwf : st.ctx.wf)
    (hfull : (run_samples pre st).ctx.spl_cnt + 1 = st.ctx.samples_per_line) :
    (run_samples (pre ++ [smp]) st).ctx.lines
        = st.ctx.channel_names.map (fun name => name ++ [':']) ∧
    (run_samples (pre ++ [smp]) st).ctx.channel_names = st.ctx.channel_names ∧
    (run_samples (pre ++ [smp]) st).ctx.spl_cnt = 0 ∧
    ∀ (PACKAGE_STRING : GString) (sr_samplerate_string : Nat → GString)
      (strtoul : GString → Nat) (o0 o : sr_output),
      init PACKAGE_STRING sr_samplerate_string strtoul (some o0) = (retcode.SR_OK, some o) →
      ∃ ctx0 : context, o.internal = some ctx0 ∧
        ctx0.lines = ctx0.channel_names.map (fun name => name ++ [':']) := by
  have hwf1 := run_samples_wf pre st hwf
  obtain ⟨-, hnames, -, hspl, -, -⟩ := run_samples_frame pre st hwf
  have hone : run_samples (pre ++ [smp]) st
      = sample_step smp.1 smp.2 (run_samples pre st) := by
    rw [run_samples_append]
    exact sample_body_eq _ _ _ hwf1
  have hf : (run_samples pre st).ctx.spl_cnt + 1 = (run_samples pre st).ctx.samples_per_line := by
    rw [hspl]; exact hfull
  rw [hone]
  simp only [sample_step, hf, if_true, hnames, true_and]
  intro P S T o0 o hinit
  obtain ⟨sdi, ctx0, -, -, hint, hfresh, -, -⟩ := init_ok P S T o0 o hinit
  exact ⟨ctx0, hint, hfresh.2.2.2⟩

/-- C12, witness: the eighth sample of a line of width 8, with arbitrary
text in the line buffers before it. -/
theorem reset_after_flush_witness :
    (run_samples ([] ++ [(scenario_packet, 0)]) before_flush_state).ctx.lines
      = ["D0:".toList, "D1:".toList] :=
  (reset_after_flush [] (scenario_packet, 0) before_flush_state (by decide) (by decide)).1

/-! ### Position of the caret -/

theorem indexOf_after_replicate (a b : Char) (hab : b ≠ a) (k : Nat) (rest : GString) :
    (List.replicate k b ++ a :: rest).indexOf a = k := by
  induction k with
  | zero => simp
  | succ k ih =>
    rw [List.replicate_succ, List.cons_append, List.indexOf_cons_ne _ hab, ih]

theorem trigger_line_caret (c : Nat) :
    (trigger_line (c : Int)).indexOf '^' = 2 + c + c / 8 := by
  rw [trigger_line_nat]
  have h : "T:".toList ++ List.replicate (c + c / 8) ' ' ++ "^ ".toList ++ Nat.toDigits 10 c
        ++ ['\n']
      = 'T' :: ':' :: (List.replicate (c + c / 8) ' ' ++ '^' :: (' ' :: (Nat.toDigits 10 c
          ++ ['\n']))) := by
    simp [List.append_assoc]
  rw [h, List.indexOf_cons_ne _ (by decide), List.indexOf_cons_ne _ (by decide),
    indexOf_after_replicate '^' ' ' (by decide)]
  omega

/-- C13 (as stated, refuted). For a trigger at column 3 the annotation line
of the flush is `"T:   ^ 3\n"`: the character at offset `3 + 3 / 8 = 3` from
the start of the line is a space, and the caret stands at offset 5. -/
theorem caret_offset_from_line_start_refuted :
    trigger_line 3 = "T:   ^ 3\n".toList ∧
    (trigger_line 3)[3 + 3 / 8]? = some ' ' ∧
    (trigger_line 3).indexOf '^' = 5 := by
  decide

/-- C13 (amended). When the last channel is flushed with a trigger pending
at column `c`, the text appended after that channel's line is the annotation
line, which starts with `"T:"` and has its first caret at 0-based offset
`2 + c + c / 8` from the start of the line, that is `c + c / 8` characters
after the prefix `"T:"`. -/
theorem caret_offset (c : Nat) (logic : sr_datafeed_logic) (i : Nat) (st : loop_state)
    (j : Nat) (hflush : st.ctx.spl_cnt = st.ctx.samples_per_line)
    (hlast : j = st.ctx.num_enabled_channels - 1) (htrig : st.ctx.trigger = (c : Int)) :
    ∃ mark : GString,
      (channel_body logic i st j).out
        = st.out ++ (st.ctx.lines.getD j []
            ++ [sample_bit logic i (st.ctx.channel_index.getD j 0)]) ++ ['\n'] ++ mark ∧
      mark = trigger_line (c : Int) ∧
      mark.take 2 = "T:".toList ∧
      mark.indexOf '^' = 2 + c + c / 8 := by
  have hgt : (c : Int) > -1 := by omega
  refine ⟨trigger_line (c : Int), ?_, rfl, ?_, trigger_line_caret c⟩
  · unfold channel_body
    simp only [hflush, if_true, ← hlast, htrig, hgt, and_self, sample_bit, byte_offset]
  · rw [trigger_line_nat]
    rfl

/-- C13 (amended), witness: width 8, trigger at column 3, last channel `D1`;
the caret stands at offset 5. -/
theorem caret_offset_witness :
    ∃ mark : GString,
      (channel_body scenario_packet 7 caret_state 1).out
        = caret_state.out ++ (caret_state.ctx.lines.getD 1 []
            ++ [sample_bit scenario_packet 7 (caret_state.ctx.channel_index.getD 1 0)])
          ++ ['\n'] ++ mark ∧
      mark = trigger_line ((3 : Nat) : Int) ∧
      mark.take 2 = "T:".toList ∧
      mark.indexOf '^' = 2 + 3 + 3 / 8 :=
  caret_offset 3 scenario_packet 7 caret_state 1 (by decide) (by decide) (by decide)

/-! ### The header without a samplerate -/

/-- C14 (as stated, refuted). The device of the scenario has no samplerate;
`init` still creates a header, and the block of the first `SR_DF_LOGIC`
packet is not the flushed lines alone: the line with the package string is
prepended. -/
theorem header_without_samplerate_refuted :
    scenario_sdi.samplerate = none ∧
    init "libsigrok 0.3.0".toList (fun _ => "1 MHz".toList) strtoul10 (some scenario_output)
      = (retcode.SR_OK, some initialised_session) ∧
    (receive 9 (some initialised_session)
        (sr_datafeed_packet.SR_DF_LOGIC scenario_packet)).map (fun r => r.out)
      ≠ some (some "D0:10101010\nD1:00001111\n".toList) ∧
    (receive 9 (some initialised_session)
        (sr_datafeed_packet.SR_DF_LOGIC scenario_packet)).map (fun r => r.out)
      = some (some "libsigrok 0.3.0\nD0:10101010\nD1:00001111\n".toList) := by
  refine ⟨rfl, scenario_init _ _, by decide, by decide⟩

/-- C14 (amended). When the samplerate lookup fails during `init`, the
header is the package string followed by a newline, without the
`Acquisition with ...` line; the block of the first `SR_DF_LOGIC` packet is
that line followed by the block the packet yields without a header, and the
header is gone afterwards. -/
theorem header_without_samplerate (PACKAGE_STRING : GString)
    (sr_samplerate_string : Nat → GString) (strtoul : GString → Nat) (o0 o : sr_output)
    (sdi : sr_dev_inst) (hsdi0 : o0.sdi = some sdi) (hrate : sdi.samplerate = none)
    (hinit : init PACKAGE_STRING sr_samplerate_string strtoul (some o0)
      = (retcode.SR_OK, some o))
    (fuel : Nat) (l : sr_datafeed_logic) (hok : packet_ok l) (hfuel : l.length / l.unitsize < fuel) :
    ∃ (ctx0 : context) (r : receive_result) (ctx1 : context) (body : GString),
      o.internal = some ctx0 ∧ ctx0.header = some (PACKAGE_STRING ++ ['\n']) ∧
      receive fuel (some o) (sr_datafeed_packet.SR_DF_LOGIC l) = some r ∧
      headerless_block fuel o ctx0 l = some body ∧
      r.out = some (PACKAGE_STRING ++ ['\n'] ++ body) ∧
      r.internal = some ctx1 ∧ ctx1.header = none := by
  obtain ⟨sdi1, ctx0, hsdi, hsdi1, hint, hfresh, -, hhdr⟩ :=
    init_ok PACKAGE_STRING sr_samplerate_string strtoul o0 o hinit
  obtain rfl : sdi1 = sdi := Option.some.inj (hsdi1.symm.trans hsdi0)
  have hh : ctx0.header = some (PACKAGE_STRING ++ ['\n']) := by
    rw [hhdr, make_header, hrate]
  obtain ⟨r, ctx1, hr, hri, -, hlog, -⟩ := receive_header_step fuel o sdi1 ctx0
    (sr_datafeed_packet.SR_DF_LOGIC l) hsdi hint hfresh.1
    (fun l1 h => by obtain rfl := sr_datafeed_packet.SR_DF_LOGIC.inj h; exact ⟨hok, hfuel⟩)
  obtain ⟨h1, h2⟩ := hlog l rfl
  refine ⟨ctx0, r, ctx1, _, hint, hh, hr,
    headerless_block_eq fuel o sdi1 ctx0 l hsdi hfresh.1 ⟨hok, hfuel⟩, ?_, hri, h1⟩
  rw [h2, hh, Option.getD_some]

/-- C14 (amended), witness: the scenario device, which has no samplerate. -/
theorem header_without_samplerate_witness :
    ∃ (ctx0 : context) (r : receive_result) (ctx1 : context) (body : GString),
      initialised_session.internal = some ctx0 ∧
      ctx0.header = some ("libsigrok 0.3.0".toList ++ ['\n']) ∧
      receive 9 (some initialised_session) (sr_datafeed_packet.SR_DF_LOGIC scenario_packet)
        = some r ∧
      headerless_block 9 initialised_session ctx0 scenario_packet = some body ∧
      r.out = some ("libsigrok 0.3.0".toList ++ ['\n'] ++ body) ∧
      r.internal = some ctx1 ∧ ctx1.header = none :=
  header_without_samplerate "libsigrok 0.3.0".toList (fun _ => "1 MHz".toList) strtoul10
    scenario_output initialised_session scenario_sdi rfl rfl (scenario_init _ _) 9
    scenario_packet (by decide) (by decide)

/-! ### Termination of the sample loop -/

theorem logic_loop_starved (logic : sr_datafeed_logic)
    (hl : logic.unitsize ≤ logic.length) (h64 : logic.length < 2 ^ 64) (fuel : Nat) :
    ∀ (s : Nat) (st : loop_state), s + fuel ≤ logic.length / logic.unitsize →
      logic_loop logic fuel (s * logic.unitsize) st = none := by
  have hq : logic.length / logic.unitsize * logic.unitsize ≤ logic.length :=
    Nat.div_mul_le_self _ _
  induction fuel with
  | zero => intro s st _; rfl
  | succ f ih =>
    intro s st hs
    have hle : (s + 1) * logic.unitsize ≤ logic.length / logic.unitsize * logic.unitsize :=
      Nat.mul_le_mul_right _ (by omega)
    have hs1 : (s + 1) * logic.unitsize = s * logic.unitsize + logic.unitsize := by
      rw [Nat.add_mul, Nat.one_mul]
    have hc : s * logic.unitsize ≤ sub64 logic.length logic.unitsize := by
      rw [sub64_eq _ _ hl h64]; omega
    have ha : add64 (s * logic.unitsize) logic.unitsize = (s + 1) * logic.unitsize := by
      unfold add64
      rw [Nat.mod_eq_of_lt (by omega), hs1]
    rw [logic_loop, if_pos hc, ha]
    exact ih (s + 1) _ (by omega)

theorem logic_loop_zero_unit (logic : sr_datafeed_logic) (h0 : logic.unitsize = 0)
    (fuel : Nat) : ∀ st : loop_state, logic_loop logic fuel 0 st = none := by
  induction fuel with
  | zero => intro st; rfl
  | succ f ih =>
    intro st
    have ha : add64 0 logic.unitsize = 0 := by rw [h0]; rfl
    rw [logic_loop, if_pos (Nat.zero_le _), ha]
    exact ih _

/-- C20. Termination and sample count: for a packet with `unit_size >= 1`
and `buffer_length >= unit_size` the sample loop ends after the loop
condition has been evaluated `buffer_length / unit_size + 1` times, that is
after exactly `buffer_length / unit_size` runs of its body, one for each
whole sample at offsets `0, unit_size, 2 * unit_size, ...` (trailing bytes
are not visited); with less fuel it has not ended. The index never wraps:
every step `i + unit_size` stays within `buffer_length < 2^64`. With
`unit_size = 0` the index stays 0 and the loop never ends. -/
theorem sample_loop_terminates (fuel : Nat) (o : sr_output) (sdi : sr_dev_inst)
    (ctx : context) (logic : sr_datafeed_logic) (hsdi : o.sdi = some sdi)
    (hint : o.internal = some ctx) (hu : 1 ≤ logic.unitsize)
    (hl : logic.unitsize ≤ logic.length) (h64 : logic.length < 2 ^ 64) :
    (receive fuel (some o) (sr_datafeed_packet.SR_DF_LOGIC logic)
      = if logic.length / logic.unitsize < fuel then
          some ⟨retcode.SR_OK,
            some (run_samples (packet_samples logic) (logic_start ctx)).ctx,
            some (run_samples (packet_samples logic) (logic_start ctx)).out,
            (run_samples (packet_samples logic) (logic_start ctx)).reads⟩
        else none) ∧
    packet_samples logic
      = (List.range (logic.length / logic.unitsize)).map (fun s => (logic, s * logic.unitsize)) ∧
    (∀ s, s < logic.length / logic.unitsize →
      add64 (s * logic.unitsize) logic.unitsize = s * logic.unitsize + logic.unitsize ∧
      s * logic.unitsize + logic.unitsize ≤ logic.length) ∧
    (∀ l0 : sr_datafeed_logic, l0.unitsize = 0 →
      add64 0 l0.unitsize = 0 ∧
      ∀ fuel0 : Nat, receive fuel0 (some o) (sr_datafeed_packet.SR_DF_LOGIC l0) = none) := by
  refine ⟨?_, rfl, ?_, ?_⟩
  · by_cases hf : logic.length / logic.unitsize < fuel
    · rw [if_pos hf]
      exact receive_logic fuel o sdi ctx logic hsdi hint hu hl h64 hf
    · rw [if_neg hf]
      have h := logic_loop_starved logic hl h64 fuel 0 (logic_start ctx) (by omega)
      rw [Nat.zero_mul] at h
      unfold logic_start at h
      simp only [receive, hsdi, hint]
      cases hh : ctx.header with
      | none => simp only [hh] at h ⊢; rw [h]
      | some hdr => simp only [hh] at h ⊢; rw [h]
  · intro s hs
    have hq : logic.length / logic.unitsize * logic.unitsize ≤ logic.length :=
      Nat.div_mul_le_self _ _
    have hle : (s + 1) * logic.unitsize ≤ logic.length / logic.unitsize * logic.unitsize :=
      Nat.mul_le_mul_right _ (by omega)
    have hs1 : (s + 1) * logic.unitsize = s * logic.unitsize + logic.unitsize := by
      rw [Nat.add_mul, Nat.one_mul]
    refine ⟨?_, by omega⟩
    unfold add64
    exact Nat.mod_eq_of_lt (by omega)
  · intro l0 h0
    refine ⟨by rw [h0]; rfl, ?_⟩
    intro fuel0
    have h := logic_loop_zero_unit l0 h0 fuel0
    simp only [receive, hsdi, hint]
    cases hh : ctx.header with
    | none => simp only [h]
    | some hdr => simp only [h]

/-- C20, witness: a packet of 9 bytes with 2 bytes per sample has 4 samples;
the loop ends with fuel 5 and not with fuel 4. -/
theorem sample_loop_terminates_witness :
    (receive 5 (some scenario_session) (sr_datafeed_packet.SR_DF_LOGIC
        ⟨9, 2, [1, 0, 0, 0, 1, 0, 0, 0, 1]⟩)).isSome = true ∧
    receive 4 (some scenario_session) (sr_datafeed_packet.SR_DF_LOGIC
        ⟨9, 2, [1, 0, 0, 0, 1, 0, 0, 0, 1]⟩) = none :=
  ⟨by
    rw [(sample_loop_terminates 5 scenario_session scenario_sdi scenario_ctx
      ⟨9, 2, [1, 0, 0, 0, 1, 0, 0, 0, 1]⟩ rfl rfl (by decide) (by decide) (by decide)).1]
    rfl,
   (sample_loop_terminates 4 scenario_session scenario_sdi scenario_ctx
      ⟨9, 2, [1, 0, 0, 0, 1, 0, 0, 0, 1]⟩ rfl rfl (by decide) (by decide) (by decide)).1⟩

/-! ### End of stream twice, trigger at the end of a line -/

/-- C16 (the code at the failing input). With width 8, three samples and two
`SR_DF_END` packets: the first `SR_DF_END` emits the unfinished lines and
leaves `spl_cnt = 3` and the line buffers `"D0:101"`, `"D1:000"` as they
were, so the second `SR_DF_END` emits the same lines again. -/
theorem end_flush_repeats :
    receive_all 4 scenario_session double_end_events
      = some ([some [], some "D0:101\nD1:000\n".toList, some "D0:101\nD1:000\n".toList],
          { scenario_output with internal := some three_samples_ctx }) := by
  decide

/-- C17 (as stated, refuted). With width 8, a trigger that arrives right
after the eighth sample of a line is not shown with the line just
completed: the block of that line has no annotation, and the block of the
next line ends with the annotation for column 0. -/
theorem boundary_trigger_refuted :
    (receive_all 9 scenario_session boundary_events).map (fun res => res.1)
      = some [some "D0:10101010\nD1:00001111\n".toList, none,
          some "D0:10101010\nD1:00001111\nT:^ 0\n".toList] := by
  decide

/-- A packet whose last sample completes the line: the whole result of
`receive`. -/
theorem receive_completes_line (fuel : Nat) (o : sr_output) (sdi : sr_dev_inst)
    (ctx : context) (logic : sr_datafeed_logic) (hsdi : o.sdi = some sdi)
    (hint : o.internal = some ctx) (hwf : ctx.wf) (hok : packet_ok logic)
    (hfuel : logic.length / logic.unitsize < fuel)
    (hfull : ctx.spl_cnt + ((logic.length / logic.unitsize : Nat) : Int)
      = ctx.samples_per_line) :
    receive fuel (some o) (sr_datafeed_packet.SR_DF_LOGIC logic)
      = some ⟨retcode.SR_OK,
          some { ctx with
            header := none
            spl_cnt := 0
            trigger := if 0 < ctx.num_enabled_channels ∧ ctx.trigger > -1 then -1
              else ctx.trigger
            lines := ctx.channel_names.map (fun name => name ++ [':']) },
          some (ctx.header.getD []
            ++ (List.zipWith
                  (fun line idx =>
                    line ++ line_tail ctx.spl_cnt (stream_bits (packet_samples logic) idx)
                      ++ ['\n'])
                  ctx.lines ctx.channel_index).flatten
            ++ (if 0 < ctx.num_enabled_channels ∧ ctx.trigger > -1
                then trigger_line ctx.trigger else [])),
          stream_reads (packet_samples logic) ctx.channel_index⟩ := by
  obtain ⟨hu, hl, h64⟩ := hok
  have hm : 1 ≤ logic.length / logic.unitsize := (Nat.one_le_div_iff (by omega)).mpr hl
  obtain ⟨m, hm1⟩ : ∃ m, logic.length / logic.unitsize = m + 1 :=
    ⟨logic.length / logic.unitsize - 1, by omega⟩
  have hwf0 : ({ ctx with header := none } : context).wf := hwf
  have hline := run_line ((List.range m).map (fun s => (logic, s * logic.unitsize)))
    (logic, m * logic.unitsize) ⟨{ ctx with header := none }, ctx.header.getD [], []⟩ hwf0
    (by
      show ctx.spl_cnt + ((List.map (fun s => (logic, s * logic.unitsize))
        (List.range m)).length : Int) + 1 = ctx.samples_per_line
      rw [List.length_map, List.length_range, ← hfull, hm1]; push_cast; ring)
  rw [← packet_samples_succ logic m hm1] at hline
  rw [receive_logic fuel o sdi ctx logic hsdi hint hu hl h64 hfuel, logic_start_eq, hline]
  simp only [List.nil_append]

theorem receive_trigger_eq (fuel : Nat) (o : sr_output) (sdi : sr_dev_inst) (ctx : context)
    (hsdi : o.sdi = some sdi) (hint : o.internal = some ctx) :
    receive fuel (some o) sr_datafeed_packet.SR_DF_TRIGGER
      = some ⟨retcode.SR_OK, some { ctx with trigger := ctx.spl_cnt }, none, []⟩ := by
  simp only [receive, hsdi, hint]

theorem trigger_line_zero : trigger_line 0 = "T:^ 0\n".toList := by decide

/-- C17 (amended). In a session of width `w >= 1` with at least one channel
and no trigger pending, let a packet complete a line with its last sample,
a trigger arrive right after it, and a packet of `w` samples follow. Then
the block of the completed line holds the channel lines and no annotation,
the trigger yields no block, and the block of the next line is its channel
lines followed by the annotation for column 0, `"T:^ 0\n"`. -/
theorem boundary_trigger_next_line (w : Nat) (fuel : Nat) (o : sr_output)
    (sdi : sr_dev_inst) (ctx : context) (a b : sr_datafeed_logic)
    (hsdi : o.sdi = some sdi) (hint : o.internal = some ctx) (hwf : ctx.wf)
    (hn : 1 ≤ ctx.num_enabled_channels) (hwidth : ctx.samples_per_line = (w : Int))
    (ht : ctx.trigger ≤ -1)
    (hoka : packet_ok a) (hfuela : a.length / a.unitsize < fuel)
    (hokb : packet_ok b) (hfuelb : b.length / b.unitsize < fuel)
    (hfull : ctx.spl_cnt + ((a.length / a.unitsize : Nat) : Int) = (w : Int))
    (hb : b.length / b.unitsize = w) :
    ∃ o1 : sr_output,
      receive_all fuel o
          [sr_datafeed_packet.SR_DF_LOGIC a, sr_datafeed_packet.SR_DF_TRIGGER,
            sr_datafeed_packet.SR_DF_LOGIC b]
        = some ([some (ctx.header.getD []
              ++ (List.zipWith
                    (fun line idx =>
                      line ++ line_tail ctx.spl_cnt (stream_bits (packet_samples a) idx)
                        ++ ['\n'])
                    ctx.lines ctx.channel_index).flatten),
            none,
            some (line_block ctx (packet_samples b) ++ "T:^ 0\n".toList)], o1) := by
  have hnf : ¬ (0 < ctx.num_enabled_channels ∧ ctx.trigger > -1) := by
    intro h; omega
  have hpos : 0 < ctx.num_enabled_channels := by omega
  have ha := receive_completes_line fuel o sdi ctx a hsdi hint hwf hoka hfuela
    (by rw [hfull, hwidth])
  simp only [hnf, if_false, List.append_nil] at ha
  have hbb := receive_completes_line fuel
    { o with internal := some (context.mk ctx.num_enabled_channels ctx.samples_per_line 0 0
        ctx.channel_index ctx.channel_names
        (ctx.channel_names.map (fun name => name ++ [':'])) none) }
    sdi
    (context.mk ctx.num_enabled_channels ctx.samples_per_line 0 0
        ctx.channel_index ctx.channel_names
        (ctx.channel_names.map (fun name => name ++ [':'])) none)
    b hsdi rfl ⟨hwf.1, hwf.2.1, by simp [hwf.2.1]⟩ hokb hfuelb
    (by
      show (0 : Int) + ((b.length / b.unitsize : Nat) : Int) = ctx.samples_per_line
      rw [hb, hwidth]; simp)
  have h0 := line_tail_nat 0
  simp only [Nat.cast_zero] at h0
  simp only [hpos, true_and, gt_iff_lt, show (-1 : Int) < 0 by decide, if_true,
    Option.getD_none, List.nil_append, List.zipWith_map_left, trigger_line_zero, h0,
    List.append_assoc] at hbb
  have htr := receive_trigger_eq fuel
    { o with internal := some (context.mk ctx.num_enabled_channels ctx.samples_per_line 0
        ctx.trigger ctx.channel_index ctx.channel_names
        (ctx.channel_names.map (fun name => name ++ [':'])) none) }
    sdi _ hsdi rfl
  simp only [receive_all, ha, htr, hbb, line_block, List.append_assoc]
  exact ⟨_, rfl⟩

/-- C17 (amended), witness: width 8, two packets of eight samples with a
trigger between them. -/
theorem boundary_trigger_next_line_witness :
    ∃ o1 : sr_output,
      receive_all 9 scenario_session
          [sr_datafeed_packet.SR_DF_LOGIC scenario_packet, sr_datafeed_packet.SR_DF_TRIGGER,
            sr_datafeed_packet.SR_DF_LOGIC scenario_packet]
        = some ([some (scenario_ctx.header.getD []
              ++ (List.zipWith
                    (fun line idx =>
                      line ++ line_tail scenario_ctx.spl_cnt
                        (stream_bits (packet_samples scenario_packet) idx) ++ ['\n'])
                    scenario_ctx.lines scenario_ctx.channel_index).flatten),
            none,
            some (line_block scenario_ctx (packet_samples scenario_packet)
              ++ "T:^ 0\n".toList)], o1) :=
  boundary_trigger_next_line 8 9 scenario_session scenario_sdi scenario_ctx scenario_packet
    scenario_packet rfl rfl (by decide) (by decide) rfl (by decide) (by decide) (by decide)
    (by decide) (by decide) (by decide) (by decide)

/-! ### The state invariant -/

theorem spaced_bits_snoc (bits : List Char) (b : Char) :
    ∀ n : Nat, spaced_bits n (bits ++ [b])
      = spaced_bits n bits ++ (b :: if (n + bits.length + 1) % 8 = 0 then [' '] else []) := by
  induction bits with
  | nil =>
    intro n
    by_cases h : (n + 1) % 8 = 0 <;> simp [spaced_bits, h]
  | cons x xs ih =>
    intro n
    have e : n + 1 + xs.length + 1 = n + (xs.length + 1) + 1 := by omega
    by_cases h : (n + 1) % 8 = 0 <;>
      simp [spaced_bits, h, ih (n + 1), e]

theorem bit_char_cases (v idx : Int) : bit_char v idx = '0' ∨ bit_char v idx = '1' := by
  unfold bit_char
  split_ifs
  · exact Or.inr rfl
  · exact Or.inl rfl

theorem forall2_seed (names : List GString) :
    List.Forall₂ (line_holds 0) names (names.map (fun name => name ++ [':'])) := by
  induction names with
  | nil => exact List.Forall₂.nil
  | cons x xs ih =>
    exact List.Forall₂.cons ⟨[], rfl, by simp, by simp [spaced_bits]⟩ ih

theorem forall2_append_bit (logic : sr_datafeed_logic) (i : Nat) (cnt : Nat)
    (names lines : List GString) (h : List.Forall₂ (line_holds cnt) names lines) :
    ∀ idxs : List Int, idxs.length = lines.length →
      List.Forall₂ (line_holds (cnt + 1)) names
        (List.zipWith (fun line idx => line ++ [sample_bit logic i idx]
            ++ (if (cnt + 1) % 8 = 0 then [' '] else [])) lines idxs) := by
  induction h with
  | nil => intro idxs _; simp
  | @cons name line names lines hl _ ih =>
    intro idxs hlen
    cases idxs with
    | nil => simp at hlen
    | cons idx idxs =>
      simp only [List.length_cons, Nat.add_right_cancel_iff] at hlen
      simp only [List.zipWith_cons_cons]
      refine List.Forall₂.cons ?_ (ih idxs hlen)
      obtain ⟨bits, hb1, hb2, hb3⟩ := hl
      refine ⟨bits ++ [sample_bit logic i idx], by simp [hb1], ?_, ?_⟩
      · intro b hb
        rcases List.mem_append.mp hb with h1 | h1
        · exact hb2 b h1
        · rw [List.mem_singleton.mp h1]; exact bit_char_cases _ _
      · rw [hb3, spaced_bits_snoc, hb1]
        simp [List.append_assoc]

/-- One run of the body of the sample loop keeps the invariant. -/
theorem sample_step_inv (logic : sr_datafeed_logic) (i : Nat) (st : loop_state)
    (hinv : session_inv st.ctx) : session_inv (sample_step logic i st).ctx := by
  obtain ⟨hwf, h0, hlt, htr, hlines⟩ := hinv
  have hwf1 := sample_step_wf logic i st hwf
  by_cases hf : st.ctx.spl_cnt + 1 = st.ctx.samples_per_line
  · simp only [sample_step, hf, if_true] at hwf1 ⊢
    refine ⟨hwf1, le_refl _, by show (0 : Int) < st.ctx.samples_per_line; omega, ?_, ?_⟩
    · show (if 0 < st.ctx.num_enabled_channels ∧ st.ctx.trigger > -1 then -1
          else st.ctx.trigger) = -1 ∨ _
      by_cases hfire : 0 < st.ctx.num_enabled_channels ∧ st.ctx.trigger > -1
      · rw [if_pos hfire]; exact Or.inl rfl
      · rw [if_neg hfire]; exact htr
    · exact forall2_seed _
  · simp only [sample_step, hf, if_false] at hwf1 ⊢
    obtain ⟨n, hn⟩ := Int.eq_ofNat_of_zero_le h0
    refine ⟨hwf1, by show (0 : Int) ≤ st.ctx.spl_cnt + 1; omega,
      by show st.ctx.spl_cnt + 1 < st.ctx.samples_per_line; omega, htr, ?_⟩
    show List.Forall₂ (line_holds (st.ctx.spl_cnt + 1).toNat) st.ctx.channel_names _
    have hland : (Int.land (st.ctx.spl_cnt + 1) 7 = 0) ↔ ((n + 1) % 8 = 0) := by
      rw [hn]; exact land_seven n
    have hto : (st.ctx.spl_cnt + 1).toNat = n + 1 := by rw [hn]; omega
    rw [hn, Int.toNat_ofNat] at hlines
    rw [hto]
    have h := forall2_append_bit logic i n _ _ hlines st.ctx.channel_index
      (by rw [hwf.1, hwf.2.2])
    by_cases h8 : (n + 1) % 8 = 0
    · simp only [h8, if_true, hland.mpr h8] at h ⊢
      exact h
    · have : ¬ Int.land (st.ctx.spl_cnt + 1) 7 = 0 := fun e => h8 (hland.mp e)
      simp only [h8, if_false, this] at h ⊢
      exact h

theorem run_samples_inv (smps : List (sr_datafeed_logic × Nat)) :
    ∀ st : loop_state, session_inv st.ctx → session_inv (run_samples smps st).ctx := by
  induction smps with
  | nil => intro st h; exact h
  | cons smp rest ih =>
    intro st hinv
    have h := ih (sample_step smp.1 smp.2 st) (sample_step_inv _ _ _ hinv)
    simp only [run_samples, List.foldl_cons] at h ⊢
    rw [sample_body_eq _ _ _ hinv.1]
    exact h

/-- One call of `receive` keeps the invariant. -/
theorem receive_inv (fuel : Nat) (o : sr_output) (sdi : sr_dev_inst) (ctx : context)
    (ev : sr_datafeed_packet) (hsdi : o.sdi = some sdi) (hint : o.internal = some ctx)
    (hinv : session_inv ctx)
    (hok : ∀ l, ev = sr_datafeed_packet.SR_DF_LOGIC l →
      packet_ok l ∧ l.length / l.unitsize < fuel) :
    ∃ (r : receive_result) (ctx1 : context),
      receive fuel (some o) ev = some r ∧ r.internal = some ctx1 ∧ session_inv ctx1 := by
  cases ev with
  | SR_DF_TRIGGER =>
    refine ⟨_, _, receive_trigger_eq fuel o sdi ctx hsdi hint, rfl, ?_⟩
    obtain ⟨hwf, h0, hlt, -, hlines⟩ := hinv
    exact ⟨hwf, h0, hlt, Or.inr ⟨h0, hlt⟩, hlines⟩
  | SR_DF_LOGIC l =>
    obtain ⟨⟨hu, hl, h64⟩, hfuel⟩ := hok l rfl
    refine ⟨_, _, receive_logic fuel o sdi ctx l hsdi hint hu hl h64 hfuel, rfl, ?_⟩
    apply run_samples_inv
    rw [logic_start_eq]
    exact hinv
  | SR_DF_END =>
    by_cases hc : ctx.spl_cnt = 0
    · exact ⟨⟨retcode.SR_OK, some ctx, none, []⟩, ctx,
        by simp only [receive, hsdi, hint, hc, ne_eq, not_true_eq_false, if_false], rfl, hinv⟩
    · exact ⟨⟨retcode.SR_OK, some ctx,
          some (List.foldl (end_body ctx) [] (List.range ctx.num_enabled_channels)), []⟩, ctx,
        by simp only [receive, hsdi, hint, hc, ne_eq, not_false_eq_true, if_true], rfl, hinv⟩
  | SR_DF_OTHER =>
    exact ⟨⟨retcode.SR_OK, some ctx, none, []⟩, ctx, by simp only [receive, hsdi, hint], rfl,
      hinv⟩

theorem receive_all_inv (fuel : Nat) (sdi : sr_dev_inst) (evs : List sr_datafeed_packet) :
    ∀ (o : sr_output) (ctx : context), o.sdi = some sdi → o.internal = some ctx →
      session_inv ctx →
      (∀ l, sr_datafeed_packet.SR_DF_LOGIC l ∈ evs →
        packet_ok l ∧ l.length / l.unitsize < fuel) →
      ∃ (outs : List (Option GString)) (o1 : sr_output) (ctx1 : context),
        receive_all fuel o evs = some (outs, o1) ∧ o1.internal = some ctx1 ∧
        session_inv ctx1 := by
  induction evs with
  | nil =>
    intro o ctx _ hint hinv _
    exact ⟨[], o, ctx, rfl, hint, hinv⟩
  | cons ev rest ih =>
    intro o ctx hsdi hint hinv hok
    obtain ⟨r, ctx1, hr, hri, hinv1⟩ := receive_inv fuel o sdi ctx ev hsdi hint hinv
      (fun l h => hok l (by simp [h]))
    obtain ⟨outs, o2, ctx2, hall, hint2, hinv2⟩ :=
      ih { o with internal := r.internal } ctx1 hsdi hri hinv1
        (fun l h => hok l (by simp [h]))
    exact ⟨r.out :: outs, o2, ctx2, by simp only [receive_all, hr, hall], hint2, hinv2⟩

/-- C15. State invariant: after a successful `init` and any sequence of
packets whose `SR_DF_LOGIC` packets have `unit_size >= 1` and
`buffer_length >= unit_size`, all calls return and the context satisfies
`0 <= spl_cnt < samples_per_line`, the trigger is absent (`-1`) or a column
in `[0, samples_per_line)`, and every channel's line buffer is `"<name>:"`
followed by exactly `spl_cnt` characters `0`/`1` with a space after every
8th. -/
theorem state_invariant (PACKAGE_STRING : GString)
    (sr_samplerate_string : Nat → GString) (strtoul : GString → Nat) (o0 o : sr_output)
    (hinit : init PACKAGE_STRING sr_samplerate_string strtoul (some o0)
      = (retcode.SR_OK, some o))
    (fuel : Nat) (evs : List sr_datafeed_packet)
    (hok : ∀ l, sr_datafeed_packet.SR_DF_LOGIC l ∈ evs →
      packet_ok l ∧ l.length / l.unitsize < fuel) :
    ∃ (outs : List (Option GString)) (o1 : sr_output) (ctx1 : context),
      receive_all fuel o evs = some (outs, o1) ∧ o1.internal = some ctx1 ∧
      0 ≤ ctx1.spl_cnt ∧ ctx1.spl_cnt < ctx1.samples_per_line ∧
      (ctx1.trigger = -1 ∨ (0 ≤ ctx1.trigger ∧ ctx1.trigger < ctx1.samples_per_line)) ∧
      ctx1.lines.length = ctx1.channel_names.length ∧
      List.Forall₂
        (fun name line => ∃ bits : List Char, (bits.length : Int) = ctx1.spl_cnt ∧
          (∀ b ∈ bits, b = '0' ∨ b = '1') ∧ line = name ++ [':'] ++ spaced_bits 0 bits)
        ctx1.channel_names ctx1.lines := by
  obtain ⟨sdi, ctx0, hsdi, -, hint, hfresh, hw, -⟩ :=
    init_ok PACKAGE_STRING sr_samplerate_string strtoul o0 o hinit
  obtain ⟨hwf, hc, ht, hl⟩ := hfresh
  have hinv0 : session_inv ctx0 := by
    refine ⟨hwf, by omega, by omega, Or.inl ht, ?_⟩
    rw [hc, hl]
    exact forall2_seed _
  obtain ⟨outs, o1, ctx1, hall, hint1, hwf1, h0, hlt, htr, hlines⟩ :=
    receive_all_inv fuel sdi evs o ctx0 hsdi hint hinv0 hok
  refine ⟨outs, o1, ctx1, hall, hint1, h0, hlt, htr, by rw [hwf1.2.2, hwf1.2.1], ?_⟩
  refine List.Forall₂.imp ?_ hlines
  intro name line ⟨bits, hb1, hb2, hb3⟩
  exact ⟨bits, by rw [hb1]; exact Int.toNat_of_nonneg h0, hb2, hb3⟩

/-- C15, witness: the scenario session after three samples, a trigger and an
end of stream. -/
theorem state_invariant_witness :
    ∃ (outs : List (Option GString)) (o1 : sr_output) (ctx1 : context),
      receive_all 9 initialised_session
          [sr_datafeed_packet.SR_DF_LOGIC ⟨3, 1, [1, 0, 1]⟩, sr_datafeed_packet.SR_DF_TRIGGER,
            sr_datafeed_packet.SR_DF_END] = some (outs, o1) ∧
      o1.internal = some ctx1 ∧
      0 ≤ ctx1.spl_cnt ∧ ctx1.spl_cnt < ctx1.samples_per_line ∧
      (ctx1.trigger = -1 ∨ (0 ≤ ctx1.trigger ∧ ctx1.trigger < ctx1.samples_per_line)) ∧
      ctx1.lines.length = ctx1.channel_names.length ∧
      List.Forall₂
        (fun name line => ∃ bits : List Char, (bits.length : Int) = ctx1.spl_cnt ∧
          (∀ b ∈ bits, b = '0' ∨ b = '1') ∧ line = name ++ [':'] ++ spaced_bits 0 bits)
        ctx1.channel_names ctx1.lines :=
  state_invariant "libsigrok 0.3.0".toList (fun _ => "1 MHz".toList) strtoul10
    scenario_output initialised_session (scenario_init _ _) 9
    [sr_datafeed_packet.SR_DF_LOGIC ⟨3, 1, [1, 0, 1]⟩, sr_datafeed_packet.SR_DF_TRIGGER,
      sr_datafeed_packet.SR_DF_END]
    (by
      intro l h
      simp only [List.mem_cons, sr_datafeed_packet.SR_DF_LOGIC.injEq, List.mem_singleton,
        List.mem_nil_iff, or_false, reduceCtorEq] at h
      subst h
      decide)

/-! ### Caret and sample column -/

theorem group_bits_snoc (n : Nat) (old : List Char) (b : Char) :
    group_bits n (old ++ [b]) = spaced_bits n old ++ [b] := by
  rw [← line_tail_nat, line_tail_snoc, accumulate_nat]

theorem group_bits_split (c : Nat) :
    ∀ (n : Nat) (bits : List Char), c < bits.length →
      group_bits n bits = spaced_bits n (bits.take c) ++ group_bits (n + c) (bits.drop c) := by
  induction c with
  | zero => intro n bits _; simp [spaced_bits]
  | succ c ih =>
    intro n bits hc
    match bits, hc with
    | b :: b' :: rest, hc =>
      have h := ih (n + 1) (b' :: rest) (by simpa using hc)
      have e : n + 1 + c = n + (c + 1) := by omega
      rw [e] at h
      by_cases h8 : (n + 1) % 8 = 0
      · simp only [group_bits, h8, if_true, List.take_succ_cons, spaced_bits, List.drop_succ_cons,
          List.cons_append, h]
      · simp only [group_bits, h8, if_false, List.take_succ_cons, spaced_bits,
          List.drop_succ_cons, List.cons_append, h]

theorem spaced_bits_length (bits : List Char) :
    ∀ n : Nat, (spaced_bits n bits).length = bits.length + ((n + bits.length) / 8 - n / 8) := by
  induction bits with
  | nil => intro n; simp [spaced_bits]
  | cons b bs ih =>
    intro n
    by_cases h8 : (n + 1) % 8 = 0
    · simp only [spaced_bits, h8, if_true, List.length_cons, ih (n + 1)]
      omega
    · simp only [spaced_bits, h8, if_false, List.length_cons, ih (n + 1)]
      omega

theorem group_bits_head (n : Nat) (bits : List Char) :
    (group_bits n bits)[0]? = bits[0]? := by
  match bits with
  | [] => rfl
  | [b] => rfl
  | b :: b' :: rest =>
    by_cases h8 : (n + 1) % 8 = 0 <;> simp [group_bits, h8]

/-- Where the bit of column `c` stands in a flushed line: after the name, the
colon, the `c` earlier bits and their `c / 8` spaces. -/
theorem flushed_line_column (n c : Nat) (hc : c ≤ n) (name line : GString) (b : Char)
    (h : line_holds n name line) :
    ∃ bits : List Char, bits.length = n + 1 ∧
      line ++ [b] = name ++ [':'] ++ group_bits 0 bits ∧
      (line ++ [b]).take (name.length + 1 + c + c / 8)
        = name ++ [':'] ++ spaced_bits 0 (bits.take c) ∧
      (line ++ [b])[name.length + 1 + c + c / 8]? = bits[c]? := by
  obtain ⟨old, ho1, -, ho3⟩ := h
  have hlen : (old ++ [b]).length = n + 1 := by simp [ho1]
  have hline : line ++ [b] = name ++ [':'] ++ group_bits 0 (old ++ [b]) := by
    rw [ho3, group_bits_snoc, List.append_assoc]
  have hsplit := group_bits_split c 0 (old ++ [b]) (by omega)
  rw [Nat.zero_add] at hsplit
  have hpre : (name ++ [':'] ++ spaced_bits 0 ((old ++ [b]).take c)).length
      = name.length + 1 + c + c / 8 := by
    rw [List.length_append, List.length_append, spaced_bits_length, List.length_take]
    simp only [List.length_singleton, Nat.zero_add, Nat.zero_div, Nat.sub_zero]
    rw [Nat.min_eq_left (by omega)]
    omega
  have hwhole : line ++ [b] = (name ++ [':'] ++ spaced_bits 0 ((old ++ [b]).take c))
      ++ group_bits c ((old ++ [b]).drop c) := by
    rw [hline, hsplit]
    simp only [List.append_assoc]
  refine ⟨old ++ [b], hlen, hline, ?_, ?_⟩
  · rw [hwhole, ← hpre, List.take_left]
  · rw [hwhole, ← hpre, List.getElem?_append_right (le_refl _), Nat.sub_self, group_bits_head]
    simp

theorem forall2_zipWith_left {P Q : GString → GString → Prop} (f : GString → Int → GString)
    (hPQ : ∀ name line idx, P name line → Q name (f line idx))
    (names lines : List GString) (h : List.Forall₂ P names lines) :
    ∀ idxs : List Int, idxs.length = lines.length →
      List.Forall₂ Q names (List.zipWith f lines idxs) := by
  induction h with
  | nil => intro idxs _; simp
  | @cons name line names lines hl _ ih =>
    intro idxs hlen
    cases idxs with
    | nil => simp at hlen
    | cons idx idxs =>
      simp only [List.length_cons, Nat.add_right_cancel_iff] at hlen
      simp only [List.zipWith_cons_cons]
      exact List.Forall₂.cons (hPQ name line idx hl) (ih idxs hlen)

/-- C18 (as stated, refuted). Width 8, channels `D0` and `D1`, trigger at
column 3: in the block of the flush the caret stands at offset 5 of the
annotation line, while in the line of `D0` three bits precede offset 6, so
the bit of column 3 stands at offset 6 and offset 5 holds the bit of
column 2. -/
theorem caret_alignment_refuted :
    (receive 6 (some { scenario_output with internal := some trigger_scenario_ctx })
        (sr_datafeed_packet.SR_DF_LOGIC trigger_scenario_packet)).map (fun r => r.out)
      = some (some ("D0:10101010".toList ++ ['\n'] ++ "D1:00001111".toList ++ ['\n']
          ++ trigger_line 3)) ∧
    (trigger_line 3).indexOf '^' = 5 ∧
    "D0:10101010".toList
      = "D0".toList ++ [':'] ++ group_bits 0 ['1', '0', '1', '0', '1', '0', '1', '0'] ∧
    "D0:10101010".toList.take 6 = "D0".toList ++ [':'] ++ spaced_bits 0 ['1', '0', '1'] ∧
    "D0:10101010".toList.take 5 = "D0".toList ++ [':'] ++ spaced_bits 0 ['1', '0'] := by
  decide

/-- C18 (amended). Caret and sample column: when a sample completes the line
while a trigger is pending at column `c`, the block ends with one flushed
line per channel and the annotation line; the caret stands at offset
`2 + c + c / 8` of the annotation line, the bit of column `c` stands at
offset `len(name) + 1 + c + c / 8` of the channel's flushed line (the name,
the colon and the `c` earlier bits with their spaces precede it), and the
two offsets are equal exactly for a channel whose name has one character. -/
theorem caret_alignment (logic : sr_datafeed_logic) (i : Nat) (st : loop_state) (c n : Nat)
    (hwf : st.ctx.wf) (hn : 1 ≤ st.ctx.num_enabled_channels)
    (hcnt : st.ctx.spl_cnt = (n : Int))
    (hfull : st.ctx.spl_cnt + 1 = st.ctx.samples_per_line)
    (htrig : st.ctx.trigger = (c : Int)) (hc : (c : Int) < st.ctx.samples_per_line)
    (hlines : List.Forall₂ (line_holds n) st.ctx.channel_names st.ctx.lines) :
    ∃ flushed : List GString,
      (sample_body logic i st).out
        = st.out ++ (flushed.map (fun line => line ++ ['\n'])).flatten
            ++ trigger_line (c : Int) ∧
      (trigger_line (c : Int)).indexOf '^' = 2 + c + c / 8 ∧
      List.Forall₂
        (fun name line => ∃ bits : List Char,
          (bits.length : Int) = st.ctx.samples_per_line ∧
          line = name ++ [':'] ++ group_bits 0 bits ∧
          line.take (name.length + 1 + c + c / 8)
            = name ++ [':'] ++ spaced_bits 0 (bits.take c) ∧
          (line)[name.length + 1 + c + c / 8]? = (bits)[c]? ∧
          ((trigger_line (c : Int)).indexOf '^' = name.length + 1 + c + c / 8
            ↔ name.length = 1))
        st.ctx.channel_names flushed := by
  have hfire : 0 < st.ctx.num_enabled_channels ∧ (c : Int) > -1 := ⟨by omega, by omega⟩
  refine ⟨List.zipWith (fun line idx => line ++ [sample_bit logic i idx]) st.ctx.lines
    st.ctx.channel_index, ?_, trigger_line_caret c, ?_⟩
  · rw [sample_body_eq _ _ _ hwf]
    simp only [sample_step, hfull, if_true, htrig, hfire, and_self, List.map_zipWith]
  · refine forall2_zipWith_left (fun line idx => line ++ [sample_bit logic i idx]) ?_ _ _ hlines
      st.ctx.channel_index (by rw [hwf.1, hwf.2.2])
    intro name line idx hl
    obtain ⟨bits, h1, h2, h3, h4⟩ := flushed_line_column n c (by omega) name line
      (sample_bit logic i idx) hl
    refine ⟨bits, by rw [h1, ← hfull, hcnt]; rfl, h2, h3, h4, ?_⟩
    rw [trigger_line_caret]
    omega

/-- C18 (amended), witness: width 8, seven samples on the lines of `D0` and
`D1`, trigger at column 3. -/
theorem caret_alignment_witness :
    ∃ flushed : List GString,
      (sample_body scenario_packet 7 aligned_state).out
        = aligned_state.out ++ (flushed.map (fun line => line ++ ['\n'])).flatten
            ++ trigger_line ((3 : Nat) : Int) ∧
      (trigger_line ((3 : Nat) : Int)).indexOf '^' = 2 + 3 + 3 / 8 ∧
      List.Forall₂
        (fun name line => ∃ bits : List Char,
          (bits.length : Int) = aligned_state.ctx.samples_per_line ∧
          line = name ++ [':'] ++ group_bits 0 bits ∧
          line.take (name.length + 1 + 3 + 3 / 8)
            = name ++ [':'] ++ spaced_bits 0 (bits.take 3) ∧
          (line)[name.length + 1 + 3 + 3 / 8]? = (bits)[3]? ∧
          ((trigger_line ((3 : Nat) : Int)).indexOf '^' = name.length + 1 + 3 + 3 / 8
            ↔ name.length = 1))
        aligned_state.ctx.channel_names flushed :=
  caret_alignment scenario_packet 7 aligned_state 3 7 (by decide) (by decide) rfl rfl rfl
    (by decide)
    (List.Forall₂.cons ⟨"1010101".toList, rfl, by decide, by decide⟩
      (List.Forall₂.cons ⟨"0000111".toList, rfl, by decide, by decide⟩ List.Forall₂.nil))

/-! ### Splitting a buffer into two packets -/

theorem sample_step_congr (p q : sr_datafeed_logic × Nat) (st1 st2 : loop_state)
    (idxs : List Int) (hidx : st1.ctx.channel_index = idxs)
    (hctx : st1.ctx = st2.ctx) (hout : st1.out = st2.out)
    (hbits : ∀ idx ∈ idxs, sample_bit p.1 p.2 idx = sample_bit q.1 q.2 idx) :
    (sample_step p.1 p.2 st1).ctx = (sample_step q.1 q.2 st2).ctx ∧
    (sample_step p.1 p.2 st1).out = (sample_step q.1 q.2 st2).out ∧
    (sample_step p.1 p.2 st1).ctx.channel_index = idxs := by
  obtain ⟨ctx1, out1, reads1⟩ := st1
  obtain ⟨ctx2, out2, reads2⟩ := st2
  simp only at hidx hctx hout
  subst hctx hout hidx
  have e1 : List.zipWith (fun line idx => line ++ [sample_bit p.1 p.2 idx] ++ ['\n'])
        ctx1.lines ctx1.channel_index
      = List.zipWith (fun line idx => line ++ [sample_bit q.1 q.2 idx] ++ ['\n'])
        ctx1.lines ctx1.channel_index :=
    zipWith_congr_mem _ _ _ _ (fun idx h line => by rw [hbits idx h])
  have e2 : List.zipWith (fun line idx => line ++ [sample_bit p.1 p.2 idx]
          ++ (if Int.land (ctx1.spl_cnt + 1) 7 = 0 then [' '] else []))
        ctx1.lines ctx1.channel_index
      = List.zipWith (fun line idx => line ++ [sample_bit q.1 q.2 idx]
          ++ (if Int.land (ctx1.spl_cnt + 1) 7 = 0 then [' '] else []))
        ctx1.lines ctx1.channel_index :=
    zipWith_congr_mem _ _ _ _ (fun idx h line => by rw [hbits idx h])
  by_cases hf : ctx1.spl_cnt + 1 = ctx1.samples_per_line
  · simp only [sample_step, hf, if_true, e1, and_self]
  · simp only [sample_step, hf, if_false, e2, and_self]

theorem fold_step_congr (idxs : List Int) (smps1 smps2 : List (sr_datafeed_logic × Nat))
    (h : List.Forall₂
      (fun p q => ∀ idx ∈ idxs, sample_bit p.1 p.2 idx = sample_bit q.1 q.2 idx) smps1 smps2) :
    ∀ st1 st2 : loop_state, st1.ctx.channel_index = idxs → st1.ctx = st2.ctx →
      st1.out = st2.out →
      (smps1.foldl (fun st smp => sample_step smp.1 smp.2 st) st1).ctx
        = (smps2.foldl (fun st smp => sample_step smp.1 smp.2 st) st2).ctx ∧
      (smps1.foldl (fun st smp => sample_step smp.1 smp.2 st) st1).out
        = (smps2.foldl (fun st smp => sample_step smp.1 smp.2 st) st2).out := by
  induction h with
  | nil => intro st1 st2 _ hctx hout; exact ⟨hctx, hout⟩
  | @cons p q l1 l2 hpq _ ih =>
    intro st1 st2 hidx hctx hout
    obtain ⟨h1, h2, h3⟩ := sample_step_congr p q st1 st2 idxs hidx hctx hout hpq
    simp only [List.foldl_cons]
    exact ih _ _ h3 h1 h2

/-- Two lists of samples with the same bits on the channels of the context
lead to the same context and the same output. -/
theorem run_samples_congr (smps1 smps2 : List (sr_datafeed_logic × Nat)) (st1 st2 : loop_state)
    (hwf : st1.ctx.wf) (hctx : st1.ctx = st2.ctx) (hout : st1.out = st2.out)
    (h : List.Forall₂
      (fun p q => ∀ idx ∈ st1.ctx.channel_index,
        sample_bit p.1 p.2 idx = sample_bit q.1 q.2 idx) smps1 smps2) :
    (run_samples smps1 st1).ctx = (run_samples smps2 st2).ctx ∧
    (run_samples smps1 st1).out = (run_samples smps2 st2).out := by
  rw [run_samples_eq smps1 st1 hwf, run_samples_eq smps2 st2 (hctx ▸ hwf)]
  exact fold_step_congr _ smps1 smps2 h st1 st2 rfl hctx hout

theorem sample_bit_left (A B : sr_datafeed_logic) (s : Nat) (idx : Int)
    (hs : (s + 1) * A.unitsize ≤ A.data.length)
    (h0 : 0 ≤ idx) (h1 : idx < 8 * (A.unitsize : Int)) :
    sample_bit (join_packets A B) (s * A.unitsize) idx = sample_bit A (s * A.unitsize) idx := by
  obtain ⟨k, rfl⟩ := Int.eq_ofNat_of_zero_le h0
  rw [sample_bit_nat, sample_bit_nat]
  have hk : k / 8 < A.unitsize := by omega
  have hlt : s * A.unitsize + k / 8 < A.data.length := by
    have : (s + 1) * A.unitsize = s * A.unitsize + A.unitsize := by ring
    omega
  simp only [join_packets, List.getD_append _ _ _ _ hlt]

theorem sample_bit_right (A B : sr_datafeed_logic) (a s : Nat) (idx : Int)
    (ha : A.data.length = a * A.unitsize) (hu : B.unitsize = A.unitsize) (h0 : 0 ≤ idx) :
    sample_bit (join_packets A B) ((a + s) * A.unitsize) idx
      = sample_bit B (s * B.unitsize) idx := by
  obtain ⟨k, rfl⟩ := Int.eq_ofNat_of_zero_le h0
  rw [sample_bit_nat, sample_bit_nat, hu]
  have e : (a + s) * A.unitsize + k / 8 = A.data.length + (s * A.unitsize + k / 8) := by
    rw [ha]; ring
  simp only [join_packets, e, List.getD_append_right _ _ _ _ (Nat.le_add_right _ _),
    Nat.add_sub_cancel_left]

theorem forall2_map_same {α β γ : Type} (R : β → γ → Prop) (f : α → β) (g : α → γ) :
    ∀ l : List α, (∀ s ∈ l, R (f s) (g s)) → List.Forall₂ R (l.map f) (l.map g) := by
  intro l
  induction l with
  | nil => intro _; exact List.Forall₂.nil
  | cons x xs ih =>
    intro h
    exact List.Forall₂.cons (h x (by simp)) (ih (fun s hs => h s (by simp [hs])))

theorem packet_samples_join (A B : sr_datafeed_logic) (a b : Nat) (hu : 1 ≤ A.unitsize)
    (hA : A.length = a * A.unitsize) (hB : B.length = b * A.unitsize) :
    packet_samples (join_packets A B)
      = (List.range a).map (fun s => (join_packets A B, s * A.unitsize))
        ++ (List.range b).map (fun s => (join_packets A B, (a + s) * A.unitsize)) := by
  have hq : (join_packets A B).length / (join_packets A B).unitsize = a + b := by
    simp only [join_packets, hA, hB, ← Nat.add_mul]
    exact Nat.mul_div_cancel _ (by omega)
  simp only [packet_samples, hq, List.range_add, List.map_append, List.map_map]
  rfl

theorem header_none_eta (ctx : context) (h : ctx.header = none) :
    logic_start ctx = ⟨ctx, [], []⟩ := by
  obtain ⟨n, w, c, t, ci, cn, ls, hd⟩ := ctx
  simp only at h
  subst h
  rfl

/-- The sample loop over the joined packet, from the state `receive` starts
it in, against the loops over the two packets one after the other. -/
theorem run_samples_join (ctx : context) (A B : sr_datafeed_logic) (a b : Nat)
    (hwf : ctx.wf)
    (hidx : ∀ idx ∈ ctx.channel_index, 0 ≤ idx ∧ idx < 8 * (A.unitsize : Int))
    (hu : 1 ≤ A.unitsize) (hBu : B.unitsize = A.unitsize)
    (hA : A.length = a * A.unitsize) (hB : B.length = b * A.unitsize)
    (hAd : A.data.length = A.length) :
    (run_samples (packet_samples (join_packets A B)) (logic_start ctx)).ctx
      = (run_samples (packet_samples B)
          (logic_start (run_samples (packet_samples A) (logic_start ctx)).ctx)).ctx ∧
    (run_samples (packet_samples (join_packets A B)) (logic_start ctx)).out
      = (run_samples (packet_samples A) (logic_start ctx)).out
        ++ (run_samples (packet_samples B)
          (logic_start (run_samples (packet_samples A) (logic_start ctx)).ctx)).out := by
  have hwf0 : (logic_start ctx).ctx.wf := by rw [logic_start_eq]; exact hwf
  have hci0 : (logic_start ctx).ctx.channel_index = ctx.channel_index := by
    rw [logic_start_eq]
  have hh0 : (logic_start ctx).ctx.header = none := by rw [logic_start_eq]
  have hqa : A.length / A.unitsize = a := by rw [hA]; exact Nat.mul_div_cancel _ (by omega)
  have hqb : B.length / B.unitsize = b := by
    rw [hB, hBu]; exact Nat.mul_div_cancel _ (by omega)
  -- the first part of the joined packet against `A`
  have h1 := run_samples_congr
    ((List.range a).map (fun s => (join_packets A B, s * A.unitsize))) (packet_samples A)
    (logic_start ctx) (logic_start ctx) hwf0 rfl rfl (by
      rw [packet_samples, hqa]
      refine forall2_map_same _ _ _ _ ?_
      intro s hs idx hi
      rw [hci0] at hi
      have hs1 : s < a := List.mem_range.mp hs
      refine sample_bit_left A B s idx ?_ (hidx idx hi).1 (hidx idx hi).2
      rw [hAd, hA]
      exact Nat.mul_le_mul_right _ hs1)
  obtain ⟨hc1, ho1⟩ := h1
  have hfA := run_samples_frame (packet_samples A) (logic_start ctx) hwf0
  have hwfA := run_samples_wf (packet_samples A) (logic_start ctx) hwf0
  have hstartA := header_none_eta (run_samples (packet_samples A) (logic_start ctx)).ctx
    (by rw [hfA.2.2.2.2.1, hh0])
  -- the second part against `B`
  have h2 := run_samples_congr
    ((List.range b).map (fun s => (join_packets A B, (a + s) * A.unitsize))) (packet_samples B)
    (run_samples ((List.range a).map (fun s => (join_packets A B, s * A.unitsize)))
      (logic_start ctx))
    ⟨(run_samples (packet_samples A) (logic_start ctx)).ctx,
      (run_samples (packet_samples A) (logic_start ctx)).out, []⟩
    (by rw [hc1]; exact hwfA) hc1 ho1 (by
      rw [packet_samples, hqb, hc1, hfA.1, hci0]
      refine forall2_map_same _ _ _ _ ?_
      intro s _ idx hi
      exact sample_bit_right A B a s idx (by rw [hAd, hA]) hBu (hidx idx hi).1)
  rw [packet_samples_join A B a b hu hA hB, run_samples_append, h2.1, h2.2, hstartA,
    run_samples_out_frame _ _ _ _ hwfA]
  exact ⟨rfl, rfl⟩

/-- C19 (as stated, refuted). One channel on bit 8 and one byte per sample:
the buffer `[0]` followed by the buffer `[1]` leaves the line `"D8:00"`, the
joined buffer `[0, 1]` leaves `"D8:10"`.  The sample of the first buffer
is read at offset 1, past its only byte; in the joined buffer that offset
holds the first byte of the second buffer. -/
theorem chunking_invariance_refuted :
    receive_all 9 bit8_session
        [sr_datafeed_packet.SR_DF_LOGIC ⟨1, 1, [0]⟩, sr_datafeed_packet.SR_DF_LOGIC ⟨1, 1, [1]⟩]
      = some ([some [], some []],
          { scenario_output with
            internal := some { bit8_ctx with spl_cnt := 2, lines := ["D8:00".toList] } }) ∧
    receive_all 9 bit8_session
        [sr_datafeed_packet.SR_DF_LOGIC (join_packets ⟨1, 1, [0]⟩ ⟨1, 1, [1]⟩)]
      = some ([some []],
          { scenario_output with
            internal := some { bit8_ctx with spl_cnt := 2, lines := ["D8:10".toList] } }) ∧
    (receive 9 (some bit8_session) (sr_datafeed_packet.SR_DF_LOGIC ⟨1, 1, [0]⟩)).map
        (fun r => r.reads) = some [1] := by
  decide

/-- C19 (amended). Chunking invariance: in a session whose channels all sit
on bits `0 <= index < 8 * unit_size`, for two non-empty buffers `A` and `B`
of `a` and `b` whole samples, processing `A` and then `B` returns two blocks
and a final state, and processing the joined buffer returns the
concatenation of the two blocks and the same final state. -/
theorem chunking_invariance (fuel : Nat) (o : sr_output) (sdi : sr_dev_inst) (ctx : context)
    (A B : sr_datafeed_logic) (a b : Nat)
    (hsdi : o.sdi = some sdi) (hint : o.internal = some ctx) (hwf : ctx.wf)
    (hidx : ∀ idx ∈ ctx.channel_index, 0 ≤ idx ∧ idx < 8 * (A.unitsize : Int))
    (hu : 1 ≤ A.unitsize) (hBu : B.unitsize = A.unitsize)
    (ha : 1 ≤ a) (hb : 1 ≤ b)
    (hA : A.length = a * A.unitsize) (hB : B.length = b * A.unitsize)
    (hAd : A.data.length = A.length)
    (h64 : A.length + B.length < 2 ^ 64) (hfuel : a + b < fuel) :
    ∃ (x y : GString) (o1 : sr_output),
      receive_all fuel o
          [sr_datafeed_packet.SR_DF_LOGIC A, sr_datafeed_packet.SR_DF_LOGIC B]
        = some ([some x, some y], o1) ∧
      receive_all fuel o [sr_datafeed_packet.SR_DF_LOGIC (join_packets A B)]
        = some ([some (x ++ y)], o1) := by
  have hqa : A.length / A.unitsize = a := by rw [hA]; exact Nat.mul_div_cancel _ (by omega)
  have hqb : B.length / B.unitsize = b := by
    rw [hB, hBu]; exact Nat.mul_div_cancel _ (by omega)
  have hqj : (join_packets A B).length / (join_packets A B).unitsize = a + b := by
    simp only [join_packets, hA, hB, ← Nat.add_mul]
    exact Nat.mul_div_cancel _ (by omega)
  have hAl : A.unitsize ≤ A.length := by rw [hA]; exact Nat.le_mul_of_pos_left _ (by omega)
  have hBl : B.unitsize ≤ B.length := by
    rw [hB, hBu]; exact Nat.le_mul_of_pos_left _ (by omega)
  have rA := receive_logic fuel o sdi ctx A hsdi hint hu hAl (by omega) (by omega)
  have rB := receive_logic fuel
    { o with internal := some (run_samples (packet_samples A) (logic_start ctx)).ctx } sdi
    (run_samples (packet_samples A) (logic_start ctx)).ctx B hsdi rfl (by omega) hBl (by omega)
    (by omega)
  have rJ := receive_logic fuel o sdi ctx (join_packets A B) hsdi hint hu
    (by show A.unitsize ≤ A.length + B.length; omega) h64 (by omega)
  obtain ⟨hc, ho⟩ := run_samples_join ctx A B a b hwf hidx hu hBu hA hB hAd
  simp only [receive_all, rA, rB, rJ, hc, ho]
  exact ⟨_, _, _, rfl, rfl⟩

/-- C19 (amended), witness: the eight samples of the scenario, twice, against
the sixteen samples in one packet. -/
theorem chunking_invariance_witness :
    ∃ (x y : GString) (o1 : sr_output),
      receive_all 20 scenario_session
          [sr_datafeed_packet.SR_DF_LOGIC scenario_packet,
            sr_datafeed_packet.SR_DF_LOGIC scenario_packet]
        = some ([some x, some y], o1) ∧
      receive_all 20 scenario_session
          [sr_datafeed_packet.SR_DF_LOGIC (join_packets scenario_packet scenario_packet)]
        = some ([some (x ++ y)], o1) :=
  chunking_invariance 20 scenario_session scenario_sdi scenario_ctx scenario_packet
    scenario_packet 8 8 rfl rfl (by decide) (by decide) (by decide) rfl (by decide) (by decide)
    rfl rfl rfl (by decide) (by decide)

end Bits
